import Mathlib

/-!
Verification development for the grasql query-analysis front end
(src/native/grasql/src). The Rust sources are shallowly embedded:

* the process-wide string interner (interning.rs) is modelled as a
  `List String` threaded explicitly through every function that interns;
  the symbol id assigned to a string is its index in that list;
* the GraphQL AST produced by the external graphql_query parser is
  modelled by the inductive types below (only the constructors the
  grasql code inspects);
* Rust `HashSet<FieldPath>` / `HashMap<FieldPath, HashSet<SymbolId>>`
  are modelled as duplicate-free lists in insertion order; because the
  iteration order of a Rust hash set is unspecified, every function of
  the embedding that iterates such a set is parameterised by the
  enumeration it sees, and theorems quantify over (or exhibit)
  enumerations that are permutations of the extracted set;
* fallible Rust functions returning `Result<_, String>` become
  `Except String _` with the exact error strings of the source;
* the global `CONFIG` is modelled as an explicit `Config` argument
  (the source's fallback branches for an uninitialised or poisoned
  configuration lock are outside this embedding);
* `u32`/`u64` arithmetic is `Nat` arithmetic with explicit `% 2 ^ 32` /
  `% 2 ^ 64` where overflow can occur.
-/

namespace GraSQL

/-! ## String helpers

Rust `str::starts_with` on UTF-8 strings, embedded over the character
lists of Lean strings so that concrete instances reduce in the kernel. -/

def charsPrefix : List Char → List Char → Bool
  | [], _ => true
  | _ :: _, [] => false
  | p :: ps, c :: cs => p = c && charsPrefix ps cs

/-- Model of Rust `str::starts_with`: `strStarts s p` is true iff `p` is a
prefix of `s`. -/
def strStarts (s p : String) : Bool := charsPrefix p.data s.data

/-! ## String interner (interning.rs)

`STRING_INTERNER` is a process-wide `lasso::Rodeo`: `get_or_intern`
returns the existing symbol of a known string and assigns the next
fresh symbol otherwise, and `strings()` iterates all interned strings
in assignment order.  The interner state is the list of interned
strings in assignment order; the symbol of a string is its index. -/

def idxOfStr : List String → String → Option Nat
  | [], _ => none
  | x :: xs, s => if x = s then some 0 else (idxOfStr xs s).map (· + 1)

/-- Model of `intern_str` (interning.rs:29): returns the updated interner
state together with the symbol id of `s`. -/
def intern_str (tbl : List String) (s : String) : List String × Nat :=
  match idxOfStr tbl s with
  | some i => (tbl, i)
  | none => (tbl ++ [s], tbl.length)

/-- Model of `get_all_strings` (interning.rs:50): all interned strings in
assignment order. -/
def get_all_strings (tbl : List String) : List String := tbl

/-! ## GraphQL AST (the fragment of graphql_query::ast that grasql reads)

Argument values distinguish exactly the cases the extractor inspects:
variables, objects, lists, and everything else (scalars: strings,
numbers, booleans, null, enums). -/

mutual
inductive Value : Type where
  | varV (name : String) : Value
  | scalar : Value
  | listV (children : List Value) : Value
  | obj (children : List ObjField) : Value
inductive ObjField : Type where
  | mk (name : String) (value : Value) : ObjField
end

def ObjField.name : ObjField → String
  | .mk n _ => n

def ObjField.value : ObjField → Value
  | .mk _ v => v

structure Argument where
  name : String
  value : Value

mutual
inductive Selection : Type where
  | field (f : Field) : Selection
  | fragmentSpread : Selection
  | inlineFragment : Selection
inductive Field : Type where
  | mk (name : String) (arguments : List Argument) (directives : List String)
      (selection_set : List Selection) : Field
end

def Field.name : Field → String
  | .mk n _ _ _ => n

def Field.arguments : Field → List Argument
  | .mk _ a _ _ => a

def Field.directives : Field → List String
  | .mk _ _ d _ => d

def Field.selection_set : Field → List Selection
  | .mk _ _ _ s => s

/-- Model of `Selection::field()`: `Some` for a field selection. -/
def Selection.fieldOf : Selection → Option Field
  | .field f => some f
  | _ => none

inductive OperationKind : Type where
  | query
  | mutation
  | subscription
deriving DecidableEq

structure OperationDefinition where
  operation : OperationKind
  name : Option String
  directives : List String
  selection_set : List Selection

inductive Definition : Type where
  | operation (op : OperationDefinition) : Definition
  | fragmentDef : Definition

structure Document where
  definitions : List Definition

/-! ## Configuration (config.rs)

Only the mutation prefixes are read by the functions under
verification.  The Rust field names are `insert_prefix`,
`update_prefix`, `delete_prefix`; they are shortened here. -/

structure Config where
  insertPfx : String
  updatePfx : String
  deletePfx : String
deriving DecidableEq

/-- The default configuration of the spec (insert_ / update_ / delete_). -/
def defaultConfig : Config :=
  { insertPfx := "insert_", updatePfx := "update_", deletePfx := "delete_" }

/-! ## Operation kinds (types.rs) -/

inductive GraphQLOperationKind : Type where
  | Query
  | InsertMutation
  | UpdateMutation
  | DeleteMutation
  | Subscription
deriving DecidableEq

/-- Model of `From<graphql_query::ast::OperationKind>` (types.rs:442). -/
def opKindFromAst : OperationKind → GraphQLOperationKind
  | .query => .Query
  | .mutation => .InsertMutation
  | .subscription => .Subscription

/-- The prefix-matching chain of parser.rs:46-55 (and its duplicate at
parser.rs:262-271): classify a mutation root field name. -/
def mutationKindOf (cfg : Config) (name : String) : GraphQLOperationKind :=
  if strStarts name cfg.insertPfx then .InsertMutation
  else if strStarts name cfg.updatePfx then .UpdateMutation
  else if strStarts name cfg.deletePfx then .DeleteMutation
  else .InsertMutation

/-- One step of the definition loop of `determine_operation_kind`
(parser.rs:21-76).  The accumulator is `(has_operation, primary_kind)`. -/
def detOpKindStep (cfg : Config) (acc : Bool × GraphQLOperationKind)
    (d : Definition) : Bool × GraphQLOperationKind :=
  match d with
  | .fragmentDef => acc
  | .operation op =>
    match op.operation with
    | .mutation =>
      if op.selection_set.isEmpty then (true, acc.2)
      else
        match op.selection_set.head? with
        | some sel =>
          match sel.fieldOf with
          | some f => (true, mutationKindOf cfg f.name)
          | none => (true, acc.2)
        | none => (true, acc.2)
    | _ =>
      let kind := opKindFromAst op.operation
      if kind = .InsertMutation ∨ kind = .UpdateMutation ∨
          kind = .DeleteMutation then (true, kind)
      else if acc.2 = .Query then (true, kind)
      else (true, acc.2)

/-- Model of `determine_operation_kind` (parser.rs:16-83).  The source's
fallback branches for a missing or poisoned configuration lock are not
modelled: the configuration is an argument. -/
def determine_operation_kind (cfg : Config) (doc : Document) :
    Except String GraphQLOperationKind :=
  let r := doc.definitions.foldl (detOpKindStep cfg) (false, .Query)
  if r.1 then .ok r.2 else .error "No operations found in document"

/-- Model of the operation-name loop of parse_graphql (parser.rs:152-160):
the loop breaks after inspecting the first operation definition. -/
def extract_operation_name : List Definition → Option String
  | [] => none
  | .operation op :: _ => op.name
  | .fragmentDef :: rest => extract_operation_name rest

/-! ## Query fingerprint (cache.rs:66-70)

`generate_query_id` hashes the raw UTF-8 bytes of the query with
`xxhash_rust::xxh3::xxh3_64` and renders the 64-bit result with
`format!("\x7b:x\x7d", hash)` - lowercase hexadecimal without leading
zeros.

Modelled from the spec: the xxh3 algorithm itself lives in the external
`xxhash-rust` crate, not in this repository; the spec describes the key
as a lowercase-hex rendering of a 64-bit xxh3-style fingerprint over the
raw query bytes.  The embedding below follows the published XXH3_64bits
algorithm (seed 0, default secret) for all input lengths. -/

/-- The 192-byte default secret `kSecret` of XXH3. -/
def xxh3Secret : List Nat := [
  0xb8, 0xfe, 0x6c, 0x39, 0x23, 0xa4, 0x4b, 0xbe, 0x7c, 0x01, 0x81, 0x2c, 0xf7, 0x21, 0xad, 0x1c,
  0xde, 0xd4, 0x6d, 0xe9, 0x83, 0x90, 0x97, 0xdb, 0x72, 0x40, 0xa4, 0xa4, 0xb7, 0xb3, 0x67, 0x1f,
  0xcb, 0x79, 0xe6, 0x4e, 0xcc, 0xc0, 0xe5, 0x78, 0x82, 0x5a, 0xd0, 0x7d, 0xcc, 0xff, 0x72, 0x21,
  0xb8, 0x08, 0x46, 0x74, 0xf7, 0x43, 0x24, 0x8e, 0xe0, 0x35, 0x90, 0xe6, 0x81, 0x3a, 0x26, 0x4c,
  0x3c, 0x28, 0x52, 0xbb, 0x91, 0xc3, 0x00, 0xcb, 0x88, 0xd0, 0x65, 0x8b, 0x1b, 0x53, 0x2e, 0xa3,
  0x71, 0x64, 0x48, 0x97, 0xa2, 0x0d, 0xf9, 0x4e, 0x38, 0x19, 0xef, 0x46, 0xa9, 0xde, 0xac, 0xd8,
  0xa8, 0xfa, 0x76, 0x3f, 0xe3, 0x9c, 0x34, 0x3f, 0xf9, 0xdc, 0xbb, 0xc7, 0xc7, 0x0b, 0x4f, 0x1d,
  0x8a, 0x51, 0xe0, 0x4b, 0xcd, 0xb4, 0x59, 0x31, 0xc8, 0x9f, 0x7e, 0xc9, 0xd9, 0x78, 0x73, 0x64,
  0xea, 0xc5, 0xac, 0x83, 0x34, 0xd3, 0xeb, 0xc3, 0xc5, 0x81, 0xa0, 0xff, 0xfa, 0x13, 0x63, 0xeb,
  0x17, 0x0d, 0xdd, 0x51, 0xb7, 0xf0, 0xda, 0x49, 0xd3, 0x16, 0x55, 0x26, 0x29, 0xd4, 0x68, 0x9e,
  0x2b, 0x16, 0xbe, 0x58, 0x7d, 0x47, 0xa1, 0xfc, 0x8f, 0xf8, 0xb8, 0xd1, 0x7a, 0xd0, 0x31, 0xce,
  0x45, 0xcb, 0x3a, 0x8f, 0x95, 0x16, 0x04, 0x28, 0xaf, 0xd7, 0xfb, 0xca, 0xbb, 0x4b, 0x40, 0x7e]

/-- Little-endian 32-bit load from a byte list. -/
def ld32 (b : List Nat) (i : Nat) : Nat :=
  b.getD i 0 + 2 ^ 8 * b.getD (i + 1) 0 + 2 ^ 16 * b.getD (i + 2) 0 + 2 ^ 24 * b.getD (i + 3) 0

/-- Little-endian 64-bit load from a byte list. -/
def ld64 (b : List Nat) (i : Nat) : Nat := ld32 b i + 2 ^ 32 * ld32 b (i + 4)

/-- Byte swap of a 32-bit value. -/
def swap32 (x : Nat) : Nat :=
  2 ^ 24 * (x % 2 ^ 8) + 2 ^ 16 * (x / 2 ^ 8 % 2 ^ 8) + 2 ^ 8 * (x / 2 ^ 16 % 2 ^ 8) + x / 2 ^ 24 % 2 ^ 8

/-- Byte swap of a 64-bit value. -/
def swap64 (x : Nat) : Nat := 2 ^ 32 * swap32 (x % 2 ^ 32) + swap32 (x / 2 ^ 32 % 2 ^ 32)

/-- 64-bit left rotation. -/
def rotl64 (x r : Nat) : Nat := x * 2 ^ r % 2 ^ 64 + x % 2 ^ 64 / 2 ^ (64 - r)

/-- The XXH64 avalanche finalizer. -/
def avalanche64 (h : Nat) : Nat :=
  let h1 := h ^^^ (h >>> 33)
  let h2 := h1 * 0xC2B2AE3D27D4EB4F % 2 ^ 64
  let h3 := h2 ^^^ (h2 >>> 29)
  let h4 := h3 * 0x165667B19E3779F9 % 2 ^ 64
  h4 ^^^ (h4 >>> 32)

/-- The XXH3 avalanche finalizer. -/
def avalanche3 (h : Nat) : Nat :=
  let h1 := h ^^^ (h >>> 37)
  let h2 := h1 * 0x165667919E3779F9 % 2 ^ 64
  h2 ^^^ (h2 >>> 32)

/-- The rrmxmx finalizer used by the 4-8 byte branch of XXH3. -/
def rrmxmx (h len : Nat) : Nat :=
  let h1 := h ^^^ (rotl64 h 49 ^^^ rotl64 h 24)
  let h2 := h1 * 0x9FB21C651E98DF25 % 2 ^ 64
  let h3 := h2 ^^^ ((h2 >>> 35) + len)
  let h4 := h3 * 0x9FB21C651E98DF25 % 2 ^ 64
  h4 ^^^ (h4 >>> 28)

/-- 128-bit multiply folded to 64 bits. -/
def mul128_fold64 (a b : Nat) : Nat := a * b % 2 ^ 64 ^^^ a * b / 2 ^ 64

/-- The 16-byte mixer of XXH3 (seed 0). -/
def mix16B (b : List Nat) (i soff : Nat) : Nat :=
  mul128_fold64 (ld64 b i ^^^ ld64 xxh3Secret soff)
    (ld64 b (i + 8) ^^^ ld64 xxh3Secret (soff + 8))

/-- XXH3_64bits for inputs of 0 to 16 bytes (seed 0, default secret). -/
def xxh3Short (b : List Nat) (n : Nat) : Nat :=
  if n = 0 then
    avalanche64 (ld64 xxh3Secret 56 ^^^ ld64 xxh3Secret 64)
  else if n ≤ 3 then
    let combined := 2 ^ 16 * b.getD 0 0 + 2 ^ 24 * b.getD (n / 2) 0 + b.getD (n - 1) 0 + 2 ^ 8 * n
    avalanche64 (combined ^^^ (ld32 xxh3Secret 0 ^^^ ld32 xxh3Secret 4))
  else if n ≤ 8 then
    let keyed := (ld32 b (n - 4) + 2 ^ 32 * ld32 b 0) ^^^ (ld64 xxh3Secret 8 ^^^ ld64 xxh3Secret 16)
    rrmxmx keyed n
  else
    let lo := ld64 b 0 ^^^ (ld64 xxh3Secret 24 ^^^ ld64 xxh3Secret 32)
    let hi := ld64 b (n - 8) ^^^ (ld64 xxh3Secret 40 ^^^ ld64 xxh3Secret 48)
    avalanche3 ((n + swap64 lo + hi + mul128_fold64 lo hi) % 2 ^ 64)

/-- XXH3_64bits for inputs of 17 to 128 bytes (seed 0, default secret). -/
def xxh3Mid (b : List Nat) (n : Nat) : Nat :=
  let acc0 := n * 0x9E3779B185EBCA87 % 2 ^ 64
  let acc1 :=
    if 32 < n then
      let acc1a :=
        if 64 < n then
          let acc1b :=
            if 96 < n then
              ((acc0 + mix16B b 48 96) % 2 ^ 64 + mix16B b (n - 64) 112) % 2 ^ 64
            else acc0
          ((acc1b + mix16B b 32 64) % 2 ^ 64 + mix16B b (n - 48) 80) % 2 ^ 64
        else acc0
      ((acc1a + mix16B b 16 32) % 2 ^ 64 + mix16B b (n - 32) 48) % 2 ^ 64
    else acc0
  avalanche3 (((acc1 + mix16B b 0 0) % 2 ^ 64 + mix16B b (n - 16) 16) % 2 ^ 64)

/-- XXH3_64bits for inputs of 129 to 240 bytes (seed 0, default secret). -/
def xxh3MidLarge (b : List Nat) (n : Nat) : Nat :=
  let acc0 := (List.range 8).foldl
    (fun a i => (a + mix16B b (16 * i) (16 * i)) % 2 ^ 64) (n * 0x9E3779B185EBCA87 % 2 ^ 64)
  let acc1 := (List.range (n / 16 - 8)).foldl
    (fun a i => (a + mix16B b (16 * (i + 8)) (16 * i + 3)) % 2 ^ 64) (avalanche3 acc0)
  avalanche3 ((acc1 + mix16B b (n - 16) 119) % 2 ^ 64)

/-- One 64-byte stripe accumulation of the long-input path of XXH3. -/
def accum512 (acc b : List Nat) (i soff : Nat) : List Nat :=
  (List.range 8).foldl (fun a j =>
    let dv := ld64 b (i + 8 * j)
    let dk := dv ^^^ ld64 xxh3Secret (soff + 8 * j)
    let a1 := a.set (j ^^^ 1) ((a.getD (j ^^^ 1) 0 + dv) % 2 ^ 64)
    a1.set j ((a1.getD j 0 + dk % 2 ^ 32 * (dk / 2 ^ 32)) % 2 ^ 64)) acc

/-- The accumulator scramble of the long-input path of XXH3. -/
def scramble512 (acc : List Nat) (soff : Nat) : List Nat :=
  (List.range 8).foldl (fun a j =>
    let x := a.getD j 0
    let x1 := x ^^^ (x >>> 47) ^^^ ld64 xxh3Secret (soff + 8 * j)
    a.set j (x1 * 0x9E3779B1 % 2 ^ 64)) acc

/-- XXH3_64bits for inputs longer than 240 bytes (seed 0, default secret:
16 stripes of 64 bytes per block, block length 1024). -/
def xxh3Long (b : List Nat) (n : Nat) : Nat :=
  let acc0 : List Nat := [0xC2B2AE3D, 0x9E3779B185EBCA87, 0xC2B2AE3D27D4EB4F,
    0x165667B19E3779F9, 0x85EBCA77C2B2AE63, 0x85EBCA77, 0x27D4EB2F165667C5, 0x9E3779B1]
  let nbBlocks := (n - 1) / 1024
  let acc1 := (List.range nbBlocks).foldl (fun a blk =>
    scramble512 ((List.range 16).foldl
      (fun a2 s => accum512 a2 b (blk * 1024 + 64 * s) (8 * s)) a) 128) acc0
  let nbLast := (n - 1 - 1024 * nbBlocks) / 64
  let acc2 := (List.range nbLast).foldl
    (fun a s => accum512 a b (nbBlocks * 1024 + 64 * s) (8 * s)) acc1
  let acc3 := accum512 acc2 b (n - 64) 121
  let merged := (List.range 4).foldl (fun r i =>
    (r + mul128_fold64 (acc3.getD (2 * i) 0 ^^^ ld64 xxh3Secret (11 + 16 * i))
      (acc3.getD (2 * i + 1) 0 ^^^ ld64 xxh3Secret (19 + 16 * i))) % 2 ^ 64)
    (n * 0x9E3779B185EBCA87 % 2 ^ 64)
  avalanche3 merged

/-- XXH3_64bits with seed 0 and the default secret, over a byte list. -/
def xxh3_64 (b : List Nat) : Nat :=
  let n := b.length
  if n ≤ 16 then xxh3Short b n
  else if n ≤ 128 then xxh3Mid b n
  else if n ≤ 240 then xxh3MidLarge b n
  else xxh3Long b n

/-- UTF-8 encoding of one Unicode code point. -/
def utf8EncodeChar (c : Nat) : List Nat :=
  if c < 0x80 then [c]
  else if c < 0x800 then [0xC0 + c / 64, 0x80 + c % 64]
  else if c < 0x10000 then [0xE0 + c / 4096, 0x80 + c / 64 % 64, 0x80 + c % 64]
  else [0xF0 + c / 262144, 0x80 + c / 4096 % 64, 0x80 + c / 64 % 64, 0x80 + c % 64]

/-- The UTF-8 bytes of a string: model of Rust `str::as_bytes`. -/
def strBytes (s : String) : List Nat :=
  s.data.foldr (fun c acc => utf8EncodeChar c.toNat ++ acc) []

/-- Lowercase hexadecimal digit. -/
def hexDigit (n : Nat) : Char := if n < 10 then Char.ofNat (48 + n) else Char.ofNat (87 + n)

/-- Hexadecimal digit emission with structural fuel: with fuel `f` the
rendering is faithful for every value below `16 ^ f`. -/
def hexCharsAux : Nat → Nat → List Char
  | 0, _ => []
  | f + 1, n =>
    if n < 16 then [hexDigit n]
    else hexCharsAux f (n / 16) ++ [hexDigit (n % 16)]

/-- Lowercase hexadecimal rendering without leading zeros: model of Rust
`format!("\x7b:x\x7d", _)` on a `u64` (16 hex digits suffice for any
64-bit value). -/
def hexChars (n : Nat) : List Char := hexCharsAux 16 n

/-- Numeric value of a lowercase-hex character list (inverse of
`hexChars`). -/
def hexVal : List Char → Nat
  | [] => 0
  | c :: cs => (if c.toNat < 97 then c.toNat - 48 else c.toNat - 87) * 16 ^ cs.length + hexVal cs

/-- Model of `generate_query_id` (cache.rs:67-70). -/
def generate_query_id (query : String) : String :=
  String.mk (hexChars (xxh3_64 (strBytes query)))

/-! ## Field path extractor (extraction.rs)

The extractor state mirrors `FieldPathExtractor` plus the process-wide
interner it calls into.  `field_paths` models `HashSet<FieldPath>` as a
duplicate-free list in insertion order, and `column_usage` models
`HashMap<FieldPath, HashSet<SymbolId>>` as an association list whose
column lists are duplicate-free, in insertion order. -/

abbrev FieldPath := List Nat

structure FieldPathExtractor where
  field_paths : List FieldPath
  current_path : FieldPath
  column_usage : List (FieldPath × List Nat)
  interner : List String
deriving DecidableEq

/-- Intern a name through the extractor state. -/
def FieldPathExtractor.internName (st : FieldPathExtractor) (s : String) :
    FieldPathExtractor × Nat :=
  ({ st with interner := (intern_str st.interner s).1 }, (intern_str st.interner s).2)

/-- Model of `self.field_paths.insert(p)` on a `HashSet`. -/
def FieldPathExtractor.insertPath (st : FieldPathExtractor) (p : FieldPath) :
    FieldPathExtractor :=
  if p ∈ st.field_paths then st else { st with field_paths := st.field_paths ++ [p] }

/-- Model of `self.current_path.push(i)`. -/
def FieldPathExtractor.pushPath (st : FieldPathExtractor) (i : Nat) : FieldPathExtractor :=
  { st with current_path := st.current_path ++ [i] }

/-- Model of `self.current_path.pop()`. -/
def FieldPathExtractor.popPath (st : FieldPathExtractor) : FieldPathExtractor :=
  { st with current_path := st.current_path.dropLast }

/-- Model of `self.column_usage.entry(t).or_insert_with(HashSet::new)`
followed by `.insert(c)`. -/
def addColUsage : List (FieldPath × List Nat) → FieldPath → Nat →
    List (FieldPath × List Nat)
  | [], t, c => [(t, [c])]
  | (p, cs) :: rest, t, c =>
    if p = t then (p, if c ∈ cs then cs else cs ++ [c]) :: rest
    else (p, cs) :: addColUsage rest t c

/-- Record a column for a table path in the extractor state. -/
def FieldPathExtractor.addColumn (st : FieldPathExtractor) (t : FieldPath) (c : Nat) :
    FieldPathExtractor :=
  { st with column_usage := addColUsage st.column_usage t c }

/-- Model of `HashMap::get` on the column-usage map. -/
def getColUsage : List (FieldPath × List Nat) → FieldPath → Option (List Nat)
  | [], _ => none
  | (p, cs) :: rest, t => if p = t then some cs else getColUsage rest t

/-! ### Pass A - selection-set visitor (extraction.rs:492-520)

`enter_field` pushes the field symbol and records the path when the
field has a non-empty selection set; `leave_field` pops. -/

mutual
def visit_field (st : FieldPathExtractor) : Field → FieldPathExtractor
  | .mk nm _ _ sels =>
    let s1 := st.internName nm
    let st2 := s1.1.pushPath s1.2
    let st3 := if sels.isEmpty then st2 else st2.insertPath st2.current_path
    (visit_selection_set st3 sels).popPath
def visit_selection_set (st : FieldPathExtractor) : List Selection → FieldPathExtractor
  | [] => st
  | .field f :: rest => visit_selection_set (visit_field st f) rest
  | _ :: rest => visit_selection_set st rest
end

/-! ### Filter-value traversal (extraction.rs:392-489) -/

mutual
def extract_filter_paths_from_value (st : FieldPathExtractor) :
    Value → Except String FieldPathExtractor
  | .obj children => filterObjFields st children
  | .listV items => filterListItems st items
  | _ => .ok st
def filterObjFields (st : FieldPathExtractor) :
    List ObjField → Except String FieldPathExtractor
  | [] => .ok st
  | .mk name v :: rest => do
    let st1 ←
      if strStarts name "_" then
        if name = "_and" ∨ name = "_or" then
          match v with
          | .listV items => filterListItems st items
          | _ => .ok st
        else .ok st
      else do
        let s1 := st.internName name
        let stb := s1.1.pushPath s1.2
        let stc ←
          match v with
          | .obj inner =>
            let is_direct_operator := strStarts name "_"
            let contains_operator_fields := inner.any (fun ch => strStarts ch.name "_")
            let st3 := if is_direct_operator then stb else stb.insertPath stb.current_path
            let st4 :=
              if contains_operator_fields ∧ 1 < st3.current_path.length then
                st3.addColumn st3.current_path.dropLast s1.2
              else st3
            extract_filter_paths_from_value st4 (Value.obj inner)
          | _ =>
            .ok (if 1 < stb.current_path.length then
                stb.addColumn stb.current_path.dropLast s1.2
              else stb)
        pure stc.popPath
    filterObjFields st1 rest
def filterListItems (st : FieldPathExtractor) :
    List Value → Except String FieldPathExtractor
  | [] => .ok st
  | v :: rest => do
    let st1 ← extract_filter_paths_from_value st v
    filterListItems st1 rest
end

/-! ### Mutation-argument extraction (extraction.rs:252-388) -/

/-- Model of `extract_object_columns` (extraction.rs:305-322). -/
def extract_object_columns (st : FieldPathExtractor) :
    List ObjField → Except String FieldPathExtractor
  | [] => .ok st
  | .mk name _ :: rest =>
    let s1 := st.internName name
    extract_object_columns (s1.1.addColumn s1.1.current_path s1.2) rest

mutual
def extract_mutation_objects (st : FieldPathExtractor) (v : Value)
    (is_single_object : Bool) : Except String FieldPathExtractor :=
  match v with
  | .obj o => do
    let st1 ← extract_object_columns st o
    pure (st1.insertPath st1.current_path)
  | .listV items =>
    if is_single_object then .error "Expected a single object but got an array"
    else do
      let st1 ← mutationObjectsList st items
      pure (st1.insertPath st1.current_path)
  | .varV _ => .ok (st.insertPath st.current_path)
  | _ => .ok st
def mutationObjectsList (st : FieldPathExtractor) :
    List Value → Except String FieldPathExtractor
  | [] => .ok st
  | v :: rest => do
    let st1 ← extract_mutation_objects st v true
    mutationObjectsList st1 rest
end

/-- Model of `extract_update_set` (extraction.rs:353-388). -/
def extract_update_set (st : FieldPathExtractor) (v : Value) :
    Except String FieldPathExtractor :=
  match v with
  | .obj o => do
    let st1 ← extract_object_columns st o
    pure (st1.insertPath st1.current_path)
  | .varV _ => .ok (st.insertPath st.current_path)
  | _ => .error "_set parameter must be an object"

/-! ### Pass B - argument-driven traversal (extraction.rs:176-222) -/

mutual
def process_field_arguments (cfg : Config) (st : FieldPathExtractor) :
    Field → Except String FieldPathExtractor
  | .mk nm args _ sels => do
    let s1 := st.internName nm
    let st2 := s1.1.pushPath s1.2
    let st3 := if sels.isEmpty then st2 else st2.insertPath st2.current_path
    let st4 ← processArgsList cfg st3 nm args
    let st5 ← processArgsSelections cfg st4 sels
    pure st5.popPath
def processArgsList (cfg : Config) (st : FieldPathExtractor) (fname : String) :
    List Argument → Except String FieldPathExtractor
  | [] => .ok st
  | arg :: rest => do
    let st1 ←
      if arg.name = "where" then
        extract_filter_paths_from_value st arg.value
      else if strStarts fname cfg.insertPfx ∧ (arg.name = "objects" ∨ arg.name = "object") then
        extract_mutation_objects st arg.value (arg.name = "object")
      else if strStarts fname cfg.updatePfx ∧ arg.name = "_set" then
        extract_update_set st arg.value
      else .ok st
    processArgsList cfg st1 fname rest
def processArgsSelections (cfg : Config) (st : FieldPathExtractor) :
    List Selection → Except String FieldPathExtractor
  | [] => .ok st
  | .field f :: rest => do
    let st1 ← process_field_arguments cfg st f
    processArgsSelections cfg st1 rest
  | _ :: rest => processArgsSelections cfg st rest
end

/-! ### Pass C - column extraction from selection sets (extraction.rs:106-172) -/

/-- The grandchild-column loop for the reserved containers `aggregate`,
`returning`, `nodes` (extraction.rs:137-153). -/
def containerGrandchildren (st : FieldPathExtractor) :
    List Selection → FieldPathExtractor
  | [] => st
  | s :: rest =>
    let st1 :=
      match s.fieldOf with
      | some g =>
        if g.selection_set.isEmpty then
          let s1 := st.internName g.name
          s1.1.addColumn s1.1.current_path s1.2
        else st
      | none => st
    containerGrandchildren st1 rest

mutual
def process_field_and_columns (st : FieldPathExtractor) :
    Field → Except String FieldPathExtractor
  | .mk nm _ _ sels => do
    let s1 := st.internName nm
    let st2 := s1.1.pushPath s1.2
    if sels.isEmpty then
      pure st2.popPath
    else
      let st3 := st2.insertPath st2.current_path
      let st4 ← processColumnsChildren st3 sels
      pure st4.popPath
def processColumnsChildren (st : FieldPathExtractor) :
    List Selection → Except String FieldPathExtractor
  | [] => .ok st
  | .field child :: rest => do
    let st1 ←
      if child.selection_set.isEmpty then
        let s1 := st.internName child.name
        pure (s1.1.addColumn s1.1.current_path s1.2)
      else if child.name = "aggregate" ∨ child.name = "returning" ∨
          child.name = "nodes" then
        process_field_and_columns (containerGrandchildren st child.selection_set) child
      else
        process_field_and_columns st child
    processColumnsChildren st1 rest
  | _ :: rest => processColumnsChildren st rest
end

/-! ### The extractor driver (extraction.rs:33-102) -/

/-- Model of `extract_filter_paths` (extraction.rs:71-83): clears the
current path before each root field, then processes its arguments. -/
def extract_filter_paths (cfg : Config) (st : FieldPathExtractor) :
    List Selection → Except String FieldPathExtractor
  | [] => .ok st
  | s :: rest => do
    let st1 ←
      match s.fieldOf with
      | some f => process_field_arguments cfg { st with current_path := [] } f
      | none => .ok st
    extract_filter_paths cfg st1 rest

/-- Model of `extract_columns_from_selection_sets` (extraction.rs:87-102). -/
def extract_columns_from_selection_sets (st : FieldPathExtractor) :
    List Selection → Except String FieldPathExtractor
  | [] => .ok st
  | s :: rest => do
    let st1 ←
      match s.fieldOf with
      | some f => process_field_and_columns { st with current_path := [] } f
      | none => .ok st
    extract_columns_from_selection_sets st1 rest

/-- The per-definition loop of `FieldPathExtractor::extract`
(extraction.rs:40-56): pass A, then pass B, then pass C, for each
operation definition in order.  Returns the final state together with
the `has_operation` flag. -/
def extractDefs (cfg : Config) (st : FieldPathExtractor) :
    List Definition → Bool → Except String (FieldPathExtractor × Bool)
  | [], hasOp => .ok (st, hasOp)
  | .fragmentDef :: rest, hasOp => extractDefs cfg st rest hasOp
  | .operation op :: rest, _ => do
    let st1 := visit_selection_set st op.selection_set
    let st2 ← extract_filter_paths cfg st1 op.selection_set
    let st3 ← extract_columns_from_selection_sets st2 op.selection_set
    extractDefs cfg st3 rest true

/-- Model of `FieldPathExtractor::extract` (extraction.rs:33-67), with the
interner threaded through the state.  On success it returns the final
extractor state (its `field_paths` and `column_usage` are the returned
set and map of the source; its `interner` is the final global interner
state). -/
def extract (cfg : Config) (interner : List String) (doc : Document) :
    Except String FieldPathExtractor := do
  let st0 : FieldPathExtractor :=
    { field_paths := [], current_path := [], column_usage := [], interner := interner }
  let r ← extractDefs cfg st0 doc.definitions false
  if r.2 then pure r.1 else .error "No operation found in document"

/-! ## Unsupported-feature rejection (parser.rs:107-144, 350-375) -/

mutual
def check_field_for_unsupported_features : Field → Except String Unit
  | .mk _ _ _ sels => checkSelections sels
def checkSelections : List Selection → Except String Unit
  | [] => .ok ()
  | .fragmentSpread :: _ => .error "GraphQL fragment spreads are not supported"
  | .inlineFragment :: _ => .error "GraphQL inline fragments are not supported"
  | .field f :: rest => do
    if f.directives.isEmpty then pure ()
    else .error "GraphQL directives are not supported"
    check_field_for_unsupported_features f
    checkSelections rest
end

/-- The definition loop of parse_graphql that rejects fragments and
directives (parser.rs:107-144).  The root-selection loop has the same
shape as the recursive field check. -/
def checkDefinitions : List Definition → Except String Unit
  | [] => .ok ()
  | .fragmentDef :: _ => .error "GraphQL fragments are not supported"
  | .operation op :: rest => do
    if op.directives.isEmpty then pure ()
    else .error "GraphQL directives are not supported"
    checkSelections op.selection_set
    checkDefinitions rest

/-! ### The spec-side cleanliness predicate

Stated independently of the checker: a document is clean iff it has no
fragment definitions and, at every nesting depth, every selection is a
plain field without directives, and no operation carries directives. -/

mutual
def fieldClean : Field → Bool
  | .mk _ _ dirs sels => dirs.isEmpty && selsClean sels
def selsClean : List Selection → Bool
  | [] => true
  | .field f :: rest => fieldClean f && selsClean rest
  | _ :: _ => false
end

def defsClean : List Definition → Bool
  | [] => true
  | .fragmentDef :: _ => false
  | .operation op :: rest => op.directives.isEmpty && selsClean op.selection_set && defsClean rest

/-- A document is clean: no fragment definitions, fragment spreads,
inline fragments, or directives anywhere. -/
def docClean (d : Document) : Bool := defsClean d.definitions

/-- The document contains at least one operation definition. -/
def hasOperation (d : Document) : Bool :=
  d.definitions.any fun x => match x with | .operation _ => true | .fragmentDef => false

/-! ## Resolution-request encoder (parser.rs:169-280, nif.rs:151-309) -/

structure ResolutionRequest where
  query_id : String
  strings : List String
  paths : List Nat
  path_dir : List Nat
  path_types : List Nat
  cols : List (Nat × List Nat)
  ops : List (Nat × Nat)
deriving DecidableEq

structure ParsedQueryInfo where
  operation_kind : GraphQLOperationKind
  operation_name : Option String
  field_paths : List FieldPath
  column_usage : List (FieldPath × List Nat)
deriving DecidableEq

/-- Association-list lookup modelling `HashMap::get` on the
symbol-to-index map. -/
def lookupSym : List (Nat × Nat) → Nat → Option Nat
  | [], _ => none
  | (s, i) :: rest, t => if s = t then some i else lookupSym rest t

/-- Model of the symbol-to-index map construction (parser.rs:171-176 and
nif.rs:169-174): intern every snapshot string and map its symbol to its
snapshot position.  Returns the updated interner and the map. -/
def build_symbol_to_index (strings tbl : List String) : List String × List (Nat × Nat) :=
  let r := strings.foldl (fun acc name =>
    let s1 := intern_str acc.1 name
    (s1.1, acc.2.1 ++ [(s1.2, acc.2.2)], acc.2.2 + 1)) (tbl, ([] : List (Nat × Nat)), 0)
  (r.1, r.2.1)

/-- Map the symbols of one path to string-table indices
(parser.rs:192-197); a missing symbol is the `expect` panic, modelled
as an error. -/
def mapPathSyms (m : List (Nat × Nat)) : List Nat → Except String (List Nat)
  | [] => .ok []
  | s :: ss =>
    match lookupSym m s with
    | none => .error "Symbol not found in mapping"
    | some i => do
      let is ← mapPathSyms m ss
      pure (i :: is)

/-- The path-encoding loop (parser.rs:184-203 and nif.rs:190-210),
parameterised by the enumeration of the path set it iterates. -/
def encodePathsLoop (m : List (Nat × Nat)) :
    List FieldPath → List Nat → List Nat → List Nat →
    Except String (List Nat × List Nat × List Nat)
  | [], ps, dirs, tys => .ok (ps, dirs, tys)
  | p :: rest, ps, dirs, tys => do
    let idxs ← mapPathSyms m p
    encodePathsLoop m rest (ps ++ [p.length] ++ idxs) (dirs ++ [ps.length])
      (tys ++ [if p.length = 1 then 0 else 1])

/-- Map column symbols with the `expect` of parser.rs:222-227 (a missing
column symbol is a panic, modelled as an error). -/
def mapColSyms (m : List (Nat × Nat)) : List Nat → Except String (List Nat)
  | [] => .ok []
  | s :: ss =>
    match lookupSym m s with
    | none => .error "Column symbol not found in mapping"
    | some i => do
      let is ← mapColSyms m ss
      pure (i :: is)

/-- The cols-encoding loop of parse_graphql (parser.rs:206-235),
iterating the same enumeration of the path set. -/
def encodeColsLoop (m : List (Nat × Nat)) (cu : List (FieldPath × List Nat)) :
    List FieldPath → List (Nat × List Nat) → Except String (List (Nat × List Nat))
  | [], acc => .ok acc
  | p :: rest, acc =>
    if p.length ≠ 1 then encodeColsLoop m cu rest acc
    else
      match lookupSym m (p.getD 0 0) with
      | none => .error "Symbol not found in mapping"
      | some tidx =>
        match getColUsage cu p with
        | some columns => do
          let cidx ← mapColSyms m columns
          if cidx.isEmpty then encodeColsLoop m cu rest acc
          else encodeColsLoop m cu rest (acc ++ [(tidx, cidx)])
        | none => encodeColsLoop m cu rest acc

/-- The cols-encoding loop of the cached path (nif.rs:213-243): missing
column symbols are silently skipped (`filter_map`), and a missing table
symbol is an error rather than a panic. -/
def encodeColsCachedLoop (m : List (Nat × Nat)) (cu : List (FieldPath × List Nat)) :
    List FieldPath → List (Nat × List Nat) → Except String (List (Nat × List Nat))
  | [], acc => .ok acc
  | p :: rest, acc =>
    if p.length ≠ 1 then encodeColsCachedLoop m cu rest acc
    else
      match lookupSym m (p.getD 0 0) with
      | none => .error "Table symbol not found in mapping"
      | some tidx =>
        match getColUsage cu p with
        | some columns =>
          let cidx := columns.filterMap (lookupSym m)
          if cidx.isEmpty then encodeColsCachedLoop m cu rest acc
          else encodeColsCachedLoop m cu rest (acc ++ [(tidx, cidx)])
        | none => encodeColsCachedLoop m cu rest acc

/-- The op_type computation shared by parser.rs:258-274 and
nif.rs:275-291. -/
def opTypeFor (cfg : Config) (k : OperationKind) (name : String) : Nat :=
  match k with
  | .query => 0
  | .mutation =>
    if strStarts name cfg.insertPfx then 1
    else if strStarts name cfg.updatePfx then 2
    else if strStarts name cfg.deletePfx then 3
    else 1
  | .subscription => 4

/-- The root-selection loop of the ops encoding (parser.rs:242-278 and
nif.rs:261-295); `errMsg` is the error used for a symbol missing from
the map. -/
def encodeOpsSelections (cfg : Config) (m : List (Nat × Nat)) (errMsg : String)
    (k : OperationKind) (tbl : List String) (acc : List (Nat × Nat)) :
    List Selection → Except String (List String × List (Nat × Nat))
  | [] => .ok (tbl, acc)
  | .field f :: rest =>
    let s1 := intern_str tbl f.name
    match lookupSym m s1.2 with
    | none => .error errMsg
    | some fidx =>
      encodeOpsSelections cfg m errMsg k s1.1 (acc ++ [(fidx, opTypeFor cfg k f.name)]) rest
  | _ :: rest => encodeOpsSelections cfg m errMsg k tbl acc rest

/-- The definition loop of the ops encoding (parser.rs:239-280 and
nif.rs:258-297). -/
def encodeOpsDefs (cfg : Config) (m : List (Nat × Nat)) (errMsg : String)
    (tbl : List String) (acc : List (Nat × Nat)) :
    List Definition → Except String (List String × List (Nat × Nat))
  | [] => .ok (tbl, acc)
  | .fragmentDef :: rest => encodeOpsDefs cfg m errMsg tbl acc rest
  | .operation op :: rest => do
    let r ← encodeOpsSelections cfg m errMsg op.operation tbl acc op.selection_set
    encodeOpsDefs cfg m errMsg r.1 r.2 rest

/-! ## parse_graphql (parser.rs:93-347)

The external `Document::parse` is out of scope: the function receives
the already-parsed document together with the query text.  The hash-set
iteration order of `field_paths` is unspecified in Rust, so the encoder
is parameterised by the enumeration `pathEnum` it iterates; theorems
quantify over enumerations of the extracted set. -/

def parse_graphql (cfg : Config) (interner : List String) (doc : Document)
    (query : String) (pathEnum : List FieldPath) :
    Except String (ParsedQueryInfo × ResolutionRequest × List String) := do
  let query_id := generate_query_id query
  checkDefinitions doc.definitions
  let operation_kind ← determine_operation_kind cfg doc
  let operation_name := extract_operation_name doc.definitions
  let ex ← extract cfg interner doc
  let strings := get_all_strings ex.interner
  let bm := build_symbol_to_index strings ex.interner
  let pe ← encodePathsLoop bm.2 pathEnum [] [] []
  let cols ← encodeColsLoop bm.2 ex.column_usage pathEnum []
  let om ← encodeOpsDefs cfg bm.2 "Field not found in mapping" bm.1 [] doc.definitions
  pure (⟨operation_kind, operation_name, ex.field_paths, ex.column_usage⟩,
    ⟨query_id, strings, pe.1, pe.2.1, pe.2.2, cols, om.2⟩, om.1)

/-- The extraction order of the path set: one legitimate enumeration of
the `HashSet`, used to run the pipeline on concrete inputs. -/
def canonicalPathEnum (cfg : Config) (interner : List String) (doc : Document) :
    List FieldPath :=
  match extract cfg interner doc with
  | .ok st => st.field_paths
  | .error _ => []

/-- parse_graphql run with the canonical enumeration. -/
def parse_graphqlC (cfg : Config) (interner : List String) (doc : Document)
    (query : String) : Except String (ParsedQueryInfo × ResolutionRequest × List String) :=
  parse_graphql cfg interner doc query (canonicalPathEnum cfg interner doc)

/-! ## Query cache and NIF entry point (cache.rs, nif.rs)

The cache is modelled as an association list from query-id strings to
entries; `moka`'s TTL expiry and LRU eviction are time- and
capacity-dependent and are not modelled (an expired or evicted entry
simply behaves like a miss, which the model can represent by starting
from a cache without the entry).  The entry's arena handle, document
pointer and original query text are modelled by storing the document
itself. -/

structure CachedQueryInfo where
  operation_kind : GraphQLOperationKind
  operation_name : Option String
  field_paths : List FieldPath
  column_usage : List (FieldPath × List Nat)
  resolution_request : Option ResolutionRequest
  document : Document

/-- Model of `moka::sync::Cache::insert`: replace or add. -/
def cacheInsert (cache : List (String × CachedQueryInfo)) (qid : String)
    (info : CachedQueryInfo) : List (String × CachedQueryInfo) :=
  match cache with
  | [] => [(qid, info)]
  | (k, v) :: rest => if k = qid then (qid, info) :: rest else (k, v) :: cacheInsert rest qid info

/-- Model of `get_from_cache` (cache.rs:100-102). -/
def get_from_cache (cache : List (String × CachedQueryInfo)) (qid : String) :
    Option CachedQueryInfo :=
  match cache with
  | [] => none
  | (k, v) :: rest => if k = qid then some v else get_from_cache rest qid

/-- Model of `add_to_cache` (cache.rs:83-87): the conversion from
`ParsedQueryInfo` stores no resolution request. -/
def add_to_cache (cache : List (String × CachedQueryInfo)) (qid : String)
    (info : ParsedQueryInfo) (doc : Document) : List (String × CachedQueryInfo) :=
  cacheInsert cache qid
    ⟨info.operation_kind, info.operation_name, info.field_paths, info.column_usage, none, doc⟩

/-- Model of `add_to_cache_with_request` (cache.rs:131-143). -/
def add_to_cache_with_request (cache : List (String × CachedQueryInfo)) (qid : String)
    (info : ParsedQueryInfo) (doc : Document) (req : ResolutionRequest) :
    List (String × CachedQueryInfo) :=
  cacheInsert cache qid
    ⟨info.operation_kind, info.operation_name, info.field_paths, info.column_usage, some req, doc⟩

/-- Stable insertion into a sorted list: the new element goes before the
first element it compares less-or-equal to. -/
def insertLe {α : Type} (le : α → α → Bool) (x : α) : List α → List α
  | [] => [x]
  | y :: ys => if le x y then x :: y :: ys else y :: insertLe le x ys

/-- A stable sort (model of Rust's stable `sort_by_key`): structurally
recursive so that it evaluates inside the kernel. -/
def sortByLe {α : Type} (le : α → α → Bool) : List α → List α
  | [] => []
  | x :: xs => insertLe le x (sortByLe le xs)

/-- Lexicographic comparison of `Vec<u32>` sort keys (Rust `Ord` on
vectors). -/
def lexLe : List Nat → List Nat → Bool
  | [], _ => true
  | _ :: _, [] => false
  | a :: as_, b :: bs => if a < b then true else if b < a then false else lexLe as_ bs

/-- The sort key of nif.rs:183-187: map each symbol to its index,
defaulting to 0. -/
def pathSortKey (m : List (Nat × Nat)) (p : FieldPath) : List Nat :=
  p.map (fun s => (lookupSym m s).getD 0)

/-- Model of `create_resolution_request_from_cached` (nif.rs:151-309):
re-encode the request from the cached record and the current interner
snapshot, sorting the path set by its symbol-index keys.  Returns the
request and the updated interner. -/
def create_resolution_request_from_cached (cfg : Config) (interner : List String)
    (cached : CachedQueryInfo) (query_id : String) :
    Except String (ResolutionRequest × List String) := do
  let strings := get_all_strings interner
  let bm := build_symbol_to_index strings interner
  let sorted := sortByLe
    (fun a b => lexLe (pathSortKey bm.2 a) (pathSortKey bm.2 b)) cached.field_paths
  let pe ← encodePathsLoop bm.2 sorted [] [] []
  let cols ← encodeColsCachedLoop bm.2 cached.column_usage sorted []
  let om ← encodeOpsDefs cfg bm.2 "Field symbol not found in mapping" bm.1 []
    cached.document.definitions
  pure (⟨query_id, strings, pe.1, pe.2.1, pe.2.2, cols, om.2⟩, om.1)

/-- The process-wide state seen by `do_parse_query`: the interner and the
query cache. -/
structure ProcState where
  interner : List String
  cache : List (String × CachedQueryInfo)

/-- Model of `do_parse_query` (nif.rs:24-95).  The caller parses `query`
into `doc` (external `Document::parse`); `pathEnum` is the hash-set
enumeration used if the call misses the cache.  On a miss the entry is
stored through `add_to_cache`, i.e. without the resolution request; on a
hit the request is recomputed by `create_resolution_request_from_cached`. -/
def do_parse_query (cfg : Config) (st : ProcState) (query : String) (doc : Document)
    (pathEnum : List FieldPath) :
    Except String (ProcState × (String × GraphQLOperationKind × String × ResolutionRequest)) :=
  let query_id := generate_query_id query
  match get_from_cache st.cache query_id with
  | some cached => do
    let r ← create_resolution_request_from_cached cfg st.interner cached query_id
    pure ({ st with interner := r.2 },
      (query_id, cached.operation_kind, cached.operation_name.getD "", r.1))
  | none => do
    let r ← parse_graphql cfg st.interner doc query pathEnum
    pure (⟨r.2.2, add_to_cache st.cache query_id r.1 doc⟩,
      (query_id, r.1.operation_kind, r.1.operation_name.getD "", r.2.1))

/-- do_parse_query with the canonical enumeration on a miss. -/
def do_parse_queryC (cfg : Config) (st : ProcState) (query : String) (doc : Document) :
    Except String (ProcState × (String × GraphQLOperationKind × String × ResolutionRequest)) :=
  do_parse_query cfg st query doc (canonicalPathEnum cfg st.interner doc)

/-! ## Verification-side definitions -/

/-- Column `c` is recorded for table path `t` in a column-usage map. -/
def colMem (cu : List (FieldPath × List Nat)) (t : FieldPath) (c : Nat) : Prop :=
  ∃ cs, getColUsage cu t = some cs ∧ c ∈ cs

/-- One extractor state extends another: the interner grew by suffixing,
and all recorded paths and columns are preserved. -/
def Extends (a b : FieldPathExtractor) : Prop :=
  a.interner <+: b.interner ∧
  (∀ p, p ∈ a.field_paths → p ∈ b.field_paths) ∧
  (∀ t c, colMem a.column_usage t c → colMem b.column_usage t c)

/-- A symbol id is one the interner state can actually have produced:
the first-occurrence index of some interned string. -/
def SymOk (I : List String) (s : Nat) : Prop :=
  ∃ str, idxOfStr I str = some s

/-- All symbols occurring in the extractor state were produced by the
interner. -/
def WfState (st : FieldPathExtractor) : Prop :=
  (∀ p ∈ st.field_paths, ∀ s ∈ p, SymOk st.interner s) ∧
  (∀ s ∈ st.current_path, SymOk st.interner s) ∧
  (∀ tc ∈ st.column_usage, (∀ s ∈ tc.1, SymOk st.interner s) ∧
    ∀ s ∈ tc.2, SymOk st.interner s)

/-- The standard per-call property of a traversal step: the current path
is restored, the state only grows, and symbol validity is preserved. -/
def StepOk (st st' : FieldPathExtractor) : Prop :=
  st'.current_path = st.current_path ∧ Extends st st' ∧ (WfState st → WfState st')

/-- A fallible traversal step that succeeds and satisfies `StepOk`. -/
def OkStep (st : FieldPathExtractor) (e : Except String FieldPathExtractor) : Prop :=
  ∃ r, e = .ok r ∧ StepOk st r

/-- A fallible traversal step that, when it succeeds, satisfies
`StepOk` (the step may fail). -/
def PartOk (st : FieldPathExtractor) (e : Except String FieldPathExtractor) : Prop :=
  ∀ r, e = .ok r → StepOk st r

/-- The driver-level growth property: the state only grows and symbol
validity is preserved (the current path need not be restored, since the
drivers reset it before each root field). -/
def GrowOk (st st' : FieldPathExtractor) : Prop :=
  Extends st st' ∧ (WfState st → WfState st')

/-- Driver-level partial correctness: `GrowOk` holds whenever the
computation succeeds. -/
def PartGrow (st : FieldPathExtractor) (e : Except String FieldPathExtractor) : Prop :=
  ∀ r, e = .ok r → GrowOk st r

/-- Decode a `paths` array back into the list of encoded index paths by
walking the length-prefixed blocks. -/
def decode_paths : List Nat → List (List Nat)
  | [] => []
  | len :: rest => rest.take len :: decode_paths (rest.drop len)
termination_by l => l.length
decreasing_by simp [List.length_drop]; omega

/-- The name of the first root field of the last mutation operation
definition that has a non-empty selection set whose first selection is a
field; `acc` carries the best candidate so far. -/
def lastMutationFirstField (acc : Option String) : List Definition → Option String
  | [] => acc
  | .fragmentDef :: rest => lastMutationFirstField acc rest
  | .operation op :: rest =>
    match op.operation, op.selection_set with
    | .mutation, .field f :: _ => lastMutationFirstField (some f.name) rest
    | _, _ => lastMutationFirstField acc rest

/-- The first operation definition of a document. -/
def firstOpDef : List Definition → Option OperationDefinition
  | [] => none
  | .operation op :: _ => some op
  | .fragmentDef :: rest => firstOpDef rest

/-- Whether a value is a list. -/
def Value.isListV : Value → Bool
  | .listV _ => true
  | _ => false

/-- The exact failure condition of `extract_mutation_objects` on a value
in `is_single_object` position (verification-side). -/
def mutValueBad : Value → Bool → Bool
  | .listV _, true => true
  | .listV items, false => items.any Value.isListV
  | _, _ => false

/-- The exact failure condition of `extract_update_set` on a value
(verification-side). -/
def setValueBad : Value → Bool
  | .obj _ => false
  | .varV _ => false
  | _ => true

/-- The exact failure condition of the mutation-argument extraction for
one argument of a field named `fname` (from extraction.rs:196-209,
252-290, 353-388): a list in singular-object position, or a `_set`
value that is neither an object nor a variable. -/
def argBad (cfg : Config) (fname : String) (a : Argument) : Bool :=
  if a.name = "where" then false
  else if strStarts fname cfg.insertPfx ∧ (a.name = "objects" ∨ a.name = "object") then
    if a.name = "object" then a.value.isListV
    else
      match a.value with
      | .listV items => items.any Value.isListV
      | _ => false
  else if strStarts fname cfg.updatePfx ∧ a.name = "_set" then
    match a.value with
    | .obj _ => false
    | .varV _ => false
    | _ => true
  else false

mutual
/-- A field subtree contains an argument on which the extraction fails. -/
def fieldHasBadArg (cfg : Config) : Field → Bool
  | .mk nm args _ sels => args.any (argBad cfg nm) || selsHaveBadArg cfg sels
def selsHaveBadArg (cfg : Config) : List Selection → Bool
  | [] => false
  | .field f :: rest => fieldHasBadArg cfg f || selsHaveBadArg cfg rest
  | _ :: rest => selsHaveBadArg cfg rest
end

/-- The document contains a mutation argument on which the extraction
fails. -/
def docHasBadArg (cfg : Config) (d : Document) : Bool :=
  d.definitions.any fun x =>
    match x with
    | .operation op => selsHaveBadArg cfg op.selection_set
    | .fragmentDef => false

/-- The failure condition exactly as claim C7 words it: a list passed to
the singular `object` argument of an insert-prefixed field, or a `_set`
value that is neither an object nor a variable on an update-prefixed
field. -/
def argBadClaimed (cfg : Config) (fname : String) (a : Argument) : Bool :=
  (strStarts fname cfg.insertPfx && (a.name = "object" : Bool) && a.value.isListV) ||
  (strStarts fname cfg.updatePfx && (a.name = "_set" : Bool) &&
    (match a.value with
     | .obj _ => false
     | .varV _ => false
     | _ => true))

mutual
def fieldHasBadArgClaimed (cfg : Config) : Field → Bool
  | .mk nm args _ sels => args.any (argBadClaimed cfg nm) || selsHaveBadArgClaimed cfg sels
def selsHaveBadArgClaimed (cfg : Config) : List Selection → Bool
  | [] => false
  | .field f :: rest => fieldHasBadArgClaimed cfg f || selsHaveBadArgClaimed cfg rest
  | _ :: rest => selsHaveBadArgClaimed cfg rest
end

def docHasBadArgClaimed (cfg : Config) (d : Document) : Bool :=
  d.definitions.any fun x =>
    match x with
    | .operation op => selsHaveBadArgClaimed cfg op.selection_set
    | .fragmentDef => false

/-- The entries the symbol-to-index map receives for the snapshot slice
`names`, whose snapshot positions start at `k0`, relative to the full
table `tbl` (verification-side closed form of the build fold). -/
def buildEntries (tbl : List String) : List String → Nat → List (Nat × Nat)
  | [], _ => []
  | n :: rest, k => ((idxOfStr tbl n).getD 0, k) :: buildEntries tbl rest (k + 1)

/-- The cols entry contributed by one enumerated path, if any
(verification-side closed form of one iteration of the cols loops). -/
def colsEntryFor (m : List (Nat × Nat)) (cu : List (FieldPath × List Nat))
    (p : FieldPath) : Option (Nat × List Nat) :=
  if p.length ≠ 1 then none
  else
    match lookupSym m (p.getD 0 0) with
    | none => none
    | some tidx =>
      match getColUsage cu p with
      | some columns =>
        let cidx := columns.filterMap (lookupSym m)
        if cidx.isEmpty then none else some (tidx, cidx)
      | none => none

/-- The names of the root fields of a selection set. -/
def rootNamesSels : List Selection → List String
  | [] => []
  | .field f :: rest => f.name :: rootNamesSels rest
  | _ :: rest => rootNamesSels rest

/-- The root-field names of every operation definition of a document. -/
def rootNamesDefs : List Definition → List String
  | [] => []
  | .fragmentDef :: rest => rootNamesDefs rest
  | .operation op :: rest => rootNamesSels op.selection_set ++ rootNamesDefs rest

/-- The flat `paths` array produced for an enumeration of index paths:
each path is emitted as a length-prefixed block. -/
def pathBlocksFlat (en : List (List Nat)) : List Nat :=
  (en.map (fun p => p.length :: p)).flatten

/-- The `path_dir` offsets produced for an enumeration of index paths,
when the flat array already holds `L` elements. -/
def pathDirsFrom (L : Nat) : List (List Nat) → List Nat
  | [] => []
  | p :: rest => L :: pathDirsFrom (L + (1 + p.length)) rest

/-- The cols comparison of claim C1: stable-sort the entries by
`table_idx` and sort each column list. -/
def sortCols (cols : List (Nat × List Nat)) : List (Nat × List Nat) :=
  sortByLe (fun a b => Nat.ble a.1 b.1)
    (cols.map (fun tc => (tc.1, sortByLe Nat.ble tc.2)))

/-- The lowercase hexadecimal digit characters. -/
def hexDigitChars : List Char :=
  "0123456789abcdef".data

/-- Decidable equality for `Except` results, used to evaluate concrete
runs of the embedded pipeline. -/
instance exceptDecEq {ε α : Type} [DecidableEq ε] [DecidableEq α] :
    DecidableEq (Except ε α) := fun a b =>
  match a, b with
  | .ok x, .ok y => decidable_of_iff (x = y) ⟨by rintro rfl; rfl, fun hc => Except.ok.inj hc⟩
  | .error x, .error y =>
    decidable_of_iff (x = y) ⟨by rintro rfl; rfl, fun hc => Except.error.inj hc⟩
  | .ok _, .error _ => isFalse (fun hc => Except.noConfusion hc)
  | .error _, .ok _ => isFalse (fun hc => Except.noConfusion hc)

/-! ## Concrete example documents used by counterexamples and witnesses -/

/-- A field selection without directives. -/
def sfield (n : String) (args : List Argument) (sels : List Selection) : Selection :=
  .field (.mk n args [] sels)

/-- A single anonymous query document. -/
def queryDoc (sels : List Selection) : Document :=
  ⟨[.operation ⟨.query, none, [], sels⟩]⟩

/-- A single anonymous mutation document. -/
def mutationDoc (sels : List Selection) : Document :=
  ⟨[.operation ⟨.mutation, none, [], sels⟩]⟩

/-- The S1 document of the spec: a `users` selection with columns `id`,
`name`. -/
def docS1 : Document := queryDoc [sfield "users" [] [sfield "id" [] [], sfield "name" [] []]]

/-- The S3 `where` value of the spec: profile / avatar / _eq. -/
def whereS3 : Value := .obj [.mk "profile" (.obj [.mk "avatar" (.obj [.mk "_eq" .scalar])])]

/-- The S3 document of the spec. -/
def docS3 : Document := queryDoc [sfield "users" [⟨"where", whereS3⟩] [sfield "id" [] []]]

/-- An insert mutation passing a list to the singular `object` argument. -/
def docObjectList : Document :=
  mutationDoc [sfield "insert_users" [⟨"object", .listV [.obj [.mk "name" .scalar]]⟩]
    [sfield "id" [] []]]

/-- An insert mutation passing a list of lists to the plural `objects`
argument. -/
def docObjectsNested : Document :=
  mutationDoc [sfield "insert_users" [⟨"objects", .listV [.listV [.obj [.mk "name" .scalar]]]⟩]
    [sfield "id" [] []]]

/-- A document with two mutation definitions: first `update_users`, then
`delete_users`. -/
def docTwoMutations : Document :=
  ⟨[.operation ⟨.mutation, none, [], [sfield "update_users" [] [sfield "id" [] []]]⟩,
    .operation ⟨.mutation, none, [], [sfield "delete_users" [] [sfield "id" [] []]]⟩]⟩

/-- A document whose first operation definition is unnamed and whose
second operation definition is named Foo. -/
def docLateName : Document :=
  ⟨[.operation ⟨.query, none, [], [sfield "a" [] [sfield "x" [] []]]⟩,
    .operation ⟨.query, some "Foo", [], [sfield "b" [] [sfield "y" [] []]]⟩]⟩

/-- The named second operation definition of `docLateName`. -/
def opNamedFoo : OperationDefinition :=
  ⟨.query, some "Foo", [], [sfield "b" [] [sfield "y" [] []]]⟩

/-- Tiny document `a { x }`, used by the cache scenarios. -/
def docA : Document := queryDoc [sfield "a" [] [sfield "x" [] []]]

/-- Tiny document `b { y }`, used by the cache scenarios. -/
def docB : Document := queryDoc [sfield "b" [] [sfield "y" [] []]]

/-- Two-table document `b { x } a { y }`, whose sorted path order differs
from a reversed enumeration. -/
def docBA : Document :=
  queryDoc [sfield "b" [] [sfield "x" [] []], sfield "a" [] [sfield "y" [] []]]

/-- The empty process state: empty interner, empty cache. -/
def procState0 : ProcState := ⟨[], []⟩

/-- The cache entry stored for `docA` by a first miss call. -/
def cachedA : CachedQueryInfo :=
  ⟨.Query, none, [[0]], [([0], [1])], none, docA⟩

/-- The request returned by the first (miss) call on `docA`. -/
def reqA1 : ResolutionRequest :=
  ⟨"d95770f3b09b3eb5", ["a", "x"], [1, 0], [0], [0], [(0, [1])], [(0, 0)]⟩

/-- The process state after the first call on `docA`. -/
def stateA1 : ProcState := ⟨["a", "x"], [("d95770f3b09b3eb5", cachedA)]⟩

/-- The cache entry stored for `docB`. -/
def cachedB : CachedQueryInfo :=
  ⟨.Query, none, [[2]], [([2], [3])], none, docB⟩

/-- The request returned by the second (miss) call on `docB`. -/
def reqB2 : ResolutionRequest :=
  ⟨"5bbc89a97aaf2623", ["a", "x", "b", "y"], [1, 2], [0], [0], [(2, [3])], [(2, 0)]⟩

/-- The process state after the second call. -/
def stateB2 : ProcState :=
  ⟨["a", "x", "b", "y"],
    [("d95770f3b09b3eb5", cachedA), ("5bbc89a97aaf2623", cachedB)]⟩

/-- The request returned by the third call - a hit on `docA`. -/
def reqA3 : ResolutionRequest :=
  ⟨"d95770f3b09b3eb5", ["a", "x", "b", "y"], [1, 0], [0], [0], [(0, [1])], [(0, 0)]⟩

/-- The parsed record of `docA`. -/
def infoA : ParsedQueryInfo := ⟨.Query, none, [[0]], [([0], [1])]⟩

/-- The value `create_resolution_request_from_cached` returns on a hit at
`stateA1`. -/
def rpHit : ResolutionRequest × List String := (reqA1, ["a", "x"])

/-- The value `parse_graphql` returns for `docA` on the empty interner. -/
def prA : ParsedQueryInfo × ResolutionRequest × List String := (infoA, reqA1, ["a", "x"])

/-- The cache entry stored for `docBA` by a first miss call. -/
def cachedBA : CachedQueryInfo :=
  ⟨.Query, none, [[0], [2]], [([0], [1]), ([2], [3])], none, docBA⟩

/-- The request the miss call on `docBA` returns when the hash set is
enumerated in the order `[[2], [0]]`. -/
def reqBA1 : ResolutionRequest :=
  ⟨"240e6a2525e6c5de", ["b", "x", "a", "y"], [1, 2, 1, 0], [0, 2], [0, 0],
    [(2, [3]), (0, [1])], [(0, 0), (2, 0)]⟩

/-- The process state after the miss call on `docBA`. -/
def stateBA1 : ProcState :=
  ⟨["b", "x", "a", "y"], [("240e6a2525e6c5de", cachedBA)]⟩

/-- The request the subsequent hit call on the same query returns: the
re-encoder sorts the path set, so the paths array differs. -/
def reqBA2 : ResolutionRequest :=
  ⟨"240e6a2525e6c5de", ["b", "x", "a", "y"], [1, 0, 1, 2], [0, 2], [0, 0],
    [(0, [1]), (2, [3])], [(0, 0), (2, 0)]⟩


/-! # Theorems -/

theorem idxOfStr_lt_length {tbl : List String} {s : String} {i : Nat}
    (h : idxOfStr tbl s = some i) : i < tbl.length := by
  induction tbl generalizing i with
  | nil => simp [idxOfStr] at h
  | cons x xs ih =>
    by_cases hx : x = s
    · simp [idxOfStr, hx] at h
      simp [← h]
    · simp [idxOfStr, hx] at h
      obtain ⟨j, hj, rfl⟩ := h
      have := ih hj
      simp
      omega

theorem idxOfStr_get {tbl : List String} {s : String} {i : Nat}
    (h : idxOfStr tbl s = some i) : tbl.getD i "" = s := by
  induction tbl generalizing i with
  | nil => simp [idxOfStr] at h
  | cons x xs ih =>
    by_cases hx : x = s
    · simp [idxOfStr, hx] at h
      subst h
      simpa using hx
    · simp [idxOfStr, hx] at h
      obtain ⟨j, hj, rfl⟩ := h
      simpa using ih hj

theorem idxOfStr_none {tbl : List String} {s : String}
    (h : idxOfStr tbl s = none) : s ∉ tbl := by
  induction tbl with
  | nil => simp
  | cons x xs ih =>
    by_cases hx : x = s
    · simp [idxOfStr, hx] at h
    · simp [idxOfStr, hx] at h
      simp [ih h]
      exact fun hc => hx hc.symm

theorem idxOfStr_isSome_of_mem {tbl : List String} {s : String}
    (h : s ∈ tbl) : ∃ i, idxOfStr tbl s = some i := by
  cases hh : idxOfStr tbl s with
  | some i => exact ⟨i, rfl⟩
  | none => exact absurd h (idxOfStr_none hh)

theorem idxOfStr_mem {tbl : List String} {s : String} {i : Nat}
    (h : idxOfStr tbl s = some i) : s ∈ tbl := by
  induction tbl generalizing i with
  | nil => simp [idxOfStr] at h
  | cons x xs ih =>
    by_cases hx : x = s
    · simp [hx]
    · simp [idxOfStr, hx] at h
      obtain ⟨j, hj, _⟩ := h
      exact List.mem_cons_of_mem _ (ih hj)

theorem intern_str_mem (tbl : List String) (s : String) : s ∈ (intern_str tbl s).1 := by
  unfold intern_str
  cases hh : idxOfStr tbl s with
  | some i => exact idxOfStr_mem hh
  | none => simp

/-- An index assigned once is stable under interner growth. -/
theorem idxOfStr_prefix {tbl tbl' : List String} {s : String} {i : Nat}
    (h : idxOfStr tbl s = some i) (hp : tbl <+: tbl') : idxOfStr tbl' s = some i := by
  obtain ⟨t, rfl⟩ := hp
  induction tbl generalizing i with
  | nil => simp [idxOfStr] at h
  | cons x xs ih =>
    by_cases hx : x = s
    · simp [idxOfStr, hx] at h ⊢
      exact h
    · simp [idxOfStr, hx] at h ⊢
      obtain ⟨j, hj, rfl⟩ := h
      exact ⟨j, ih hj, rfl⟩

/-- Interning only extends the interner state: the old state is a prefix
of the new one. -/
theorem intern_str_grows (tbl : List String) (s : String) :
    tbl <+: (intern_str tbl s).1 := by
  unfold intern_str
  cases h : idxOfStr tbl s with
  | some i => exact List.prefix_rfl
  | none => exact ⟨[s], rfl⟩

theorem intern_str_lt (tbl : List String) (s : String) :
    (intern_str tbl s).2 < (intern_str tbl s).1.length := by
  unfold intern_str
  cases h : idxOfStr tbl s with
  | some i => simpa using idxOfStr_lt_length h
  | none => simp

theorem intern_str_getD (tbl : List String) (s : String) :
    (intern_str tbl s).1.getD (intern_str tbl s).2 "" = s := by
  unfold intern_str
  cases h : idxOfStr tbl s with
  | some i => simpa using idxOfStr_get h
  | none => simp

/-- The symbol an `intern_str` call returns is resolvable in every later
interner state. -/
theorem intern_str_idxOfStr (tbl : List String) (s : String) :
    idxOfStr (intern_str tbl s).1 s = some (intern_str tbl s).2 := by
  unfold intern_str
  cases h : idxOfStr tbl s with
  | some i => simpa using h
  | none =>
    simp only
    induction tbl with
    | nil => simp [idxOfStr]
    | cons x xs ih =>
      by_cases hx : x = s
      · simp [idxOfStr, hx] at h
      · rw [show idxOfStr (x :: xs) s = (idxOfStr xs s).map (· + 1) by simp [idxOfStr, hx]] at h
        rw [Option.map_eq_none'] at h
        simp [idxOfStr, hx, ih h]

/-- The member of an already-interned string is returned unchanged. -/
theorem intern_str_of_mem {tbl : List String} {s : String} (h : s ∈ tbl) :
    (intern_str tbl s).1 = tbl := by
  unfold intern_str
  cases hh : idxOfStr tbl s with
  | some i => rfl
  | none => exact absurd h (idxOfStr_none hh)

/-! ### Fingerprint rendering (claim C3) -/

theorem avalanche64_lt (h : Nat) : avalanche64 h < 2 ^ 64 := by
  unfold avalanche64
  refine Nat.xor_lt_two_pow (Nat.mod_lt _ (by norm_num)) ?_
  calc _ ≤ _ % 2 ^ 64 := by
        simpa [Nat.shiftRight_eq_div_pow] using Nat.div_le_self _ (2 ^ 32)
    _ < 2 ^ 64 := Nat.mod_lt _ (by norm_num)

theorem avalanche3_lt (h : Nat) : avalanche3 h < 2 ^ 64 := by
  unfold avalanche3
  refine Nat.xor_lt_two_pow (Nat.mod_lt _ (by norm_num)) ?_
  calc _ ≤ _ % 2 ^ 64 := by
        simpa [Nat.shiftRight_eq_div_pow] using Nat.div_le_self _ (2 ^ 32)
    _ < 2 ^ 64 := Nat.mod_lt _ (by norm_num)

theorem rrmxmx_lt (h len : Nat) : rrmxmx h len < 2 ^ 64 := by
  unfold rrmxmx
  refine Nat.xor_lt_two_pow (Nat.mod_lt _ (by norm_num)) ?_
  calc _ ≤ _ % 2 ^ 64 := by
        simpa [Nat.shiftRight_eq_div_pow] using Nat.div_le_self _ (2 ^ 28)
    _ < 2 ^ 64 := Nat.mod_lt _ (by norm_num)

/-- The embedded fingerprint is a 64-bit value. -/
theorem xxh3_64_lt (b : List Nat) : xxh3_64 b < 2 ^ 64 := by
  unfold xxh3_64 xxh3Short xxh3Mid xxh3MidLarge xxh3Long
  dsimp only
  split
  · split
    · exact avalanche64_lt _
    · split
      · exact avalanche64_lt _
      · split
        · exact rrmxmx_lt _ _
        · exact avalanche3_lt _
  · split
    · exact avalanche3_lt _
    · split
      · exact avalanche3_lt _
      · exact avalanche3_lt _

theorem hexCharsAux_length_le (f : Nat) : ∀ n, (hexCharsAux f n).length ≤ max 1 f := by
  induction f with
  | zero => intro n; simp [hexCharsAux]
  | succ f ih =>
    intro n
    unfold hexCharsAux
    split
    · simp
    · cases f with
      | zero => simp [hexCharsAux]
      | succ g =>
        have := ih (n / 16)
        simp only [List.length_append, List.length_cons, List.length_nil] at this ⊢
        omega

theorem hexChars_ne_nil (n : Nat) : hexChars n ≠ [] := by
  unfold hexChars hexCharsAux
  split <;> simp

theorem hexChars_length_le (n : Nat) : (hexChars n).length ≤ 16 := by
  simpa using hexCharsAux_length_le 16 n

theorem hexDigit_mem {m : Nat} (h : m < 16) : hexDigit m ∈ hexDigitChars := by
  interval_cases m <;> decide

theorem hexCharsAux_mem (f : Nat) : ∀ n, ∀ c ∈ hexCharsAux f n, c ∈ hexDigitChars := by
  induction f with
  | zero => intro n c hc; simp [hexCharsAux] at hc
  | succ f ih =>
    intro n c hc
    unfold hexCharsAux at hc
    by_cases hn : n < 16
    · simp [hn] at hc
      subst hc
      exact hexDigit_mem hn
    · simp [hn] at hc
      rcases hc with hc | hc
      · exact ih _ c hc
      · subst hc
        exact hexDigit_mem (Nat.mod_lt _ (by norm_num))

theorem hexChars_mem (n : Nat) : ∀ c ∈ hexChars n, c ∈ hexDigitChars :=
  hexCharsAux_mem 16 n

theorem hexVal_cons (c : Char) (cs : List Char) :
    hexVal (c :: cs) =
      (if c.toNat < 97 then c.toNat - 48 else c.toNat - 87) * 16 ^ cs.length + hexVal cs := rfl

theorem hexVal_append_digit (l : List Char) (c : Char) :
    hexVal (l ++ [c]) =
      hexVal l * 16 + (if c.toNat < 97 then c.toNat - 48 else c.toNat - 87) := by
  induction l with
  | nil => simp [hexVal]
  | cons x xs ih =>
    rw [List.cons_append, hexVal_cons, hexVal_cons, ih]
    by_cases hx : x.toNat < 97 <;> simp [hx, List.length_append, Nat.pow_succ] <;> ring

theorem hexVal_hexDigit {m : Nat} (h : m < 16) :
    (if (hexDigit m).toNat < 97 then (hexDigit m).toNat - 48 else (hexDigit m).toNat - 87) = m := by
  interval_cases m <;> decide

theorem hexVal_hexCharsAux (f : Nat) : ∀ n, n < 16 ^ f → hexVal (hexCharsAux f n) = n := by
  induction f with
  | zero =>
    intro n hn
    simp at hn
    simp [hexCharsAux, hexVal, hn]
  | succ f ih =>
    intro n hn
    unfold hexCharsAux
    by_cases h16 : n < 16
    · simp only [h16, if_true, hexVal, List.length_nil, pow_zero, mul_one, Nat.add_zero]
      exact hexVal_hexDigit h16
    · simp only [h16, if_false]
      have hdiv : n / 16 < 16 ^ f := by
        rw [Nat.div_lt_iff_lt_mul (by norm_num)]
        calc n < 16 ^ (f + 1) := hn
          _ = 16 ^ f * 16 := by rw [Nat.pow_succ]
      rw [hexVal_append_digit, ih _ hdiv, hexVal_hexDigit (Nat.mod_lt _ (by norm_num))]
      omega

/-- Decoding the rendered hex string recovers the numeric fingerprint,
for every 64-bit value. -/
theorem hexVal_hexChars {n : Nat} (h : n < 2 ^ 64) : hexVal (hexChars n) = n :=
  hexVal_hexCharsAux 16 n (by norm_num at h ⊢; omega)

/-- Claim C3, amended: the query id is a pure function of the raw bytes
of the query; it is the lowercase-hexadecimal rendering, without leading
zeros, of the 64-bit xxh3 fingerprint of those bytes - decoding the hex
string recovers the fingerprint - and its length is between 1 and 16
characters (exactly 16 only when the fingerprint is at least 2^60). -/
theorem generate_query_id_spec (q : String) :
    hexVal (generate_query_id q).data = xxh3_64 (strBytes q) ∧
    1 ≤ (generate_query_id q).length ∧
    (generate_query_id q).length ≤ 16 ∧
    (∀ c ∈ (generate_query_id q).data, c ∈ hexDigitChars) ∧
    (∀ q' : String, strBytes q' = strBytes q → generate_query_id q' = generate_query_id q) := by
  refine ⟨?_, ?_, ?_, ?_, ?_⟩
  · show hexVal (hexChars (xxh3_64 (strBytes q))) = _
    exact hexVal_hexChars (xxh3_64_lt _)
  · show 1 ≤ (hexChars (xxh3_64 (strBytes q))).length
    have := hexChars_ne_nil (xxh3_64 (strBytes q))
    cases h : hexChars (xxh3_64 (strBytes q)) with
    | nil => exact absurd h this
    | cons a l => simp
  · show (hexChars (xxh3_64 (strBytes q))).length ≤ 16
    exact hexChars_length_le _
  · show ∀ c ∈ hexChars (xxh3_64 (strBytes q)), c ∈ hexDigitChars
    exact hexChars_mem _
  · intro q' h
    unfold generate_query_id
    rw [h]

/-- Claim C3, counterexample: the rendering is not padded to 16
characters; the query text "name" has fingerprint 0xc354ecdc24a77d5,
whose rendering has 15 characters. -/
theorem generate_query_id_name_not_sixteen :
    generate_query_id "name" = "c354ecdc24a77d5" ∧
    (generate_query_id "name").length = 15 ∧
    ¬ (generate_query_id "name").length = 16 := by
  refine ⟨by decide, by decide, by decide⟩

/-- Witness for generate_query_id_spec at the query text "users". -/
theorem generate_query_id_spec_witness :
    hexVal (generate_query_id "users").data = xxh3_64 (strBytes "users") ∧
    (generate_query_id "users").length ≤ 16 ∧
    generate_query_id "users" = "4ce8a257f7c83669" :=
  ⟨(generate_query_id_spec "users").1, (generate_query_id_spec "users").2.2.1, by decide⟩

/-! ### Operation name capture (claim C9) -/

/-- Claim C9, amended: the operation name returned is the name of the
first operation definition of the document; names on later operation
definitions are ignored (the loop breaks after the first operation
definition). -/
theorem extract_operation_name_firstOpDef (defs : List Definition) :
    extract_operation_name defs =
      match firstOpDef defs with
      | some op => op.name
      | none => none := by
  induction defs with
  | nil => rfl
  | cons d rest ih => cases d <;> simp [extract_operation_name, firstOpDef, ih]

/-- Claim C9, counterexample: in `docLateName` the named operation
definition `opNamedFoo` is present, yet the captured operation name is
`none`, because the loop breaks at the first (unnamed) operation
definition. -/
theorem extract_operation_name_misses_late_name :
    extract_operation_name docLateName.definitions = none ∧
    Definition.operation opNamedFoo ∈ docLateName.definitions ∧
    opNamedFoo.name = some "Foo" :=
  ⟨rfl, List.mem_cons_of_mem _ (List.mem_cons_self _ _), rfl⟩

/-! ### Mutation classification (claim C6) -/

theorem detOpKindStep_flag (cfg : Config) (acc : Bool × GraphQLOperationKind)
    (d : Definition) (h : acc.1 = true) : (detOpKindStep cfg acc d).1 = true := by
  cases d with
  | fragmentDef => exact h
  | operation op =>
    cases hop : op.operation <;> simp only [detOpKindStep, hop] <;>
      (repeat' split) <;> simp_all

theorem detOpKind_flag_mono (cfg : Config) (defs : List Definition)
    (acc : Bool × GraphQLOperationKind) (h : acc.1 = true) :
    (defs.foldl (detOpKindStep cfg) acc).1 = true := by
  induction defs generalizing acc with
  | nil => exact h
  | cons d rest ih => exact ih _ (detOpKindStep_flag cfg acc d h)

/-- Accumulator characterization of `lastMutationFirstField`. -/
theorem lastMutationFirstField_acc (defs : List Definition) (x : String) :
    lastMutationFirstField (some x) defs =
      match lastMutationFirstField none defs with
      | some y => some y
      | none => some x := by
  induction defs generalizing x with
  | nil => rfl
  | cons d rest ih =>
    cases d with
    | fragmentDef => simpa [lastMutationFirstField] using ih x
    | operation op =>
      cases hop : op.operation with
      | mutation =>
        cases hsel : op.selection_set with
        | nil => simpa [lastMutationFirstField, hop, hsel] using ih x
        | cons s tl =>
          cases s with
          | field f =>
            simp only [lastMutationFirstField, hop, hsel, ih]
            cases lastMutationFirstField none rest <;> rfl
          | fragmentSpread => simpa [lastMutationFirstField, hop, hsel] using ih x
          | inlineFragment => simpa [lastMutationFirstField, hop, hsel] using ih x
      | query => simpa [lastMutationFirstField, hop] using ih x
      | subscription => simpa [lastMutationFirstField, hop] using ih x

theorem lastMutationFirstField_some_ne_none (defs : List Definition) (x : String) :
    lastMutationFirstField (some x) defs ≠ none := by
  rw [lastMutationFirstField_acc]
  cases lastMutationFirstField none defs <;> simp

/-- If no further mutation definition qualifies, the definition loop
keeps a non-Query primary kind unchanged. -/
theorem detOpKind_foldl_of_none (cfg : Config) (defs : List Definition)
    (b : Bool) (k : GraphQLOperationKind)
    (h : lastMutationFirstField none defs = none) (hk : k ≠ .Query) :
    (defs.foldl (detOpKindStep cfg) (b, k)).2 = k := by
  induction defs generalizing b with
  | nil => rfl
  | cons d rest ih =>
    cases d with
    | fragmentDef =>
      simp only [lastMutationFirstField] at h
      simpa [List.foldl_cons, detOpKindStep] using ih _ h
    | operation op =>
      cases hop : op.operation with
      | mutation =>
        cases hsel : op.selection_set with
        | nil =>
          simp only [lastMutationFirstField, hop, hsel] at h
          simp only [List.foldl_cons, detOpKindStep, hop, hsel, List.isEmpty_nil, if_true]
          exact ih _ h
        | cons s tl =>
          cases s with
          | field f =>
            simp only [lastMutationFirstField, hop, hsel] at h
            exact absurd h (lastMutationFirstField_some_ne_none _ _)
          | fragmentSpread =>
            simp only [lastMutationFirstField, hop, hsel] at h
            simp only [List.foldl_cons, detOpKindStep, hop, hsel, List.isEmpty_cons,
              if_false, List.head?_cons, Selection.fieldOf]
            exact ih _ h
          | inlineFragment =>
            simp only [lastMutationFirstField, hop, hsel] at h
            simp only [List.foldl_cons, detOpKindStep, hop, hsel, List.isEmpty_cons,
              if_false, List.head?_cons, Selection.fieldOf]
            exact ih _ h
      | query =>
        simp only [lastMutationFirstField, hop] at h
        simp only [List.foldl_cons, detOpKindStep, hop, opKindFromAst]
        split
        · simp_all
        · exact ih _ h
      | subscription =>
        simp only [lastMutationFirstField, hop] at h
        simp only [List.foldl_cons, detOpKindStep, hop, opKindFromAst]
        split
        · simp_all
        · exact ih _ h

theorem mutationKindOf_ne_query (cfg : Config) (nm : String) :
    mutationKindOf cfg nm ≠ .Query := by
  unfold mutationKindOf
  split
  · simp
  · split
    · simp
    · split <;> simp

theorem detOpKind_foldl_of_some (cfg : Config) (defs : List Definition)
    (nm : String) (h : lastMutationFirstField none defs = some nm) :
    ∀ (b : Bool) (k : GraphQLOperationKind),
      defs.foldl (detOpKindStep cfg) (b, k) = (true, mutationKindOf cfg nm) := by
  induction defs with
  | nil => simp [lastMutationFirstField] at h
  | cons d rest ih =>
    intro b k
    cases d with
    | fragmentDef =>
      simp only [lastMutationFirstField] at h
      simpa [List.foldl_cons, detOpKindStep] using ih h _ _
    | operation op =>
      cases hop : op.operation with
      | mutation =>
        cases hsel : op.selection_set with
        | nil =>
          simp only [lastMutationFirstField, hop, hsel] at h
          simp only [List.foldl_cons, detOpKindStep, hop, hsel, List.isEmpty_nil, if_true]
          exact ih h _ _
        | cons s tl =>
          cases s with
          | field f =>
            simp only [lastMutationFirstField, hop, hsel] at h
            rw [lastMutationFirstField_acc] at h
            simp only [List.foldl_cons, detOpKindStep, hop, hsel, List.isEmpty_cons,
              if_false, List.head?_cons, Selection.fieldOf]
            cases hrest : lastMutationFirstField none rest with
            | some y =>
              rw [hrest] at h
              simp at h
              subst h
              exact ih hrest _ _
            | none =>
              rw [hrest] at h
              simp at h
              subst h
              have h2 := detOpKind_foldl_of_none cfg rest true (mutationKindOf cfg f.name)
                hrest (mutationKindOf_ne_query cfg f.name)
              have h1 := detOpKind_flag_mono cfg rest (true, mutationKindOf cfg f.name) rfl
              exact Prod.ext h1 h2
          | fragmentSpread =>
            simp only [lastMutationFirstField, hop, hsel] at h
            simp only [List.foldl_cons, detOpKindStep, hop, hsel, List.isEmpty_cons,
              if_false, List.head?_cons, Selection.fieldOf]
            exact ih h _ _
          | inlineFragment =>
            simp only [lastMutationFirstField, hop, hsel] at h
            simp only [List.foldl_cons, detOpKindStep, hop, hsel, List.isEmpty_cons,
              if_false, List.head?_cons, Selection.fieldOf]
            exact ih h _ _
      | query =>
        simp only [lastMutationFirstField, hop] at h
        simp only [List.foldl_cons, detOpKindStep, hop, opKindFromAst]
        split
        · simp_all
        · split
          · exact ih h _ _
          · exact ih h _ _
      | subscription =>
        simp only [lastMutationFirstField, hop] at h
        simp only [List.foldl_cons, detOpKindStep, hop, opKindFromAst]
        split
        · simp_all
        · split
          · exact ih h _ _
          · exact ih h _ _

/-- Claim C6, amended: for a document containing at least one mutation
definition with a non-empty selection set whose first selection is a
field, the classified kind is determined by matching the first root
field of the last such mutation definition against the configured
prefixes (insert - InsertMutation, update - UpdateMutation, delete -
DeleteMutation, no match - InsertMutation). -/
theorem determine_operation_kind_last_mutation (cfg : Config) (d : Document) (nm : String)
    (h : lastMutationFirstField none d.definitions = some nm) :
    determine_operation_kind cfg d = .ok (mutationKindOf cfg nm) := by
  unfold determine_operation_kind
  rw [detOpKind_foldl_of_some cfg d.definitions nm h]
  rfl

/-- Witness for determine_operation_kind_last_mutation: `docTwoMutations`
classifies by its last mutation, `delete_users`. -/
theorem determine_operation_kind_last_mutation_witness :
    lastMutationFirstField none docTwoMutations.definitions = some "delete_users" ∧
    determine_operation_kind defaultConfig docTwoMutations =
      .ok (mutationKindOf defaultConfig "delete_users") ∧
    mutationKindOf defaultConfig "delete_users" = .DeleteMutation :=
  ⟨by decide, determine_operation_kind_last_mutation defaultConfig docTwoMutations
    "delete_users" (by decide), by decide⟩

/-- Claim C6, counterexample: the first operation definition of
`docTwoMutations` is a mutation whose first root field `update_users`
matches the update prefix, yet the classified kind is `DeleteMutation`
(the loop lets the last mutation definition win), not the
`UpdateMutation` the claim requires. -/
theorem determine_operation_kind_not_first_mutation :
    docTwoMutations.definitions.head? =
      some (.operation ⟨.mutation, none, [], [sfield "update_users" [] [sfield "id" [] []]]⟩) ∧
    mutationKindOf defaultConfig "update_users" = .UpdateMutation ∧
    determine_operation_kind defaultConfig docTwoMutations = .ok .DeleteMutation ∧
    (GraphQLOperationKind.DeleteMutation ≠ .UpdateMutation) :=
  ⟨rfl, by decide, by decide, by decide⟩

/-! ### Extractor state lemmas -/

theorem extendsRefl (st : FieldPathExtractor) : Extends st st :=
  ⟨List.prefix_rfl, fun _ h => h, fun _ _ h => h⟩

theorem extendsTrans {a b c : FieldPathExtractor} (h1 : Extends a b) (h2 : Extends b c) :
    Extends a c :=
  ⟨h1.1.trans h2.1, fun p hp => h2.2.1 p (h1.2.1 p hp),
    fun t cc hc => h2.2.2 t cc (h1.2.2 t cc hc)⟩

theorem internName_fields (st : FieldPathExtractor) (s : String) :
    (st.internName s).1.field_paths = st.field_paths ∧
    (st.internName s).1.current_path = st.current_path ∧
    (st.internName s).1.column_usage = st.column_usage ∧
    st.interner <+: (st.internName s).1.interner ∧
    (st.internName s).2 < (st.internName s).1.interner.length ∧
    idxOfStr (st.internName s).1.interner s = some (st.internName s).2 :=
  ⟨rfl, rfl, rfl, intern_str_grows _ _, intern_str_lt _ _, intern_str_idxOfStr _ _⟩

theorem internName_extends (st : FieldPathExtractor) (s : String) :
    Extends st (st.internName s).1 :=
  ⟨intern_str_grows _ _, fun _ h => h, fun _ _ h => h⟩

theorem insertPath_extends (st : FieldPathExtractor) (p : FieldPath) :
    Extends st (st.insertPath p) := by
  unfold FieldPathExtractor.insertPath
  split
  · exact extendsRefl st
  · exact ⟨List.prefix_rfl, fun q hq => List.mem_append_left _ hq, fun _ _ h => h⟩

theorem insertPath_mem (st : FieldPathExtractor) (p : FieldPath) :
    p ∈ (st.insertPath p).field_paths := by
  unfold FieldPathExtractor.insertPath
  split
  · assumption
  · simp

theorem insertPath_current (st : FieldPathExtractor) (p : FieldPath) :
    (st.insertPath p).current_path = st.current_path := by
  unfold FieldPathExtractor.insertPath
  split <;> rfl

theorem insertPath_interner (st : FieldPathExtractor) (p : FieldPath) :
    (st.insertPath p).interner = st.interner := by
  unfold FieldPathExtractor.insertPath
  split <;> rfl

theorem insertPath_colUsage (st : FieldPathExtractor) (p : FieldPath) :
    (st.insertPath p).column_usage = st.column_usage := by
  unfold FieldPathExtractor.insertPath
  split <;> rfl

theorem insertPath_mem_iff (st : FieldPathExtractor) (p q : FieldPath) :
    q ∈ (st.insertPath p).field_paths ↔ q ∈ st.field_paths ∨ q = p := by
  unfold FieldPathExtractor.insertPath
  split
  · constructor
    · exact fun h => Or.inl h
    · rintro (h | rfl) <;> assumption
  · simp

theorem getColUsage_addColUsage (cu : List (FieldPath × List Nat)) (t : FieldPath) (c : Nat)
    (t' : FieldPath) :
    getColUsage (addColUsage cu t c) t' =
      if t' = t then
        match getColUsage cu t with
        | none => some [c]
        | some cs => some (if c ∈ cs then cs else cs ++ [c])
      else getColUsage cu t' := by
  induction cu with
  | nil =>
    by_cases h : t' = t
    · subst h
      simp [addColUsage, getColUsage]
    · have hne : ¬ t = t' := fun hh => h hh.symm
      simp [addColUsage, getColUsage, h, hne]
  | cons pc rest ih =>
    obtain ⟨p, cs⟩ := pc
    by_cases hpt : p = t
    · subst hpt
      by_cases ht' : t' = p
      · subst ht'
        simp [addColUsage, getColUsage]
      · have hne : ¬ p = t' := fun hh => ht' hh.symm
        simp [addColUsage, getColUsage, ht', hne]
    · by_cases hp' : p = t'
      · subst hp'
        simp [addColUsage, getColUsage, hpt]
      · simp [addColUsage, getColUsage, hpt, hp', ih]

theorem colMem_addColUsage (cu : List (FieldPath × List Nat)) (t : FieldPath) (c : Nat) :
    colMem (addColUsage cu t c) t c := by
  unfold colMem
  rw [getColUsage_addColUsage]
  simp only [if_pos rfl]
  cases h : getColUsage cu t with
  | none => exact ⟨[c], rfl, by simp⟩
  | some cs =>
    refine ⟨_, rfl, ?_⟩
    split <;> simp_all

theorem colMem_addColUsage_mono (cu : List (FieldPath × List Nat)) (t : FieldPath) (c : Nat)
    (t' : FieldPath) (c' : Nat) (h : colMem cu t' c') : colMem (addColUsage cu t c) t' c' := by
  obtain ⟨cs, hcs, hc⟩ := h
  unfold colMem
  rw [getColUsage_addColUsage]
  split
  · subst ‹t' = t›
    rw [hcs]
    refine ⟨_, rfl, ?_⟩
    split <;> simp_all
  · exact ⟨cs, hcs, hc⟩

theorem addColumn_extends (st : FieldPathExtractor) (t : FieldPath) (c : Nat) :
    Extends st (st.addColumn t c) :=
  ⟨List.prefix_rfl, fun _ h => h, fun t' c' h => colMem_addColUsage_mono _ _ _ _ _ h⟩

theorem pushPath_extends (st : FieldPathExtractor) (i : Nat) :
    Extends st (st.pushPath i) :=
  ⟨List.prefix_rfl, fun _ h => h, fun _ _ h => h⟩

theorem popPath_extends (st : FieldPathExtractor) :
    Extends st st.popPath :=
  ⟨List.prefix_rfl, fun _ h => h, fun _ _ h => h⟩

theorem pushPath_pop (st : FieldPathExtractor) (i : Nat) :
    (st.pushPath i).current_path.dropLast = st.current_path := by
  simp [FieldPathExtractor.pushPath]

theorem StepOk.refl (st : FieldPathExtractor) : StepOk st st :=
  ⟨rfl, extendsRefl st, fun h => h⟩

theorem StepOk.trans {a b c : FieldPathExtractor} (h1 : StepOk a b) (h2 : StepOk b c) :
    StepOk a c :=
  ⟨h2.1.trans h1.1, extendsTrans h1.2.1 h2.2.1, fun h => h2.2.2 (h1.2.2 h)⟩

theorem SymOk.mono {I I' : List String} {s : Nat} (h : SymOk I s) (hp : I <+: I') :
    SymOk I' s := by
  obtain ⟨str, hstr⟩ := h
  exact ⟨str, idxOfStr_prefix hstr hp⟩

theorem SymOk.lt {I : List String} {s : Nat} (h : SymOk I s) : s < I.length := by
  obtain ⟨str, hstr⟩ := h
  exact idxOfStr_lt_length hstr

theorem SymOk.internName (st : FieldPathExtractor) (nm : String) :
    SymOk (st.internName nm).1.interner (st.internName nm).2 :=
  ⟨nm, intern_str_idxOfStr st.interner nm⟩

theorem wf_interner_grow {st st' : FieldPathExtractor}
    (hf : st'.field_paths = st.field_paths) (hc : st'.current_path = st.current_path)
    (hcu : st'.column_usage = st.column_usage) (hi : st.interner <+: st'.interner)
    (h : WfState st) : WfState st' := by
  obtain ⟨h1, h2, h3⟩ := h
  refine ⟨?_, ?_, ?_⟩
  · rw [hf]
    exact fun p hp s hs => (h1 p hp s hs).mono hi
  · rw [hc]
    exact fun s hs => (h2 s hs).mono hi
  · rw [hcu]
    exact fun tc htc => ⟨fun s hs => ((h3 tc htc).1 s hs).mono hi,
      fun s hs => ((h3 tc htc).2 s hs).mono hi⟩

theorem wf_internName (st : FieldPathExtractor) (s : String) (h : WfState st) :
    WfState (st.internName s).1 :=
  @wf_interner_grow st (st.internName s).1 rfl rfl rfl (internName_fields st s).2.2.2.1 h

theorem wf_pushPath (st : FieldPathExtractor) (i : Nat)
    (hi : SymOk st.interner i) (h : WfState st) : WfState (st.pushPath i) := by
  obtain ⟨h1, h2, h3⟩ := h
  refine ⟨h1, ?_, h3⟩
  intro s hs
  simp only [FieldPathExtractor.pushPath, List.mem_append, List.mem_singleton] at hs
  rcases hs with hs | rfl
  · exact h2 s hs
  · exact hi

theorem wf_popPath (st : FieldPathExtractor) (h : WfState st) : WfState st.popPath := by
  obtain ⟨h1, h2, h3⟩ := h
  exact ⟨h1, fun s hs => h2 s (List.dropLast_subset _ hs), h3⟩

theorem wf_insert_current (st : FieldPathExtractor) (h : WfState st) :
    WfState (st.insertPath st.current_path) := by
  obtain ⟨h1, h2, h3⟩ := h
  unfold FieldPathExtractor.insertPath
  split
  · exact ⟨h1, h2, h3⟩
  · refine ⟨?_, h2, h3⟩
    intro p hp
    simp only [List.mem_append, List.mem_singleton] at hp
    rcases hp with hp | rfl
    · exact h1 p hp
    · exact h2

theorem wf_addColUsage {cu : List (FieldPath × List Nat)} {t : FieldPath}
    {c : Nat} {I : List String}
    (hcu : ∀ tc ∈ cu, (∀ s ∈ tc.1, SymOk I s) ∧ (∀ s ∈ tc.2, SymOk I s))
    (ht : ∀ s ∈ t, SymOk I s) (hc : SymOk I c) :
    ∀ tc ∈ addColUsage cu t c, (∀ s ∈ tc.1, SymOk I s) ∧ (∀ s ∈ tc.2, SymOk I s) := by
  induction cu with
  | nil =>
    intro tc htc
    simp only [addColUsage, List.mem_singleton] at htc
    subst htc
    exact ⟨ht, by simpa using hc⟩
  | cons pc rest ih =>
    obtain ⟨p, cs⟩ := pc
    intro tc htc
    by_cases hpt : p = t
    · simp only [addColUsage, if_pos hpt, List.mem_cons] at htc
      rcases htc with htc | htc
      · rw [htc]
        refine ⟨(hcu (p, cs) (by simp)).1, ?_⟩
        intro s hs
        simp only at hs
        split at hs
        · exact (hcu (p, cs) (by simp)).2 s hs
        · simp only [List.mem_append, List.mem_singleton] at hs
          rcases hs with hs | rfl
          · exact (hcu (p, cs) (by simp)).2 s hs
          · exact hc
      · exact hcu tc (List.mem_cons_of_mem _ htc)
    · simp only [addColUsage, hpt, if_false, List.mem_cons] at htc
      rcases htc with rfl | htc
      · exact hcu _ (by simp)
      · exact ih (fun x hx => hcu x (List.mem_cons_of_mem _ hx)) tc htc

theorem wf_addColumn (st : FieldPathExtractor) (t : FieldPath) (c : Nat)
    (ht : ∀ s ∈ t, SymOk st.interner s) (hc : SymOk st.interner c)
    (h : WfState st) : WfState (st.addColumn t c) := by
  obtain ⟨h1, h2, h3⟩ := h
  exact ⟨h1, h2, wf_addColUsage h3 ht hc⟩

/-! ### Pass A properties -/

theorem visit_field_stepOk : ∀ (st : FieldPathExtractor) (f : Field),
    StepOk st (visit_field st f) := by
  refine visit_field.induct (fun st f => StepOk st (visit_field st f))
    (fun st sels => StepOk st (visit_selection_set st sels)) ?_ ?_ ?_ ?_
  · intro st nm args dirs sels s1x st2x st3x ih
    unfold_let st3x st2x s1x at ih
    rw [visit_field]
    set s1 := st.internName nm with hs1
    set st2 := s1.1.pushPath s1.2 with hst2
    set st3 := (if sels.isEmpty = true then st2 else st2.insertPath st2.current_path) with hst3
    have hcur2 : st2.current_path = st.current_path ++ [s1.2] := rfl
    have hcur3 : st3.current_path = st.current_path ++ [s1.2] := by
      rw [hst3]
      split
      · exact hcur2
      · rw [insertPath_current]
        exact hcur2
    have hext3 : Extends st st3 := by
      have e1 : Extends st st2 := extendsTrans (internName_extends st nm) (pushPath_extends _ _)
      rw [hst3]
      split
      · exact e1
      · exact extendsTrans e1 (insertPath_extends _ _)
    have hwf3 : WfState st → WfState st3 := by
      intro hw
      have w2 : WfState st2 :=
        wf_pushPath _ _ (SymOk.internName st nm) (wf_internName st nm hw)
      rw [hst3]
      split
      · exact w2
      · exact wf_insert_current _ w2
    refine ⟨?_, ?_, ?_⟩
    · rw [FieldPathExtractor.popPath, ih.1, hcur3]
      exact List.dropLast_concat ..
    · exact extendsTrans (extendsTrans hext3 ih.2.1) (popPath_extends _)
    · intro hw
      exact wf_popPath _ (ih.2.2 (hwf3 hw))
  · intro st
    exact StepOk.refl st
  · intro st f rest ih1 ih2
    rw [show visit_selection_set st (Selection.field f :: rest) =
      visit_selection_set (visit_field st f) rest from rfl]
    exact ih1.trans ih2
  · intro st head rest hne ih
    cases head with
    | field f => exact absurd rfl (hne f)
    | fragmentSpread => exact ih
    | inlineFragment => exact ih

theorem visit_selection_set_stepOk : ∀ (st : FieldPathExtractor) (sels : List Selection),
    StepOk st (visit_selection_set st sels) := by
  intro st sels
  induction sels generalizing st with
  | nil => exact StepOk.refl st
  | cons s rest ih =>
    cases s with
    | field f => exact (visit_field_stepOk st f).trans (ih _)
    | fragmentSpread => exact ih st
    | inlineFragment => exact ih st

/-! ### Filter traversal properties -/

/-- The push - work - pop pattern of one object member: if the work
between push and pop is a `StepOk` from the pushed state, the member as
a whole is a `StepOk` from the original state after the pop. -/
theorem stepOk_of_push {st : FieldPathExtractor} {nm : String} {stc : FieldPathExtractor}
    (h : StepOk ((st.internName nm).1.pushPath (st.internName nm).2) stc) :
    StepOk st stc.popPath := by
  refine ⟨?_, ?_, ?_⟩
  · show stc.current_path.dropLast = st.current_path
    rw [h.1]
    exact List.dropLast_concat ..
  · exact extendsTrans (extendsTrans (extendsTrans (internName_extends st nm)
      (pushPath_extends _ _)) h.2.1) (popPath_extends _)
  · intro hw
    refine wf_popPath _ (h.2.2 ?_)
    exact wf_pushPath _ _ (SymOk.internName st nm) (wf_internName st nm hw)

theorem filter_value_okStep : ∀ (st : FieldPathExtractor) (v : Value),
    OkStep st (extract_filter_paths_from_value st v) := by
  refine extract_filter_paths_from_value.induct
    (fun st v => OkStep st (extract_filter_paths_from_value st v))
    (fun st items => OkStep st (filterListItems st items))
    (fun st children => OkStep st (filterObjFields st children))
    ?_ ?_ ?_ ?_ ?_ ?_ ?_ ?_ ?_ ?_ ?_
  · intro st children ih
    rw [extract_filter_paths_from_value]
    exact ih
  · intro st items ih
    rw [extract_filter_paths_from_value]
    exact ih
  · intro t st hobj hlist
    cases t with
    | obj children => exact absurd rfl (hobj children)
    | listV items => exact absurd rfl (hlist items)
    | varV x =>
      rw [extract_filter_paths_from_value]
      exacts [⟨st, rfl, StepOk.refl st⟩, hobj, hlist]
    | scalar =>
      rw [extract_filter_paths_from_value]
      exacts [⟨st, rfl, StepOk.refl st⟩, hobj, hlist]
  · intro st
    rw [filterListItems]
    exact ⟨st, rfl, StepOk.refl st⟩
  · intro st v rest ih1 ih2
    rw [filterListItems]
    obtain ⟨r, hr, hs⟩ := ih1
    rw [hr]
    obtain ⟨r2, hr2, hs2⟩ := ih2 r
    exact ⟨r2, by simpa using hr2, hs.trans hs2⟩
  · intro st
    rw [filterObjFields]
    exact ⟨st, rfl, StepOk.refl st⟩
  · intro st name rest hus hao items ih1 ih2
    simp only [filterObjFields, hus, hao, if_true]
    obtain ⟨r, hr, hs⟩ := ih2
    rw [hr]
    obtain ⟨r2, hr2, hs2⟩ := ih1 r
    exact ⟨r2, hr2, hs.trans hs2⟩
  · intro st name v rest hus hao hnl ih
    obtain ⟨r2, hr2, hs2⟩ := ih st
    cases v with
    | listV items => exact absurd rfl (hnl items)
    | obj inner =>
      simp only [filterObjFields, hus, hao, if_true]
      exact ⟨r2, hr2, hs2⟩
    | varV x =>
      simp only [filterObjFields, hus, hao, if_true]
      exact ⟨r2, hr2, hs2⟩
    | scalar =>
      simp only [filterObjFields, hus, hao, if_true]
      exact ⟨r2, hr2, hs2⟩
  · intro st name v rest hus hnao ih
    obtain ⟨r2, hr2, hs2⟩ := ih st
    cases v <;> simp only [filterObjFields, hus, hnao, if_true, if_false] <;>
      exact ⟨r2, hr2, hs2⟩
  · intro st name rest hns s1x stbx inner d1x c1x st3x st4x ih1 ih2
    obtain ⟨r, hr, hs⟩ := ih2
    have heq : filterObjFields st (ObjField.mk name (Value.obj inner) :: rest) =
        (extract_filter_paths_from_value st4x (Value.obj inner)).bind
          (fun stc => filterObjFields stc.popPath rest) := by
      simp only [filterObjFields]
      rw [if_neg hns]
      rfl
    rw [heq, hr]
    obtain ⟨r2, hr2, hs2⟩ := ih1 r.popPath
    have hst3 : st3x = stbx.insertPath stbx.current_path := by
      unfold_let st3x d1x
      simp [hns]
    have h3 : StepOk stbx st3x := by
      rw [hst3]
      exact ⟨insertPath_current _ _, insertPath_extends _ _, wf_insert_current _⟩
    have hi3 : st3x.interner = stbx.interner := by
      rw [hst3, insertPath_interner]
    have h4 : StepOk st3x st4x := by
      unfold_let st4x
      split
      · refine ⟨rfl, addColumn_extends _ _ _, ?_⟩
        intro hw
        refine wf_addColumn _ _ _ ?_ ?_ hw
        · exact fun q hq => hw.2.1 q (List.dropLast_subset _ hq)
        · rw [hi3]
          exact SymOk.internName st name
      · exact StepOk.refl st3x
    have hmid : StepOk stbx r := (h3.trans h4).trans hs
    exact ⟨r2, hr2, (stepOk_of_push hmid).trans hs2⟩
  · intro st name v rest hns hnobj ih
    have hmid : StepOk ((st.internName name).1.pushPath (st.internName name).2)
        (if 1 < List.length ((st.internName name).1.pushPath
            (st.internName name).2).current_path then
          ((st.internName name).1.pushPath (st.internName name).2).addColumn
            (List.dropLast ((st.internName name).1.pushPath
              (st.internName name).2).current_path) (st.internName name).2
        else ((st.internName name).1.pushPath (st.internName name).2)) := by
      split
      · refine ⟨rfl, addColumn_extends _ _ _, ?_⟩
        intro hw
        refine wf_addColumn _ _ _ ?_ ?_ hw
        · exact fun q hq => hw.2.1 q (List.dropLast_subset _ hq)
        · exact SymOk.internName st name
      · exact StepOk.refl _
    cases v with
    | obj inner => exact absurd rfl (hnobj inner)
    | listV items =>
      simp only [filterObjFields]
      rw [if_neg hns]
      obtain ⟨r2, hr2, hs2⟩ := ih ((if 1 < List.length ((st.internName name).1.pushPath
            (st.internName name).2).current_path then
          ((st.internName name).1.pushPath (st.internName name).2).addColumn
            (List.dropLast ((st.internName name).1.pushPath
              (st.internName name).2).current_path) (st.internName name).2
        else ((st.internName name).1.pushPath (st.internName name).2)).popPath)
      exact ⟨r2, hr2, (stepOk_of_push hmid).trans hs2⟩
    | varV x =>
      simp only [filterObjFields]
      rw [if_neg hns]
      obtain ⟨r2, hr2, hs2⟩ := ih ((if 1 < List.length ((st.internName name).1.pushPath
            (st.internName name).2).current_path then
          ((st.internName name).1.pushPath (st.internName name).2).addColumn
            (List.dropLast ((st.internName name).1.pushPath
              (st.internName name).2).current_path) (st.internName name).2
        else ((st.internName name).1.pushPath (st.internName name).2)).popPath)
      exact ⟨r2, hr2, (stepOk_of_push hmid).trans hs2⟩
    | scalar =>
      simp only [filterObjFields]
      rw [if_neg hns]
      obtain ⟨r2, hr2, hs2⟩ := ih ((if 1 < List.length ((st.internName name).1.pushPath
            (st.internName name).2).current_path then
          ((st.internName name).1.pushPath (st.internName name).2).addColumn
            (List.dropLast ((st.internName name).1.pushPath
              (st.internName name).2).current_path) (st.internName name).2
        else ((st.internName name).1.pushPath (st.internName name).2)).popPath)
      exact ⟨r2, hr2, (stepOk_of_push hmid).trans hs2⟩

theorem filterObjFields_okStep (st : FieldPathExtractor) (children : List ObjField) :
    OkStep st (filterObjFields st children) := by
  have h := filter_value_okStep st (.obj children)
  rwa [extract_filter_paths_from_value] at h

/-! ### Mutation-argument extraction properties -/

theorem extract_object_columns_okStep : ∀ (obj : List ObjField) (st : FieldPathExtractor),
    OkStep st (extract_object_columns st obj) := by
  intro obj
  induction obj with
  | nil => exact fun st => ⟨st, rfl, StepOk.refl st⟩
  | cons fv rest ih =>
    intro st
    obtain ⟨name, v⟩ := fv
    rw [extract_object_columns]
    have hmid : StepOk st ((st.internName name).1.addColumn
        (st.internName name).1.current_path (st.internName name).2) := by
      refine ⟨rfl, extendsTrans (internName_extends st name) (addColumn_extends _ _ _), ?_⟩
      intro hw
      have hw1 := wf_internName st name hw
      exact wf_addColumn _ _ _ (fun q hq => hw1.2.1 q hq) (SymOk.internName st name) hw1
    obtain ⟨r, hr, hs⟩ := ih _
    exact ⟨r, hr, hmid.trans hs⟩

theorem insert_current_stepOk (st : FieldPathExtractor) :
    StepOk st (st.insertPath st.current_path) :=
  ⟨insertPath_current _ _, insertPath_extends _ _, wf_insert_current _⟩

theorem except_bind_ok {A B : Type} {X : Except String A} {Y : A → Except String B} {r : B}
    (h : X.bind Y = .ok r) : ∃ a, X = .ok a ∧ Y a = .ok r := by
  cases X with
  | error e => simp [Except.bind] at h
  | ok a => exact ⟨a, rfl, by simpa [Except.bind] using h⟩

theorem extract_mutation_objects_partOk :
    ∀ (st : FieldPathExtractor) (v : Value) (b : Bool),
      PartOk st (extract_mutation_objects st v b) := by
  refine extract_mutation_objects.induct
    (fun st v b => PartOk st (extract_mutation_objects st v b))
    (fun st items => PartOk st (mutationObjectsList st items)) ?_ ?_ ?_ ?_ ?_ ?_ ?_
  · intro st b o
    intro r hr
    rw [extract_mutation_objects] at hr
    obtain ⟨a, ha, hb2⟩ := except_bind_ok hr
    obtain ⟨r1, hr1, hs1⟩ := extract_object_columns_okStep o st
    rw [hr1] at ha
    cases ha
    cases hb2
    exact hs1.trans (insert_current_stepOk _)
  · intro st items
    intro r hr
    rw [extract_mutation_objects] at hr
    cases hr
  · intro st b items hb ih
    intro r hr
    rw [extract_mutation_objects] at hr
    rw [if_neg hb] at hr
    obtain ⟨a, ha, hb2⟩ := except_bind_ok hr
    cases hb2
    exact (ih a ha).trans (insert_current_stepOk a)
  · intro st b nm
    intro r hr
    rw [extract_mutation_objects] at hr
    cases hr
    exact insert_current_stepOk st
  · intro v st b hobj hlist hvar
    intro r hr
    cases v with
    | obj o => exact absurd rfl (hobj o)
    | listV items => exact absurd rfl (hlist items)
    | varV x => exact absurd rfl (hvar x)
    | scalar =>
      rw [extract_mutation_objects] at hr
      · cases hr
        exact StepOk.refl st
      · exact hobj
      · exact hlist
      · exact hvar
  · intro st
    intro r hr
    rw [mutationObjectsList] at hr
    cases hr
    exact StepOk.refl st
  · intro st v rest ih1 ih2
    intro r hr
    rw [mutationObjectsList] at hr
    obtain ⟨a, ha, hb2⟩ := except_bind_ok hr
    exact (ih1 a ha).trans (ih2 a r hb2)

theorem extract_update_set_partOk (st : FieldPathExtractor) (v : Value) :
    PartOk st (extract_update_set st v) := by
  intro r hr
  unfold extract_update_set at hr
  split at hr
  · obtain ⟨a, ha, hb2⟩ := except_bind_ok hr
    obtain ⟨r1, hr1, hs1⟩ := extract_object_columns_okStep _ st
    rw [hr1] at ha
    cases ha
    cases hb2
    exact hs1.trans (insert_current_stepOk _)
  · cases hr
    exact insert_current_stepOk st
  · cases hr

/-! ### Pass B properties -/

theorem processArgsList_partOk (cfg : Config) :
    ∀ (args : List Argument) (st : FieldPathExtractor) (fname : String),
      PartOk st (processArgsList cfg st fname args) := by
  intro args
  induction args with
  | nil =>
    intro st fname r hr
    rw [processArgsList] at hr
    cases hr
    exact StepOk.refl st
  | cons arg rest ih =>
    intro st fname r hr
    rw [processArgsList] at hr
    split at hr
    · obtain ⟨a, ha, hb2⟩ := except_bind_ok hr
      obtain ⟨rr, hrr, hss⟩ := filter_value_okStep st arg.value
      rw [hrr] at ha
      cases ha
      exact hss.trans (ih a fname r hb2)
    · split at hr
      · obtain ⟨a, ha, hb2⟩ := except_bind_ok hr
        exact (extract_mutation_objects_partOk st arg.value _ a ha).trans
          (ih a fname r hb2)
      · split at hr
        · obtain ⟨a, ha, hb2⟩ := except_bind_ok hr
          exact (extract_update_set_partOk st arg.value a ha).trans (ih a fname r hb2)
        · obtain ⟨a, ha, hb2⟩ := except_bind_ok hr
          cases ha
          exact ih st fname r hb2

theorem process_field_arguments_partOk (cfg : Config) :
    ∀ (st : FieldPathExtractor) (f : Field),
      PartOk st (process_field_arguments cfg st f) := by
  refine process_field_arguments.induct cfg
    (fun st f => PartOk st (process_field_arguments cfg st f))
    (fun st sels => PartOk st (processArgsSelections cfg st sels)) ?_ ?_ ?_ ?_
  · intro st nm args dirs sels ih2
    intro r hr
    rw [process_field_arguments] at hr
    obtain ⟨st4, ha, hb2⟩ := except_bind_ok hr
    obtain ⟨st5, hb3, hb4⟩ := except_bind_ok hb2
    cases hb4
    set s1 := st.internName nm with hs1
    set st2 := s1.1.pushPath s1.2 with hst2
    have hm3 : StepOk st2 (if sels.isEmpty = true then st2
        else st2.insertPath st2.current_path) := by
      split
      · exact StepOk.refl st2
      · exact insert_current_stepOk st2
    have hm4 : StepOk st2 st4 := hm3.trans (processArgsList_partOk cfg args _ nm st4 ha)
    have hm5 : StepOk st2 st5 := hm4.trans (ih2 st4 st5 hb3)
    exact stepOk_of_push hm5
  · intro st
    intro r hr
    rw [processArgsSelections] at hr
    cases hr
    exact StepOk.refl st
  · intro st f rest ih1 ih2
    intro r hr
    rw [processArgsSelections] at hr
    obtain ⟨a, ha, hb2⟩ := except_bind_ok hr
    exact (ih1 a ha).trans (ih2 a r hb2)
  · intro st head rest hne ih
    intro r hr
    cases head with
    | field f => exact absurd rfl (hne f)
    | fragmentSpread =>
      rw [processArgsSelections] at hr
      · exact ih r hr
      · exact hne
    | inlineFragment =>
      rw [processArgsSelections] at hr
      · exact ih r hr
      · exact hne

/-- Pass A interns the name of every root field: the name is resolvable
in the resulting interner. -/
theorem visit_field_name_mem (st : FieldPathExtractor) (f : Field) :
    f.name ∈ (visit_field st f).interner := by
  obtain ⟨nm, args, dirs, sels⟩ := f
  rw [visit_field]
  have h0 : nm ∈ (st.internName nm).1.interner := intern_str_mem st.interner nm
  set st2 := (st.internName nm).1.pushPath (st.internName nm).2 with hst2
  set st3 := (if sels.isEmpty = true then st2 else st2.insertPath st2.current_path) with hst3
  have h2 : nm ∈ st2.interner := h0
  have h3 : nm ∈ st3.interner := by
    rw [hst3]
    split
    · exact h2
    · rw [insertPath_interner]
      exact h2
  have h4 := (visit_selection_set_stepOk st3 sels).2.1.1
  exact List.IsPrefix.subset h4 h3


/-! ### Pass C properties -/

theorem intern_col_stepOk (st : FieldPathExtractor) (name : String) :
    StepOk st ((st.internName name).1.addColumn
      (st.internName name).1.current_path (st.internName name).2) := by
  refine ⟨rfl, extendsTrans (internName_extends st name) (addColumn_extends _ _ _), ?_⟩
  intro hw
  have hw1 := wf_internName st name hw
  exact wf_addColumn _ _ _ (fun q hq => hw1.2.1 q hq) (SymOk.internName st name) hw1

theorem containerGrandchildren_stepOk :
    ∀ (sels : List Selection) (st : FieldPathExtractor),
      StepOk st (containerGrandchildren st sels) := by
  intro sels
  induction sels with
  | nil =>
    intro st
    rw [containerGrandchildren]
    exact StepOk.refl st
  | cons s rest ih =>
    intro st
    rw [containerGrandchildren]
    refine StepOk.trans ?_ (ih _)
    cases hf : s.fieldOf with
    | none => simp only [hf]; exact StepOk.refl st
    | some g =>
      simp only [hf]
      split
      · exact intern_col_stepOk st g.name
      · exact StepOk.refl st

theorem process_field_and_columns_okStep :
    ∀ (st : FieldPathExtractor) (f : Field),
      OkStep st (process_field_and_columns st f) := by
  refine process_field_and_columns.induct
    (fun st f => OkStep st (process_field_and_columns st f))
    (fun st sels => OkStep st (processColumnsChildren st sels)) ?_ ?_ ?_ ?_ ?_ ?_ ?_
  · intro st n args dirs sels hemp
    refine ⟨((st.internName n).1.pushPath (st.internName n).2).popPath, ?_,
      stepOk_of_push (StepOk.refl _)⟩
    rw [process_field_and_columns]
    simp only [if_pos hemp]
    rfl
  · intro st n args dirs sels s1 st2 hemp st3 ih
    obtain ⟨r4, hr4, hs4⟩ := ih
    refine ⟨r4.popPath, ?_, ?_⟩
    · have heq : process_field_and_columns st (.mk n args dirs sels) =
          Except.bind (processColumnsChildren st3 sels) (fun st4 => pure st4.popPath) := by
        rw [process_field_and_columns]
        simp only [if_neg hemp]
        rfl
      rw [heq, hr4]
      rfl
    · exact stepOk_of_push ((insert_current_stepOk st2).trans hs4)
  · intro st
    exact ⟨st, by rw [processColumnsChildren], StepOk.refl st⟩
  · intro st f rest hemp ih
    obtain ⟨r2, hr2, hs2⟩ := ih ((st.internName f.name).1.addColumn
        (st.internName f.name).1.current_path (st.internName f.name).2)
    refine ⟨r2, ?_, (intern_col_stepOk st f.name).trans hs2⟩
    have heq : processColumnsChildren st (.field f :: rest) =
        processColumnsChildren ((st.internName f.name).1.addColumn
          (st.internName f.name).1.current_path (st.internName f.name).2) rest := by
      rw [processColumnsChildren]
      simp only [if_pos hemp]
      rfl
    rw [heq]
    exact hr2
  · intro st f rest hemp hcap ih ihf
    obtain ⟨r1, hr1, hs1⟩ := ihf
    obtain ⟨r2, hr2, hs2⟩ := ih r1
    refine ⟨r2, ?_,
      ((containerGrandchildren_stepOk f.selection_set st).trans hs1).trans hs2⟩
    have heq : processColumnsChildren st (.field f :: rest) =
        Except.bind (process_field_and_columns (containerGrandchildren st f.selection_set) f)
          (fun st1 => processColumnsChildren st1 rest) := by
      rw [processColumnsChildren]
      simp only [if_neg hemp, if_pos hcap]
      rfl
    rw [heq, hr1]
    exact hr2
  · intro st f rest hemp hcap ih ihf
    obtain ⟨r1, hr1, hs1⟩ := ihf
    obtain ⟨r2, hr2, hs2⟩ := ih r1
    refine ⟨r2, ?_, hs1.trans hs2⟩
    have heq : processColumnsChildren st (.field f :: rest) =
        Except.bind (process_field_and_columns st f)
          (fun st1 => processColumnsChildren st1 rest) := by
      rw [processColumnsChildren]
      simp only [if_neg hemp, if_neg hcap]
      rfl
    rw [heq, hr1]
    exact hr2
  · intro st head rest hne ih
    obtain ⟨r2, hr2, hs2⟩ := ih
    cases head with
    | field f => exact absurd rfl (hne f)
    | fragmentSpread =>
      refine ⟨r2, ?_, hs2⟩
      rw [processColumnsChildren]
      · exact hr2
      · exact hne
    | inlineFragment =>
      refine ⟨r2, ?_, hs2⟩
      rw [processColumnsChildren]
      · exact hr2
      · exact hne

/-! ### Driver properties -/

theorem growOkRefl (st : FieldPathExtractor) : GrowOk st st :=
  ⟨extendsRefl st, id⟩

theorem growOkTrans {a b c : FieldPathExtractor} (h1 : GrowOk a b) (h2 : GrowOk b c) :
    GrowOk a c :=
  ⟨extendsTrans h1.1 h2.1, fun hw => h2.2 (h1.2 hw)⟩

theorem StepOk.grow {a b : FieldPathExtractor} (h : StepOk a b) : GrowOk a b :=
  ⟨h.2.1, h.2.2⟩

theorem growOk_clear (st : FieldPathExtractor) :
    GrowOk st { st with current_path := [] } := by
  refine ⟨⟨List.prefix_refl _, fun p hp => hp, fun t c hc => hc⟩, ?_⟩
  intro hw
  obtain ⟨h1, h2, h3⟩ := hw
  exact ⟨h1, fun s hs => absurd hs (List.not_mem_nil s), h3⟩

theorem extract_filter_paths_partGrow (cfg : Config) :
    ∀ (sels : List Selection) (st : FieldPathExtractor),
      PartGrow st (extract_filter_paths cfg st sels) := by
  intro sels
  induction sels with
  | nil =>
    intro st r hr
    rw [extract_filter_paths] at hr
    cases hr
    exact growOkRefl st
  | cons s rest ih =>
    intro st r hr
    rw [extract_filter_paths] at hr
    cases hf : s.fieldOf with
    | none =>
      rw [hf] at hr
      obtain ⟨a, ha, hb⟩ := except_bind_ok hr
      cases ha
      exact ih st r hb
    | some f =>
      rw [hf] at hr
      obtain ⟨a, ha, hb⟩ := except_bind_ok hr
      exact growOkTrans (growOkTrans (growOk_clear st)
        (StepOk.grow (process_field_arguments_partOk cfg _ f a ha))) (ih a r hb)

theorem extract_columns_partGrow :
    ∀ (sels : List Selection) (st : FieldPathExtractor),
      PartGrow st (extract_columns_from_selection_sets st sels) := by
  intro sels
  induction sels with
  | nil =>
    intro st r hr
    rw [extract_columns_from_selection_sets] at hr
    cases hr
    exact growOkRefl st
  | cons s rest ih =>
    intro st r hr
    rw [extract_columns_from_selection_sets] at hr
    cases hf : s.fieldOf with
    | none =>
      rw [hf] at hr
      obtain ⟨a, ha, hb⟩ := except_bind_ok hr
      cases ha
      exact ih st r hb
    | some f =>
      rw [hf] at hr
      obtain ⟨a, ha, hb⟩ := except_bind_ok hr
      obtain ⟨r1, hr1, hs1⟩ :=
        process_field_and_columns_okStep { st with current_path := [] } f
      cases ha.symm.trans hr1
      exact growOkTrans (growOkTrans (growOk_clear st) (StepOk.grow hs1)) (ih _ r hb)

theorem extractDefs_partGrow (cfg : Config) :
    ∀ (defs : List Definition) (st : FieldPathExtractor) (hasOp : Bool)
      (p : FieldPathExtractor × Bool),
      extractDefs cfg st defs hasOp = .ok p → GrowOk st p.1 := by
  intro defs
  induction defs with
  | nil =>
    intro st hasOp p hp
    rw [extractDefs] at hp
    cases hp
    exact growOkRefl st
  | cons d rest ih =>
    intro st hasOp p hp
    cases d with
    | fragmentDef =>
      rw [extractDefs] at hp
      exact ih st hasOp p hp
    | operation op =>
      rw [extractDefs] at hp
      obtain ⟨st2x, h2, hp2⟩ := except_bind_ok hp
      obtain ⟨st3x, h3, hp3⟩ := except_bind_ok hp2
      have g1 : GrowOk st (visit_selection_set st op.selection_set) :=
        StepOk.grow (visit_selection_set_stepOk st op.selection_set)
      have g2 := extract_filter_paths_partGrow cfg op.selection_set _ st2x h2
      have g3 := extract_columns_partGrow op.selection_set st2x st3x h3
      exact growOkTrans (growOkTrans (growOkTrans g1 g2) g3) (ih st3x true p hp3)

theorem wf_init (I : List String) :
    WfState { field_paths := [], current_path := [], column_usage := [], interner := I } := by
  refine ⟨?_, ?_, ?_⟩ <;> intro x hx <;> cases hx

theorem extract_ok_grow (cfg : Config) (I : List String) (doc : Document)
    (r : FieldPathExtractor) (h : extract cfg I doc = .ok r) :
    I <+: r.interner ∧ WfState r := by
  unfold extract at h
  obtain ⟨p, hp, hif⟩ := except_bind_ok h
  have hg := extractDefs_partGrow cfg doc.definitions _ false p hp
  have hr : r = p.1 := by
    split at hif
    · cases hif
      rfl
    · cases hif
  subst hr
  exact ⟨hg.1.1, hg.2 (wf_init I)⟩


/-! ### The symbol-to-index map (parser.rs:171-176, nif.rs:169-174) -/

theorem intern_str_snd_of_mem {tbl : List String} {n : String} (h : n ∈ tbl) :
    (intern_str tbl n).2 = (idxOfStr tbl n).getD 0 := by
  unfold intern_str
  cases hh : idxOfStr tbl n with
  | some i => rfl
  | none => exact absurd h (idxOfStr_none hh)

theorem idxOfStr_getD_le {tbl : List String} :
    ∀ j, j < tbl.length → ∃ i, idxOfStr tbl (tbl.getD j "") = some i ∧ i ≤ j := by
  induction tbl with
  | nil => intro j hj; exact absurd hj (Nat.not_lt_zero j)
  | cons x xs ih =>
    intro j hj
    cases j with
    | zero =>
      refine ⟨0, ?_, Nat.le_refl 0⟩
      simp [idxOfStr, List.getD]
    | succ k =>
      have hk : k < xs.length := Nat.lt_of_succ_lt_succ hj
      have hgd : (x :: xs).getD (k + 1) "" = xs.getD k "" := by simp [List.getD]
      rw [hgd]
      by_cases hx : x = xs.getD k ""
      · exact ⟨0, by simp [idxOfStr, hx], Nat.zero_le _⟩
      · obtain ⟨i, hi, hle⟩ := ih k hk
        refine ⟨i + 1, ?_, Nat.succ_le_succ hle⟩
        rw [idxOfStr, if_neg hx, hi]
        rfl

theorem build_fold_spec :
    ∀ (names tbl : List String) (m0 : List (Nat × Nat)) (k0 : Nat),
      (∀ n ∈ names, n ∈ tbl) →
      names.foldl (fun acc name =>
        let s1 := intern_str acc.1 name
        (s1.1, acc.2.1 ++ [(s1.2, acc.2.2)], acc.2.2 + 1)) (tbl, m0, k0) =
      (tbl, m0 ++ buildEntries tbl names k0, k0 + names.length) := by
  intro names
  induction names with
  | nil =>
    intro tbl m0 k0 hmem
    simp [buildEntries]
  | cons n rest ih =>
    intro tbl m0 k0 hmem
    have hn : n ∈ tbl := hmem n (List.mem_cons_self n rest)
    rw [List.foldl_cons]
    show List.foldl _
      ((intern_str tbl n).1, m0 ++ [((intern_str tbl n).2, k0)], k0 + 1) rest = _
    rw [intern_str_of_mem hn, intern_str_snd_of_mem hn]
    rw [ih tbl _ (k0 + 1) (fun q hq => hmem q (List.mem_cons_of_mem n hq))]
    rw [buildEntries]
    rw [List.append_assoc]
    simp [Nat.add_comm, Nat.add_assoc, Nat.add_left_comm]

theorem bm_eq (tbl : List String) :
    build_symbol_to_index (get_all_strings tbl) tbl = (tbl, buildEntries tbl tbl 0) := by
  unfold build_symbol_to_index get_all_strings
  rw [build_fold_spec tbl tbl [] 0 (fun n hn => hn)]
  simp

theorem lookup_buildEntries_sound {tbl : List String} {s i : Nat} :
    ∀ (names : List String) (k0 : Nat), names = tbl.drop k0 →
      (∀ j, j < k0 → idxOfStr tbl (tbl.getD j "") ≠ some s) →
      lookupSym (buildEntries tbl names k0) s = some i → i = s ∧ SymOk tbl s := by
  intro names
  induction names with
  | nil =>
    intro k0 hdrop hinv hl
    rw [buildEntries, lookupSym] at hl
    cases hl
  | cons n rest ih =>
    intro k0 hdrop hinv hl
    have hk0 : k0 < tbl.length := by
      by_contra hge
      rw [(List.drop_eq_nil_iff).2 (Nat.le_of_not_lt hge)] at hdrop
      cases hdrop
    rw [List.drop_eq_getElem_cons hk0] at hdrop
    injection hdrop with hng hrest
    have hn : n = tbl.getD k0 "" := by
      rw [List.getD_eq_getElem tbl "" hk0]
      exact hng
    obtain ⟨i0, hi0, hle⟩ := idxOfStr_getD_le k0 hk0
    rw [buildEntries, lookupSym] at hl
    rw [hn, hi0] at hl
    simp only [Option.getD_some] at hl
    by_cases hksy : i0 = s
    · rw [if_pos hksy] at hl
      injection hl with hky
      have hsym : SymOk tbl s := ⟨tbl.getD k0 "", by rw [hi0, hksy]⟩
      refine ⟨?_, hsym⟩
      by_cases hlt : s < k0
      · exfalso
        obtain ⟨str, hstr⟩ := hsym
        have hget := idxOfStr_get hstr
        exact hinv s hlt (by rw [hget]; exact hstr)
      · have h1 : s ≤ k0 := by rw [← hksy]; exact hle
        rw [← hky]
        exact Nat.le_antisymm (Nat.le_of_not_lt hlt) h1
    · rw [if_neg hksy] at hl
      refine ih (k0 + 1) hrest ?_ hl
      intro j hj
      cases Nat.lt_or_ge j k0 with
      | inl hlt => exact hinv j hlt
      | inr hge =>
        have hjk : j = k0 := Nat.le_antisymm (Nat.lt_succ_iff.1 hj) hge
        subst hjk
        rw [hi0]
        intro hc
        injection hc with hc2
        exact hksy hc2
  
theorem lookup_buildEntries_complete {tbl : List String} {s : Nat} (hs : SymOk tbl s) :
    ∀ (names : List String) (k0 : Nat), names = tbl.drop k0 → k0 ≤ s →
      lookupSym (buildEntries tbl names k0) s = some s := by
  intro names
  induction names with
  | nil =>
    intro k0 hdrop hk0s
    exfalso
    have hlen : tbl.length ≤ k0 := by
      by_contra hlt
      rw [List.drop_eq_getElem_cons (Nat.lt_of_not_le hlt)] at hdrop
      cases hdrop
    exact Nat.not_lt.2 (Nat.le_trans hlen hk0s) hs.lt
  | cons n rest ih =>
    intro k0 hdrop hk0s
    have hk0 : k0 < tbl.length := by
      by_contra hge
      rw [(List.drop_eq_nil_iff).2 (Nat.le_of_not_lt hge)] at hdrop
      cases hdrop
    rw [List.drop_eq_getElem_cons hk0] at hdrop
    injection hdrop with hng hrest
    have hn : n = tbl.getD k0 "" := by
      rw [List.getD_eq_getElem tbl "" hk0]
      exact hng
    obtain ⟨i0, hi0, hle⟩ := idxOfStr_getD_le k0 hk0
    rw [buildEntries, lookupSym]
    rw [hn, hi0]
    simp only [Option.getD_some]
    cases Nat.lt_or_ge k0 s with
    | inl hlt =>
      have hne : i0 ≠ s := Nat.ne_of_lt (Nat.lt_of_le_of_lt hle hlt)
      rw [if_neg hne]
      exact ih (k0 + 1) hrest hlt
    | inr hge =>
      have heq : k0 = s := Nat.le_antisymm hk0s hge
      subst heq
      obtain ⟨str, hstr⟩ := hs
      have hget := idxOfStr_get hstr
      rw [hget] at hi0
      rw [hstr] at hi0
      injection hi0 with hi0e
      rw [if_pos hi0e.symm]

theorem lookup_bm_some {tbl : List String} {s : Nat} (hs : SymOk tbl s) :
    lookupSym (build_symbol_to_index (get_all_strings tbl) tbl).2 s = some s := by
  rw [bm_eq]
  exact lookup_buildEntries_complete hs tbl 0 rfl (Nat.zero_le s)

theorem lookup_bm_sound {tbl : List String} {s i : Nat}
    (h : lookupSym (build_symbol_to_index (get_all_strings tbl) tbl).2 s = some i) :
    i = s ∧ SymOk tbl s := by
  rw [bm_eq] at h
  exact lookup_buildEntries_sound tbl 0 rfl
    (fun j hj => absurd hj (Nat.not_lt_zero j)) h

theorem bm_fst (tbl : List String) :
    (build_symbol_to_index (get_all_strings tbl) tbl).1 = tbl := by
  rw [bm_eq]


/-! ### The paths encoding -/

theorem mapPathSyms_id {tbl : List String} :
    ∀ (p : List Nat), (∀ s ∈ p, SymOk tbl s) →
      mapPathSyms (build_symbol_to_index (get_all_strings tbl) tbl).2 p = .ok p := by
  intro p
  induction p with
  | nil => intro h; rw [mapPathSyms]
  | cons a as ih =>
    intro h
    rw [mapPathSyms]
    rw [lookup_bm_some (h a (List.mem_cons_self a as))]
    rw [ih (fun q hq => h q (List.mem_cons_of_mem a hq))]
    rfl

theorem mapPathSyms_sound {tbl : List String} :
    ∀ (p q : List Nat),
      mapPathSyms (build_symbol_to_index (get_all_strings tbl) tbl).2 p = .ok q →
      q = p ∧ ∀ s ∈ p, SymOk tbl s := by
  intro p
  induction p with
  | nil =>
    intro q h
    rw [mapPathSyms] at h
    cases h
    exact ⟨rfl, fun s hs => absurd hs (List.not_mem_nil s)⟩
  | cons a as ih =>
    intro q h
    rw [mapPathSyms] at h
    cases hl : lookupSym (build_symbol_to_index (get_all_strings tbl) tbl).2 a with
    | none =>
      rw [hl] at h
      cases h
    | some i =>
      rw [hl] at h
      obtain ⟨is, his, hpure⟩ := except_bind_ok h
      cases hpure
      obtain ⟨hi, hsym⟩ := lookup_bm_sound hl
      obtain ⟨hq, hall⟩ := ih is his
      refine ⟨by rw [hi, hq], ?_⟩
      intro u hu
      cases List.mem_cons.1 hu with
      | inl he => exact he ▸ hsym
      | inr ht => exact hall u ht

theorem encodePathsLoop_eq {tbl : List String} :
    ∀ (en : List FieldPath) (ps dirs tys : List Nat),
      (∀ p ∈ en, ∀ s ∈ p, SymOk tbl s) →
      encodePathsLoop (build_symbol_to_index (get_all_strings tbl) tbl).2 en ps dirs tys =
        .ok (ps ++ pathBlocksFlat en, dirs ++ pathDirsFrom ps.length en,
          tys ++ en.map (fun p => if p.length = 1 then 0 else 1)) := by
  intro en
  induction en with
  | nil =>
    intro ps dirs tys h
    rw [encodePathsLoop]
    simp [pathBlocksFlat, pathDirsFrom]
  | cons p rest ih =>
    intro ps dirs tys h
    rw [encodePathsLoop]
    rw [mapPathSyms_id p (h p (List.mem_cons_self p rest))]
    show encodePathsLoop _ rest (ps ++ [p.length] ++ p) (dirs ++ [ps.length])
      (tys ++ [if p.length = 1 then 0 else 1]) = _
    rw [ih _ _ _ (fun q hq => h q (List.mem_cons_of_mem p hq))]
    simp only [pathBlocksFlat, pathDirsFrom, List.map_cons, List.flatten_cons]
    rw [List.append_assoc, List.append_assoc, List.append_assoc]
    simp [List.length_append, Nat.add_comm]

theorem encodePathsLoop_sound {tbl : List String} :
    ∀ (en : List FieldPath) (ps dirs tys : List Nat) (out : List Nat × List Nat × List Nat),
      encodePathsLoop (build_symbol_to_index (get_all_strings tbl) tbl).2 en ps dirs tys =
        .ok out →
      ∀ p ∈ en, ∀ s ∈ p, SymOk tbl s := by
  intro en
  induction en with
  | nil =>
    intro ps dirs tys out hok p hp
    exact absurd hp (List.not_mem_nil p)
  | cons p rest ih =>
    intro ps dirs tys out hok q hq
    rw [encodePathsLoop] at hok
    obtain ⟨idxs, hm, hrest⟩ := except_bind_ok hok
    cases List.mem_cons.1 hq with
    | inl he => exact he ▸ (mapPathSyms_sound p idxs hm).2
    | inr ht => exact ih _ _ _ out hrest q ht

theorem decode_pathBlocksFlat : ∀ (en : List (List Nat)),
    decode_paths (pathBlocksFlat en) = en := by
  intro en
  induction en with
  | nil => rw [pathBlocksFlat]; simp [decode_paths]
  | cons p rest ih =>
    show decode_paths ((p.length :: p) ++ pathBlocksFlat rest) = p :: rest
    rw [List.cons_append, decode_paths]
    rw [List.take_left p (pathBlocksFlat rest), List.drop_left p (pathBlocksFlat rest)]
    rw [ih]


/-! ### The cols encoding -/

theorem mapColSyms_id {tbl : List String} :
    ∀ (p : List Nat), (∀ s ∈ p, SymOk tbl s) →
      mapColSyms (build_symbol_to_index (get_all_strings tbl) tbl).2 p = .ok p := by
  intro p
  induction p with
  | nil => intro h; rw [mapColSyms]
  | cons a as ih =>
    intro h
    rw [mapColSyms]
    rw [lookup_bm_some (h a (List.mem_cons_self a as))]
    rw [ih (fun q hq => h q (List.mem_cons_of_mem a hq))]
    rfl

theorem filterMap_lookup_id {tbl : List String} :
    ∀ (p : List Nat), (∀ s ∈ p, SymOk tbl s) →
      p.filterMap (lookupSym (build_symbol_to_index (get_all_strings tbl) tbl).2) = p := by
  intro p
  induction p with
  | nil => intro h; rfl
  | cons a as ih =>
    intro h
    rw [List.filterMap_cons]
    rw [lookup_bm_some (h a (List.mem_cons_self a as))]
    rw [ih (fun q hq => h q (List.mem_cons_of_mem a hq))]

theorem getColUsage_mem {cu : List (FieldPath × List Nat)} :
    ∀ {p : FieldPath} {cs : List Nat}, getColUsage cu p = some cs → (p, cs) ∈ cu := by
  induction cu with
  | nil => intro p cs h; cases h
  | cons tc rest ih =>
    intro p cs h
    obtain ⟨t, c⟩ := tc
    rw [getColUsage] at h
    by_cases ht : t = p
    · rw [if_pos ht] at h
      injection h with h2
      subst ht
      subst h2
      exact List.mem_cons_self _ _
    · rw [if_neg ht] at h
      exact List.mem_cons_of_mem _ (ih h)

theorem length_one_eq_getD {p : List Nat} (h : p.length = 1) : p = [p.getD 0 0] := by
  cases p with
  | nil => cases h
  | cons a as =>
    cases as with
    | nil => rfl
    | cons b bs => simp at h

theorem except_ok_bind {A B : Type} (a : A) (f : A → Except String B) :
    (Except.ok a >>= f) = f a := rfl

theorem encodeColsLoop_eq {tbl : List String} {cu : List (FieldPath × List Nat)}
    (hcu : ∀ tc ∈ cu, ∀ s ∈ tc.2, SymOk tbl s) :
    ∀ (en : List FieldPath) (acc : List (Nat × List Nat)),
      (∀ p ∈ en, ∀ s ∈ p, SymOk tbl s) →
      encodeColsLoop (build_symbol_to_index (get_all_strings tbl) tbl).2 cu en acc =
        .ok (acc ++ en.filterMap
          (colsEntryFor (build_symbol_to_index (get_all_strings tbl) tbl).2 cu)) := by
  intro en
  induction en with
  | nil =>
    intro acc h
    rw [encodeColsLoop]
    simp
  | cons p rest ih =>
    intro acc h
    have hrest : ∀ q ∈ rest, ∀ s ∈ q, SymOk tbl s :=
      fun q hq => h q (List.mem_cons_of_mem p hq)
    rw [encodeColsLoop, List.filterMap_cons]
    by_cases hlen : p.length ≠ 1
    · rw [if_pos hlen, colsEntryFor, if_pos hlen]
      exact ih acc hrest
    · have hlen1 : p.length = 1 := not_not.1 hlen
      obtain ⟨a, rfl⟩ : ∃ a, p = [a] := by
        cases p with
        | nil => cases hlen1
        | cons x xs =>
          cases xs with
          | nil => exact ⟨x, rfl⟩
          | cons y ys => simp at hlen1
      have ha : SymOk tbl a := h [a] (List.mem_cons_self _ _) a (List.mem_cons_self a [])
      have hlookup := lookup_bm_some ha
      rw [if_neg hlen, colsEntryFor, if_neg hlen]
      simp only [List.getD_cons_zero, hlookup]
      cases hg : getColUsage cu [a] with
      | none =>
        simp only [hg]
        exact ih acc hrest
      | some columns =>
        have hcols : ∀ s ∈ columns, SymOk tbl s :=
          fun s hs => hcu ([a], columns) (getColUsage_mem hg) s hs
        simp only [hg, mapColSyms_id columns hcols, filterMap_lookup_id columns hcols,
          except_ok_bind]
        by_cases hemp : columns.isEmpty
        · simp only [hemp, eq_self_iff_true, if_true]
          exact ih acc hrest
        · simp only [if_neg hemp]
          rw [ih (acc ++ [(a, columns)]) hrest]
          simp

theorem encodeColsCachedLoop_eq {tbl : List String} {cu : List (FieldPath × List Nat)}
    (hcu : ∀ tc ∈ cu, ∀ s ∈ tc.2, SymOk tbl s) :
    ∀ (en : List FieldPath) (acc : List (Nat × List Nat)),
      (∀ p ∈ en, ∀ s ∈ p, SymOk tbl s) →
      encodeColsCachedLoop (build_symbol_to_index (get_all_strings tbl) tbl).2 cu en acc =
        .ok (acc ++ en.filterMap
          (colsEntryFor (build_symbol_to_index (get_all_strings tbl) tbl).2 cu)) := by
  intro en
  induction en with
  | nil =>
    intro acc h
    rw [encodeColsCachedLoop]
    simp
  | cons p rest ih =>
    intro acc h
    have hrest : ∀ q ∈ rest, ∀ s ∈ q, SymOk tbl s :=
      fun q hq => h q (List.mem_cons_of_mem p hq)
    rw [encodeColsCachedLoop, List.filterMap_cons]
    by_cases hlen : p.length ≠ 1
    · rw [if_pos hlen, colsEntryFor, if_pos hlen]
      exact ih acc hrest
    · have hlen1 : p.length = 1 := not_not.1 hlen
      obtain ⟨a, rfl⟩ : ∃ a, p = [a] := by
        cases p with
        | nil => cases hlen1
        | cons x xs =>
          cases xs with
          | nil => exact ⟨x, rfl⟩
          | cons y ys => simp at hlen1
      have ha : SymOk tbl a := h [a] (List.mem_cons_self _ _) a (List.mem_cons_self a [])
      have hlookup := lookup_bm_some ha
      rw [if_neg hlen, colsEntryFor, if_neg hlen]
      simp only [List.getD_cons_zero, hlookup]
      cases hg : getColUsage cu [a] with
      | none =>
        simp only [hg]
        exact ih acc hrest
      | some columns =>
        have hcols : ∀ s ∈ columns, SymOk tbl s :=
          fun s hs => hcu ([a], columns) (getColUsage_mem hg) s hs
        simp only [hg, filterMap_lookup_id columns hcols]
        by_cases hemp : columns.isEmpty
        · simp only [hemp, eq_self_iff_true, if_true]
          exact ih acc hrest
        · simp only [if_neg hemp]
          rw [ih (acc ++ [(a, columns)]) hrest]
          simp

theorem encodeColsLoop_sound {m : List (Nat × Nat)} {cu : List (FieldPath × List Nat)} :
    ∀ (en : List FieldPath) (acc out : List (Nat × List Nat)),
      encodeColsLoop m cu en acc = .ok out →
      ∀ tc ∈ out, tc ∈ acc ∨ ∃ p ∈ en, p.length = 1 ∧
        lookupSym m (p.getD 0 0) = some tc.1 ∧ tc.2 ≠ [] := by
  intro en
  induction en with
  | nil =>
    intro acc out hok tc htc
    rw [encodeColsLoop] at hok
    cases hok
    exact Or.inl htc
  | cons p rest ih =>
    intro acc out hok tc htc
    rw [encodeColsLoop] at hok
    by_cases hlen : p.length ≠ 1
    · rw [if_pos hlen] at hok
      cases ih acc out hok tc htc with
      | inl h => exact Or.inl h
      | inr h =>
        obtain ⟨q, hq, hrest2⟩ := h
        exact Or.inr ⟨q, List.mem_cons_of_mem p hq, hrest2⟩
    · rw [if_neg hlen] at hok
      cases hlk : lookupSym m (p.getD 0 0) with
      | none =>
        simp only [hlk] at hok
        cases hok
      | some tidx =>
        simp only [hlk] at hok
        cases hg : getColUsage cu p with
        | none =>
          simp only [hg] at hok
          cases ih acc out hok tc htc with
          | inl h => exact Or.inl h
          | inr h =>
            obtain ⟨q, hq, hrest2⟩ := h
            exact Or.inr ⟨q, List.mem_cons_of_mem p hq, hrest2⟩
        | some columns =>
          simp only [hg] at hok
          obtain ⟨cidx, hmap, hok2⟩ := except_bind_ok hok
          by_cases hemp : cidx.isEmpty
          · rw [if_pos hemp] at hok2
            cases ih acc out hok2 tc htc with
            | inl h => exact Or.inl h
            | inr h =>
              obtain ⟨q, hq, hrest2⟩ := h
              exact Or.inr ⟨q, List.mem_cons_of_mem p hq, hrest2⟩
          · rw [if_neg hemp] at hok2
            cases ih (acc ++ [(tidx, cidx)]) out hok2 tc htc with
            | inl h =>
              cases List.mem_append.1 h with
              | inl h2 => exact Or.inl h2
              | inr h2 =>
                have htce : tc = (tidx, cidx) := List.mem_singleton.1 h2
                subst htce
                refine Or.inr ⟨p, List.mem_cons_self p rest, not_not.1 hlen, hlk, ?_⟩
                intro hnil
                apply hemp
                rw [show cidx = [] from hnil]
                rfl
            | inr h =>
              obtain ⟨q, hq, hrest2⟩ := h
              exact Or.inr ⟨q, List.mem_cons_of_mem p hq, hrest2⟩


/-! ### The ops encoding -/

theorem ops_sels_err_irrel (cfg : Config) (m : List (Nat × Nat)) (e1 e2 : String)
    (k : OperationKind) :
    ∀ (sels : List Selection) (tbl : List String) (acc : List (Nat × Nat))
      (o : List String × List (Nat × Nat)),
      encodeOpsSelections cfg m e1 k tbl acc sels = .ok o →
      encodeOpsSelections cfg m e2 k tbl acc sels = .ok o := by
  intro sels
  induction sels with
  | nil =>
    intro tbl acc o h
    rw [encodeOpsSelections] at h ⊢
    exact h
  | cons s rest ih =>
    intro tbl acc o h
    cases s with
    | field f =>
      rw [encodeOpsSelections] at h ⊢
      cases hlk : lookupSym m (intern_str tbl f.name).2 with
      | none =>
        simp only [hlk] at h
        cases h
      | some fidx =>
        simp only [hlk] at h ⊢
        exact ih _ _ o h
    | fragmentSpread => exact ih _ _ o h
    | inlineFragment => exact ih _ _ o h

theorem ops_defs_err_irrel (cfg : Config) (m : List (Nat × Nat)) (e1 e2 : String) :
    ∀ (defs : List Definition) (tbl : List String) (acc : List (Nat × Nat))
      (o : List String × List (Nat × Nat)),
      encodeOpsDefs cfg m e1 tbl acc defs = .ok o →
      encodeOpsDefs cfg m e2 tbl acc defs = .ok o := by
  intro defs
  induction defs with
  | nil =>
    intro tbl acc o h
    rw [encodeOpsDefs] at h ⊢
    exact h
  | cons d rest ih =>
    intro tbl acc o h
    cases d with
    | fragmentDef =>
      rw [encodeOpsDefs] at h ⊢
      exact ih _ _ o h
    | operation op =>
      rw [encodeOpsDefs] at h ⊢
      obtain ⟨r1, hr1, hrest⟩ := except_bind_ok h
      rw [ops_sels_err_irrel cfg m e1 e2 op.operation op.selection_set tbl acc r1 hr1]
      show encodeOpsDefs cfg m e2 r1.1 r1.2 rest = .ok o
      exact ih _ _ o hrest

theorem idxOfStr_some_getD {tbl : List String} {n : String} (h : n ∈ tbl) :
    idxOfStr tbl n = some ((idxOfStr tbl n).getD 0) := by
  cases hh : idxOfStr tbl n with
  | some i => rfl
  | none => exact absurd h (idxOfStr_none hh)

theorem ops_sels_ok {tbl : List String} (cfg : Config) (err : String) (k : OperationKind) :
    ∀ (sels : List Selection) (acc : List (Nat × Nat)),
      (∀ n ∈ rootNamesSels sels, n ∈ tbl) →
      ∃ o, encodeOpsSelections cfg (build_symbol_to_index (get_all_strings tbl) tbl).2
          err k tbl acc sels = .ok o ∧ o.1 = tbl := by
  intro sels
  induction sels with
  | nil =>
    intro acc hnames
    exact ⟨(tbl, acc), by rw [encodeOpsSelections], rfl⟩
  | cons s rest ih =>
    intro acc hnames
    cases s with
    | field f =>
      have hf : f.name ∈ tbl := hnames f.name (by rw [rootNamesSels]; exact List.mem_cons_self _ _)
      have hrest : ∀ n ∈ rootNamesSels rest, n ∈ tbl := by
        intro n hn
        exact hnames n (by rw [rootNamesSels]; exact List.mem_cons_of_mem _ hn)
      have hsym : SymOk tbl (intern_str tbl f.name).2 := by
        rw [intern_str_snd_of_mem hf]
        exact ⟨f.name, idxOfStr_some_getD hf⟩
      obtain ⟨o, ho, ho1⟩ := ih (acc ++ [((intern_str tbl f.name).2,
        opTypeFor cfg k f.name)]) hrest
      refine ⟨o, ?_, ho1⟩
      rw [encodeOpsSelections]
      simp only [lookup_bm_some hsym]
      rw [intern_str_of_mem hf]
      exact ho
    | fragmentSpread =>
      obtain ⟨o, ho, ho1⟩ := ih acc hnames
      exact ⟨o, ho, ho1⟩
    | inlineFragment =>
      obtain ⟨o, ho, ho1⟩ := ih acc hnames
      exact ⟨o, ho, ho1⟩

theorem ops_defs_ok {tbl : List String} (cfg : Config) (err : String) :
    ∀ (defs : List Definition) (acc : List (Nat × Nat)),
      (∀ n ∈ rootNamesDefs defs, n ∈ tbl) →
      ∃ o, encodeOpsDefs cfg (build_symbol_to_index (get_all_strings tbl) tbl).2
          err tbl acc defs = .ok o ∧ o.1 = tbl := by
  intro defs
  induction defs with
  | nil =>
    intro acc hnames
    exact ⟨(tbl, acc), by rw [encodeOpsDefs], rfl⟩
  | cons d rest ih =>
    intro acc hnames
    cases d with
    | fragmentDef =>
      obtain ⟨o, ho, ho1⟩ := ih acc (by rw [rootNamesDefs] at hnames; exact hnames)
      exact ⟨o, by rw [encodeOpsDefs]; exact ho, ho1⟩
    | operation op =>
      rw [rootNamesDefs] at hnames
      have hsels : ∀ n ∈ rootNamesSels op.selection_set, n ∈ tbl :=
        fun n hn => hnames n (List.mem_append_left _ hn)
      have hrest : ∀ n ∈ rootNamesDefs rest, n ∈ tbl :=
        fun n hn => hnames n (List.mem_append_right _ hn)
      obtain ⟨o1, ho1, ho11⟩ := ops_sels_ok cfg err op.operation op.selection_set acc hsels
      obtain ⟨o2, ho2, ho21⟩ := ih o1.2 hrest
      refine ⟨o2, ?_, ho21⟩
      rw [encodeOpsDefs]
      rw [ho1]
      show encodeOpsDefs cfg _ err o1.1 o1.2 rest = .ok o2
      rw [ho11]
      exact ho2

theorem ops_sels_stable (cfg : Config) (m : List (Nat × Nat)) (err : String)
    (k : OperationKind) :
    ∀ (sels : List Selection) (tbl : List String) (acc : List (Nat × Nat))
      (o : List String × List (Nat × Nat)),
      (∀ s i, lookupSym m s = some i → s < tbl.length) →
      encodeOpsSelections cfg m err k tbl acc sels = .ok o → o.1 = tbl := by
  intro sels
  induction sels with
  | nil =>
    intro tbl acc o hkeys h
    rw [encodeOpsSelections] at h
    cases h
    rfl
  | cons s rest ih =>
    intro tbl acc o hkeys h
    cases s with
    | field f =>
      rw [encodeOpsSelections] at h
      by_cases hf : f.name ∈ tbl
      · cases hlk : lookupSym m (intern_str tbl f.name).2 with
        | none =>
          simp only [hlk] at h
          cases h
        | some fidx =>
          simp only [hlk] at h
          have := ih _ _ o (by rw [intern_str_of_mem hf]; exact hkeys) h
          rw [intern_str_of_mem hf] at this
          exact this
      · have hsnd : (intern_str tbl f.name).2 = tbl.length := by
          unfold intern_str
          cases hh : idxOfStr tbl f.name with
          | some i => exact absurd (idxOfStr_mem hh) hf
          | none => rfl
        cases hlk : lookupSym m (intern_str tbl f.name).2 with
        | none =>
          simp only [hlk] at h
          cases h
        | some fidx =>
          exfalso
          rw [hsnd] at hlk
          exact Nat.lt_irrefl tbl.length (hkeys tbl.length fidx hlk)
    | fragmentSpread => exact ih _ _ o hkeys h
    | inlineFragment => exact ih _ _ o hkeys h

theorem ops_defs_stable (cfg : Config) (m : List (Nat × Nat)) (err : String) :
    ∀ (defs : List Definition) (tbl : List String) (acc : List (Nat × Nat))
      (o : List String × List (Nat × Nat)),
      (∀ s i, lookupSym m s = some i → s < tbl.length) →
      encodeOpsDefs cfg m err tbl acc defs = .ok o → o.1 = tbl := by
  intro defs
  induction defs with
  | nil =>
    intro tbl acc o hkeys h
    rw [encodeOpsDefs] at h
    cases h
    rfl
  | cons d rest ih =>
    intro tbl acc o hkeys h
    cases d with
    | fragmentDef =>
      rw [encodeOpsDefs] at h
      exact ih _ _ o hkeys h
    | operation op =>
      rw [encodeOpsDefs] at h
      obtain ⟨r1, hr1, hrest⟩ := except_bind_ok h
      have h1 : r1.1 = tbl := ops_sels_stable cfg m err op.operation _ _ _ r1 hkeys hr1
      have h2 := ih r1.1 r1.2 o (by rw [h1]; exact hkeys) hrest
      rw [h2, h1]

theorem bm_keys_lt (tbl : List String) :
    ∀ s i, lookupSym (build_symbol_to_index (get_all_strings tbl) tbl).2 s = some i →
      s < tbl.length :=
  fun s i h => ((lookup_bm_sound h).2).lt

/-! ### Root names reach the interner -/

theorem visit_sels_names :
    ∀ (sels : List Selection) (st : FieldPathExtractor),
      ∀ n ∈ rootNamesSels sels, n ∈ (visit_selection_set st sels).interner := by
  intro sels
  induction sels with
  | nil =>
    intro st n hn
    rw [rootNamesSels] at hn
    cases hn
  | cons s rest ih =>
    intro st n hn
    cases s with
    | field f =>
      rw [rootNamesSels] at hn
      rw [visit_selection_set]
      cases List.mem_cons.1 hn with
      | inl he =>
        have h1 : n ∈ (visit_field st f).interner := he ▸ visit_field_name_mem st f
        have h2 := (visit_selection_set_stepOk (visit_field st f) rest).2.1.1
        exact List.IsPrefix.subset h2 h1
      | inr ht => exact ih _ n ht
    | fragmentSpread =>
      rw [visit_selection_set]
      · exact ih _ n hn
      · intro g hg
        cases hg
    | inlineFragment =>
      rw [visit_selection_set]
      · exact ih _ n hn
      · intro g hg
        cases hg

theorem extractDefs_names (cfg : Config) :
    ∀ (defs : List Definition) (st : FieldPathExtractor) (hasOp : Bool)
      (p : FieldPathExtractor × Bool),
      extractDefs cfg st defs hasOp = .ok p →
      ∀ n ∈ rootNamesDefs defs, n ∈ p.1.interner := by
  intro defs
  induction defs with
  | nil =>
    intro st hasOp p hp n hn
    rw [rootNamesDefs] at hn
    cases hn
  | cons d rest ih =>
    intro st hasOp p hp n hn
    cases d with
    | fragmentDef =>
      rw [extractDefs] at hp
      rw [rootNamesDefs] at hn
      exact ih st hasOp p hp n hn
    | operation op =>
      rw [extractDefs] at hp
      rw [rootNamesDefs] at hn
      obtain ⟨st2x, h2, hp2⟩ := except_bind_ok hp
      obtain ⟨st3x, h3, hp3⟩ := except_bind_ok hp2
      cases List.mem_append.1 hn with
      | inl hsel =>
        have m1 : n ∈ (visit_selection_set st op.selection_set).interner :=
          visit_sels_names op.selection_set st n hsel
        have m2 : n ∈ st2x.interner :=
          List.IsPrefix.subset
            (extract_filter_paths_partGrow cfg op.selection_set _ st2x h2).1.1 m1
        have m3 : n ∈ st3x.interner :=
          List.IsPrefix.subset (extract_columns_partGrow op.selection_set st2x st3x h3).1.1 m2
        exact List.IsPrefix.subset (extractDefs_partGrow cfg rest st3x true p hp3).1.1 m3
      | inr hrest => exact ih st3x true p hp3 n hrest

theorem extract_names (cfg : Config) (I : List String) (doc : Document)
    (ex : FieldPathExtractor) (h : extract cfg I doc = .ok ex) :
    ∀ n ∈ rootNamesDefs doc.definitions, n ∈ ex.interner := by
  unfold extract at h
  obtain ⟨p, hp, hif⟩ := except_bind_ok h
  have hr : ex = p.1 := by
    split at hif
    · cases hif
      rfl
    · cases hif
  subst hr
  exact extractDefs_names cfg doc.definitions _ false p hp


/-! ### Success characterization of the extraction (pass B failures) -/

theorem except_bind_ok_iff {A B : Type} {X : Except String A} {Y : A → Except String B} :
    (∃ r, (X >>= Y) = .ok r) ↔ ∃ a, X = .ok a ∧ ∃ r, Y a = .ok r := by
  constructor
  · intro ⟨r, hr⟩
    obtain ⟨a, ha, hb⟩ := except_bind_ok hr
    exact ⟨a, ha, r, hb⟩
  · intro ⟨a, ha, r, hb⟩
    refine ⟨r, ?_⟩
    rw [ha]
    exact hb

theorem emo_single_ok_iff (st : FieldPathExtractor) (v : Value) :
    (∃ r, extract_mutation_objects st v true = .ok r) ↔ v.isListV = false := by
  cases v with
  | obj o =>
    constructor
    · intro _
      rfl
    · intro _
      obtain ⟨r1, hr1, _⟩ := extract_object_columns_okStep o st
      refine ⟨r1.insertPath r1.current_path, ?_⟩
      rw [extract_mutation_objects, hr1]
      rfl
  | listV items =>
    constructor
    · intro ⟨r, hr⟩
      rw [extract_mutation_objects] at hr
      rw [if_pos rfl] at hr
      cases hr
    · intro h
      cases h
  | varV x =>
    exact ⟨fun _ => rfl, fun _ => ⟨st.insertPath st.current_path, by rw [extract_mutation_objects]⟩⟩
  | scalar =>
    refine ⟨fun _ => rfl, fun _ => ⟨st, ?_⟩⟩
    rw [extract_mutation_objects]
    · intro o h
      cases h
    · intro o h
      cases h
    · intro o h
      cases h

theorem mutationObjectsList_ok_iff :
    ∀ (items : List Value) (st : FieldPathExtractor),
      (∃ r, mutationObjectsList st items = .ok r) ↔ items.any Value.isListV = false := by
  intro items
  induction items with
  | nil =>
    intro st
    refine ⟨fun _ => rfl, fun _ => ⟨st, ?_⟩⟩
    rw [mutationObjectsList]
  | cons v rest ih =>
    intro st
    constructor
    · intro ⟨r, hr⟩
      rw [mutationObjectsList] at hr
      obtain ⟨a, ha, hb⟩ := except_bind_ok hr
      have h1 : v.isListV = false := (emo_single_ok_iff st v).1 ⟨a, ha⟩
      have h2 : rest.any Value.isListV = false := (ih a).1 ⟨r, hb⟩
      simp [h1, h2]
    · intro h
      simp only [List.any_cons, Bool.or_eq_false_iff] at h
      obtain ⟨a, ha⟩ := (emo_single_ok_iff st v).2 h.1
      obtain ⟨r, hr⟩ := (ih a).2 h.2
      refine ⟨r, ?_⟩
      rw [mutationObjectsList, ha]
      exact hr

theorem emo_ok_iff (st : FieldPathExtractor) (v : Value) (b : Bool) :
    (∃ r, extract_mutation_objects st v b = .ok r) ↔ mutValueBad v b = false := by
  cases v with
  | obj o =>
    constructor
    · intro _
      rfl
    · intro _
      obtain ⟨r1, hr1, _⟩ := extract_object_columns_okStep o st
      refine ⟨r1.insertPath r1.current_path, ?_⟩
      rw [extract_mutation_objects, hr1]
      rfl
  | listV items =>
    cases b with
    | true =>
      constructor
      · intro ⟨r, hr⟩
        rw [extract_mutation_objects, if_pos rfl] at hr
        cases hr
      · intro h
        cases h
    | false =>
      rw [show mutValueBad (.listV items) false = items.any Value.isListV from rfl]
      constructor
      · intro ⟨r, hr⟩
        rw [extract_mutation_objects] at hr
        rw [if_neg (by simp)] at hr
        obtain ⟨a, ha, hb⟩ := except_bind_ok hr
        exact (mutationObjectsList_ok_iff items st).1 ⟨a, ha⟩
      · intro h
        obtain ⟨a, ha⟩ := (mutationObjectsList_ok_iff items st).2 h
        refine ⟨a.insertPath a.current_path, ?_⟩
        rw [extract_mutation_objects]
        rw [if_neg (by simp)]
        rw [ha]
        rfl
  | varV x =>
    exact ⟨fun _ => rfl, fun _ => ⟨st.insertPath st.current_path, by rw [extract_mutation_objects]⟩⟩
  | scalar =>
    refine ⟨fun _ => rfl, fun _ => ⟨st, ?_⟩⟩
    rw [extract_mutation_objects]
    · intro o h
      cases h
    · intro o h
      cases h
    · intro o h
      cases h

theorem eus_ok_iff (st : FieldPathExtractor) (v : Value) :
    (∃ r, extract_update_set st v = .ok r) ↔ setValueBad v = false := by
  cases v with
  | obj o =>
    constructor
    · intro _
      rfl
    · intro _
      obtain ⟨r1, hr1, _⟩ := extract_object_columns_okStep o st
      refine ⟨r1.insertPath r1.current_path, ?_⟩
      show (do
        let st1 ← extract_object_columns st o
        pure (st1.insertPath st1.current_path) : Except String FieldPathExtractor) =
          Except.ok (r1.insertPath r1.current_path)
      rw [hr1]
      rfl
  | varV x =>
    exact ⟨fun _ => rfl, fun _ => ⟨st.insertPath st.current_path, rfl⟩⟩
  | listV items =>
    constructor
    · intro ⟨r, hr⟩
      unfold extract_update_set at hr
      cases hr
    · intro h
      cases h
  | scalar =>
    constructor
    · intro ⟨r, hr⟩
      unfold extract_update_set at hr
      cases hr
    · intro h
      cases h


theorem mutValueBad_true (v : Value) : mutValueBad v true = v.isListV := by
  cases v <;> rfl

theorem processArgsList_ok_iff (cfg : Config) :
    ∀ (args : List Argument) (st : FieldPathExtractor) (fname : String),
      (∃ r, processArgsList cfg st fname args = .ok r) ↔
        args.any (argBad cfg fname) = false := by
  intro args
  induction args with
  | nil =>
    intro st fname
    exact ⟨fun _ => rfl, fun _ => ⟨st, by rw [processArgsList]⟩⟩
  | cons arg rest ih =>
    intro st fname
    simp only [processArgsList]
    rw [List.any_cons, Bool.or_eq_false_iff]
    by_cases hw : arg.name = "where"
    · simp only [if_pos hw]
      have hb : argBad cfg fname arg = false := by rw [argBad, if_pos hw]
      rw [except_bind_ok_iff]
      constructor
      · intro ⟨a, ha, hr⟩
        exact ⟨hb, (ih a fname).1 hr⟩
      · intro ⟨_, h2⟩
        obtain ⟨rr, hrr, _⟩ := filter_value_okStep st arg.value
        exact ⟨rr, hrr, (ih rr fname).2 h2⟩
    · simp only [if_neg hw]
      by_cases hi : strStarts fname cfg.insertPfx = true ∧
        (arg.name = "objects" ∨ arg.name = "object")
      · simp only [if_pos hi]
        rw [except_bind_ok_iff]
        have hbadeq : argBad cfg fname arg =
            mutValueBad arg.value (decide (arg.name = "object")) := by
          rw [argBad, if_neg hw, if_pos hi]
          by_cases hobj : arg.name = "object"
          · rw [if_pos hobj]
            rw [decide_eq_true hobj]
            exact (mutValueBad_true arg.value).symm
          · rw [if_neg hobj]
            rw [decide_eq_false hobj]
            cases hv : arg.value <;> rfl
        constructor
        · intro ⟨a, ha, hr⟩
          refine ⟨?_, (ih a fname).1 hr⟩
          rw [hbadeq]
          exact (emo_ok_iff st arg.value _).1 ⟨a, ha⟩
        · intro ⟨h1, h2⟩
          rw [hbadeq] at h1
          obtain ⟨a, ha⟩ := (emo_ok_iff st arg.value _).2 h1
          exact ⟨a, ha, (ih a fname).2 h2⟩
      · simp only [if_neg hi]
        by_cases hu : strStarts fname cfg.updatePfx = true ∧ arg.name = "_set"
        · simp only [if_pos hu]
          rw [except_bind_ok_iff]
          have hbadeq : argBad cfg fname arg = setValueBad arg.value := by
            rw [argBad, if_neg hw, if_neg hi, if_pos hu]
            cases hv : arg.value <;> rfl
          constructor
          · intro ⟨a, ha, hr⟩
            refine ⟨?_, (ih a fname).1 hr⟩
            rw [hbadeq]
            exact (eus_ok_iff st arg.value).1 ⟨a, ha⟩
          · intro ⟨h1, h2⟩
            rw [hbadeq] at h1
            obtain ⟨a, ha⟩ := (eus_ok_iff st arg.value).2 h1
            exact ⟨a, ha, (ih a fname).2 h2⟩
        · simp only [if_neg hu]
          have hb : argBad cfg fname arg = false := by
            rw [argBad, if_neg hw, if_neg hi, if_neg hu]
          rw [except_bind_ok_iff]
          constructor
          · intro ⟨a, ha, hr⟩
            cases ha
            exact ⟨hb, (ih st fname).1 hr⟩
          · intro ⟨_, h2⟩
            exact ⟨st, rfl, (ih st fname).2 h2⟩


theorem pfa_ok_iff (cfg : Config) :
    ∀ (st : FieldPathExtractor) (f : Field),
      (∃ r, process_field_arguments cfg st f = .ok r) ↔
        fieldHasBadArg cfg f = false := by
  refine process_field_arguments.induct cfg
    (fun st f => (∃ r, process_field_arguments cfg st f = .ok r) ↔
      fieldHasBadArg cfg f = false)
    (fun st sels => (∃ r, processArgsSelections cfg st sels = .ok r) ↔
      selsHaveBadArg cfg sels = false) ?_ ?_ ?_ ?_
  · intro st nm args dirs sels ih2
    set s1 := st.internName nm with hs1
    set st2 := s1.1.pushPath s1.2 with hst2
    set st3 := (if sels.isEmpty = true then st2 else st2.insertPath st2.current_path)
      with hst3
    have heq : process_field_arguments cfg st (.mk nm args dirs sels) =
        Except.bind (processArgsList cfg st3 nm args)
          (fun st4 => Except.bind (processArgsSelections cfg st4 sels)
            (fun st5 => pure st5.popPath)) := by
      rw [process_field_arguments]
      rw [← hs1, ← hst2, ← hst3]
      rfl
    have hfb : fieldHasBadArg cfg (.mk nm args dirs sels) =
        (args.any (argBad cfg nm) || selsHaveBadArg cfg sels) := by
      rw [fieldHasBadArg]
    rw [hfb, Bool.or_eq_false_iff]
    constructor
    · intro ⟨r, hr⟩
      rw [heq] at hr
      obtain ⟨st4, h4, hb4⟩ := except_bind_ok hr
      obtain ⟨st5, h5, hb5⟩ := except_bind_ok hb4
      exact ⟨(processArgsList_ok_iff cfg args st3 nm).1 ⟨st4, h4⟩,
        (ih2 st4).1 ⟨st5, h5⟩⟩
    · intro ⟨h1, h2⟩
      obtain ⟨st4, h4⟩ := (processArgsList_ok_iff cfg args st3 nm).2 h1
      obtain ⟨st5, h5⟩ := (ih2 st4).2 h2
      refine ⟨st5.popPath, ?_⟩
      rw [heq, h4]
      show Except.bind (processArgsSelections cfg st4 sels)
        (fun st5 => pure st5.popPath) = _
      rw [h5]
      rfl
  · intro st
    constructor
    · intro _
      rw [selsHaveBadArg]
    · intro _
      exact ⟨st, by rw [processArgsSelections]⟩
  · intro st f rest ih1 ih2
    have hsb : selsHaveBadArg cfg (.field f :: rest) =
        (fieldHasBadArg cfg f || selsHaveBadArg cfg rest) := by
      rw [selsHaveBadArg]
    rw [hsb, Bool.or_eq_false_iff]
    constructor
    · intro ⟨r, hr⟩
      rw [processArgsSelections] at hr
      obtain ⟨a, ha, hb⟩ := except_bind_ok hr
      exact ⟨ih1.1 ⟨a, ha⟩, (ih2 a).1 ⟨r, hb⟩⟩
    · intro ⟨h1, h2⟩
      obtain ⟨a, ha⟩ := ih1.2 h1
      obtain ⟨r, hr⟩ := (ih2 a).2 h2
      refine ⟨r, ?_⟩
      rw [processArgsSelections, ha]
      exact hr
  · intro st head rest hne ih
    cases head with
    | field f => exact absurd rfl (hne f)
    | fragmentSpread =>
      have he1 : processArgsSelections cfg st (.fragmentSpread :: rest) =
          processArgsSelections cfg st rest := by
        rw [processArgsSelections]
        exact hne
      have he2 : selsHaveBadArg cfg (.fragmentSpread :: rest) =
          selsHaveBadArg cfg rest := by
        rw [selsHaveBadArg]
        exact hne
      rw [he1, he2]
      exact ih
    | inlineFragment =>
      have he1 : processArgsSelections cfg st (.inlineFragment :: rest) =
          processArgsSelections cfg st rest := by
        rw [processArgsSelections]
        exact hne
      have he2 : selsHaveBadArg cfg (.inlineFragment :: rest) =
          selsHaveBadArg cfg rest := by
        rw [selsHaveBadArg]
        exact hne
      rw [he1, he2]
      exact ih


theorem extract_filter_paths_ok_iff (cfg : Config) :
    ∀ (sels : List Selection) (st : FieldPathExtractor),
      (∃ r, extract_filter_paths cfg st sels = .ok r) ↔
        selsHaveBadArg cfg sels = false := by
  intro sels
  induction sels with
  | nil =>
    intro st
    constructor
    · intro _
      rw [selsHaveBadArg]
    · intro _
      exact ⟨st, by rw [extract_filter_paths]⟩
  | cons s rest ih =>
    intro st
    cases s with
    | field f =>
      have hsb : selsHaveBadArg cfg (.field f :: rest) =
          (fieldHasBadArg cfg f || selsHaveBadArg cfg rest) := by
        rw [selsHaveBadArg]
      rw [hsb, Bool.or_eq_false_iff]
      constructor
      · intro ⟨r, hr⟩
        rw [extract_filter_paths] at hr
        simp only [Selection.fieldOf] at hr
        obtain ⟨a, ha, hb⟩ := except_bind_ok hr
        exact ⟨(pfa_ok_iff cfg _ f).1 ⟨a, ha⟩, (ih a).1 ⟨r, hb⟩⟩
      · intro ⟨h1, h2⟩
        obtain ⟨a, ha⟩ := (pfa_ok_iff cfg { st with current_path := [] } f).2 h1
        obtain ⟨r, hr⟩ := (ih a).2 h2
        refine ⟨r, ?_⟩
        rw [extract_filter_paths]
        simp only [Selection.fieldOf]
        rw [ha]
        exact hr
    | fragmentSpread =>
      have hsb : selsHaveBadArg cfg (.fragmentSpread :: rest) =
          selsHaveBadArg cfg rest := by
        rw [selsHaveBadArg]
        intro g hg
        cases hg
      rw [hsb]
      constructor
      · intro ⟨r, hr⟩
        rw [extract_filter_paths] at hr
        simp only [Selection.fieldOf] at hr
        obtain ⟨a, ha, hb⟩ := except_bind_ok hr
        cases ha
        exact (ih st).1 ⟨r, hb⟩
      · intro h2
        obtain ⟨r, hr⟩ := (ih st).2 h2
        refine ⟨r, ?_⟩
        rw [extract_filter_paths]
        simp only [Selection.fieldOf]
        exact hr
    | inlineFragment =>
      have hsb : selsHaveBadArg cfg (.inlineFragment :: rest) =
          selsHaveBadArg cfg rest := by
        rw [selsHaveBadArg]
        intro g hg
        cases hg
      rw [hsb]
      constructor
      · intro ⟨r, hr⟩
        rw [extract_filter_paths] at hr
        simp only [Selection.fieldOf] at hr
        obtain ⟨a, ha, hb⟩ := except_bind_ok hr
        cases ha
        exact (ih st).1 ⟨r, hb⟩
      · intro h2
        obtain ⟨r, hr⟩ := (ih st).2 h2
        refine ⟨r, ?_⟩
        rw [extract_filter_paths]
        simp only [Selection.fieldOf]
        exact hr

theorem extract_columns_ok :
    ∀ (sels : List Selection) (st : FieldPathExtractor),
      ∃ r, extract_columns_from_selection_sets st sels = .ok r := by
  intro sels
  induction sels with
  | nil =>
    intro st
    exact ⟨st, by rw [extract_columns_from_selection_sets]⟩
  | cons s rest ih =>
    intro st
    cases s with
    | field f =>
      obtain ⟨a, ha, _⟩ :=
        process_field_and_columns_okStep { st with current_path := [] } f
      obtain ⟨r, hr⟩ := ih a
      refine ⟨r, ?_⟩
      rw [extract_columns_from_selection_sets]
      simp only [Selection.fieldOf]
      rw [ha]
      exact hr
    | fragmentSpread =>
      obtain ⟨r, hr⟩ := ih st
      refine ⟨r, ?_⟩
      rw [extract_columns_from_selection_sets]
      simp only [Selection.fieldOf]
      exact hr
    | inlineFragment =>
      obtain ⟨r, hr⟩ := ih st
      refine ⟨r, ?_⟩
      rw [extract_columns_from_selection_sets]
      simp only [Selection.fieldOf]
      exact hr

theorem extractDefs_ok_iff (cfg : Config) :
    ∀ (defs : List Definition) (st : FieldPathExtractor) (hasOp : Bool),
      (∃ p, extractDefs cfg st defs hasOp = .ok p) ↔
        (defs.any fun x => match x with
          | .operation op => selsHaveBadArg cfg op.selection_set
          | .fragmentDef => false) = false := by
  intro defs
  induction defs with
  | nil =>
    intro st hasOp
    exact ⟨fun _ => rfl, fun _ => ⟨(st, hasOp), by rw [extractDefs]⟩⟩
  | cons d rest ih =>
    intro st hasOp
    cases d with
    | fragmentDef =>
      rw [List.any_cons]
      show (∃ p, extractDefs cfg st (.fragmentDef :: rest) hasOp = .ok p) ↔
        (false || rest.any fun x => match x with
          | .operation op => selsHaveBadArg cfg op.selection_set
          | .fragmentDef => false) = false
      rw [Bool.false_or]
      constructor
      · intro ⟨p, hp⟩
        rw [extractDefs] at hp
        exact (ih st hasOp).1 ⟨p, hp⟩
      · intro h
        obtain ⟨p, hp⟩ := (ih st hasOp).2 h
        exact ⟨p, by rw [extractDefs]; exact hp⟩
    | operation op =>
      rw [List.any_cons]
      show _ ↔ (selsHaveBadArg cfg op.selection_set || rest.any fun x => match x with
          | .operation op => selsHaveBadArg cfg op.selection_set
          | .fragmentDef => false) = false
      rw [Bool.or_eq_false_iff]
      constructor
      · intro ⟨p, hp⟩
        rw [extractDefs] at hp
        obtain ⟨st2x, h2, hp2⟩ := except_bind_ok hp
        obtain ⟨st3x, h3, hp3⟩ := except_bind_ok hp2
        exact ⟨(extract_filter_paths_ok_iff cfg op.selection_set _).1 ⟨st2x, h2⟩,
          (ih st3x true).1 ⟨p, hp3⟩⟩
      · intro ⟨h1, h2⟩
        obtain ⟨st2x, h2x⟩ :=
          (extract_filter_paths_ok_iff cfg op.selection_set
            (visit_selection_set st op.selection_set)).2 h1
        obtain ⟨st3x, h3x⟩ := extract_columns_ok op.selection_set st2x
        obtain ⟨p, hp⟩ := (ih st3x true).2 h2
        refine ⟨p, ?_⟩
        rw [extractDefs]
        rw [h2x]
        show Except.bind (extract_columns_from_selection_sets st2x op.selection_set)
          (fun st3 => extractDefs cfg st3 rest true) = _
        rw [h3x]
        exact hp

theorem extractDefs_snd (cfg : Config) :
    ∀ (defs : List Definition) (st : FieldPathExtractor) (hasOp : Bool)
      (p : FieldPathExtractor × Bool),
      extractDefs cfg st defs hasOp = .ok p →
      p.2 = (hasOp || defs.any fun x => match x with
        | .operation _ => true
        | .fragmentDef => false) := by
  intro defs
  induction defs with
  | nil =>
    intro st hasOp p hp
    rw [extractDefs] at hp
    cases hp
    simp
  | cons d rest ih =>
    intro st hasOp p hp
    cases d with
    | fragmentDef =>
      rw [extractDefs] at hp
      rw [List.any_cons]
      show p.2 = (hasOp || (false || _))
      rw [Bool.false_or]
      exact ih st hasOp p hp
    | operation op =>
      rw [extractDefs] at hp
      obtain ⟨st2x, h2, hp2⟩ := except_bind_ok hp
      obtain ⟨st3x, h3, hp3⟩ := except_bind_ok hp2
      rw [List.any_cons]
      show p.2 = (hasOp || (true || _))
      have := ih st3x true p hp3
      rw [this]
      simp

theorem extract_ok_iff (cfg : Config) (I : List String) (doc : Document) :
    (∃ ex, extract cfg I doc = .ok ex) ↔
      (hasOperation doc = true ∧ docHasBadArg cfg doc = false) := by
  unfold extract
  constructor
  · intro ⟨ex, hex⟩
    obtain ⟨p, hp, hif⟩ := except_bind_ok hex
    have hsnd := extractDefs_snd cfg doc.definitions _ false p hp
    rw [Bool.false_or] at hsnd
    have hp2 : p.2 = true := by
      by_contra hf
      rw [Bool.not_eq_true] at hf
      rw [hf] at hif
      simp at hif
    refine ⟨?_, ?_⟩
    · rw [hasOperation, ← hsnd]
      exact hp2
    · exact (extractDefs_ok_iff cfg doc.definitions _ false).1 ⟨p, hp⟩
  · intro ⟨h1, h2⟩
    obtain ⟨p, hp⟩ := (extractDefs_ok_iff cfg doc.definitions
      { field_paths := [], current_path := [], column_usage := [], interner := I }
      false).2 h2
    have hsnd := extractDefs_snd cfg doc.definitions _ false p hp
    rw [Bool.false_or] at hsnd
    rw [hasOperation] at h1
    refine ⟨p.1, ?_⟩
    show Except.bind (extractDefs cfg ⟨[], [], [], I⟩ doc.definitions false)
      (fun r => if r.2 = true then pure r.1
        else Except.error "No operation found in document") = Except.ok p.1
    rw [hp]
    show (if p.2 = true then pure p.1 else Except.error "No operation found in document") = _
    rw [if_pos (by rw [hsnd]; exact h1)]
    rfl


/-! ### Success characterization of the checks (parser.rs:107-144) -/

theorem checkSelections_ok_iff :
    ∀ (sels : List Selection),
      (checkSelections sels = .ok ()) ↔ selsClean sels = true := by
  refine checkSelections.induct
    (fun f => (check_field_for_unsupported_features f = .ok ()) ↔
      selsClean f.selection_set = true)
    (fun sels => (checkSelections sels = .ok ()) ↔ selsClean sels = true) ?_ ?_ ?_ ?_ ?_ ?_
  · intro nm args dirs sels ih
    constructor
    · intro h
      rw [check_field_for_unsupported_features] at h
      exact ih.1 h
    · intro h
      rw [check_field_for_unsupported_features]
      exact ih.2 h
  · constructor
    · intro _
      rw [selsClean]
    · intro _
      rw [checkSelections]
  · intro rest
    constructor
    · intro h
      rw [checkSelections] at h
      cases h
    · intro h
      rw [selsClean] at h
      · cases h
      · intro g hg
        cases hg
  · intro rest
    constructor
    · intro h
      rw [checkSelections] at h
      cases h
    · intro h
      rw [selsClean] at h
      · cases h
      · intro g hg
        cases hg
  · intro f rest hdirs ih1 ih2
    have hcl : selsClean (.field f :: rest) = (fieldClean f && selsClean rest) := by
      rw [selsClean]
    have hfl : fieldClean f = (f.directives.isEmpty && selsClean f.selection_set) := by
      obtain ⟨nm, args, dirs, sels⟩ := f
      rw [fieldClean]
      rfl
    have heq : checkSelections (.field f :: rest) =
        Except.bind (check_field_for_unsupported_features f)
          (fun u2 => checkSelections rest) := by
      rw [checkSelections]
      rw [if_pos hdirs]
      rfl
    rw [hcl, hfl, hdirs, heq, Bool.true_and]
    constructor
    · intro h
      obtain ⟨u2, h2, hb2⟩ := except_bind_ok h
      rw [Bool.and_eq_true]
      exact ⟨ih1.1 (by cases u2; exact h2), ih2.1 hb2⟩
    · intro h
      rw [Bool.and_eq_true] at h
      have h2 := ih1.2 h.1
      rw [h2]
      show checkSelections rest = Except.ok ()
      exact ih2.2 h.2
  · intro f rest hdirs ih1 ih2
    have hcl : selsClean (.field f :: rest) = (fieldClean f && selsClean rest) := by
      rw [selsClean]
    have hfl : fieldClean f = (f.directives.isEmpty && selsClean f.selection_set) := by
      obtain ⟨nm, args, dirs, sels⟩ := f
      rw [fieldClean]
      rfl
    have heq : checkSelections (.field f :: rest) =
        Except.error "GraphQL directives are not supported" := by
      rw [checkSelections]
      rw [if_neg hdirs]
      rfl
    rw [hcl, hfl, heq]
    rw [Bool.not_eq_true] at hdirs
    rw [hdirs]
    constructor
    · intro h
      cases h
    · intro h
      simp at h

theorem checkDefinitions_ok_iff :
    ∀ (defs : List Definition),
      (checkDefinitions defs = .ok ()) ↔ defsClean defs = true := by
  intro defs
  induction defs with
  | nil =>
    constructor
    · intro _
      rw [defsClean]
    · intro _
      rw [checkDefinitions]
  | cons d rest ih =>
    cases d with
    | fragmentDef =>
      constructor
      · intro h
        rw [checkDefinitions] at h
        cases h
      · intro h
        rw [defsClean] at h
        cases h
    | operation op =>
      have hdc : defsClean (.operation op :: rest) =
          (op.directives.isEmpty && selsClean op.selection_set && defsClean rest) := by
        rw [defsClean]
      rw [hdc]
      by_cases hdirs : op.directives.isEmpty = true
      · have heq : checkDefinitions (.operation op :: rest) =
            Except.bind (checkSelections op.selection_set)
              (fun u2 => checkDefinitions rest) := by
          rw [checkDefinitions]
          rw [if_pos hdirs]
          rfl
        rw [heq, hdirs, Bool.true_and]
        constructor
        · intro h
          obtain ⟨u2, h2, hb2⟩ := except_bind_ok h
          rw [Bool.and_eq_true]
          exact ⟨(checkSelections_ok_iff op.selection_set).1 (by cases u2; exact h2),
            ih.1 hb2⟩
        · intro h
          rw [Bool.and_eq_true] at h
          rw [(checkSelections_ok_iff op.selection_set).2 h.1]
          show checkDefinitions rest = Except.ok ()
          exact ih.2 h.2
      · have heq : checkDefinitions (.operation op :: rest) =
            Except.error "GraphQL directives are not supported" := by
          rw [checkDefinitions]
          rw [if_neg hdirs]
          rfl
        rw [heq]
        rw [Bool.not_eq_true] at hdirs
        rw [hdirs]
        constructor
        · intro h
          cases h
        · intro h
          simp at h

theorem detOpKindStep_fst (cfg : Config) (acc : Bool × GraphQLOperationKind)
    (d : Definition) :
    (detOpKindStep cfg acc d).1 = (acc.1 || match d with
      | .operation _ => true
      | .fragmentDef => false) := by
  cases d with
  | fragmentDef => simp [detOpKindStep]
  | operation op =>
    have h1 : (detOpKindStep cfg acc (.operation op)).1 = true := by
      cases hop : op.operation <;> simp only [detOpKindStep, hop] <;>
        (repeat' split) <;> simp_all
    rw [h1]
    simp

theorem detOpKind_flag_eq (cfg : Config) :
    ∀ (defs : List Definition) (acc : Bool × GraphQLOperationKind),
      (defs.foldl (detOpKindStep cfg) acc).1 = (acc.1 || defs.any fun x => match x with
        | .operation _ => true
        | .fragmentDef => false) := by
  intro defs
  induction defs with
  | nil =>
    intro acc
    simp
  | cons d rest ih =>
    intro acc
    rw [List.foldl_cons, ih, detOpKindStep_fst, List.any_cons, Bool.or_assoc]

theorem detOpKind_ok_iff (cfg : Config) (doc : Document) :
    (∃ k, determine_operation_kind cfg doc = .ok k) ↔ hasOperation doc = true := by
  unfold determine_operation_kind
  have hflag := detOpKind_flag_eq cfg doc.definitions (false, .Query)
  rw [Bool.false_or] at hflag
  constructor
  · intro ⟨k, hk⟩
    by_cases hf : (doc.definitions.foldl (detOpKindStep cfg) (false, .Query)).1 = true
    · rw [hasOperation, ← hflag]
      exact hf
    · exfalso
      rw [Bool.not_eq_true] at hf
      simp only [hf] at hk
      simp at hk
  · intro h
    rw [hasOperation] at h
    rw [← hflag] at h
    refine ⟨(doc.definitions.foldl (detOpKindStep cfg) (false, .Query)).2, ?_⟩
    simp only [h]
    rfl


/-! ### Success characterization of parse_graphql -/

theorem canonicalPathEnum_eq {cfg : Config} {I : List String} {doc : Document}
    {ex : FieldPathExtractor} (h : extract cfg I doc = .ok ex) :
    canonicalPathEnum cfg I doc = ex.field_paths := by
  unfold canonicalPathEnum
  rw [h]

theorem parse_graphql_ok_elim {cfg : Config} {I : List String} {doc : Document}
    {q : String} {en : List FieldPath}
    {out : ParsedQueryInfo × ResolutionRequest × List String}
    (h : parse_graphql cfg I doc q en = .ok out) :
    ∃ k ex pe cols om,
      checkDefinitions doc.definitions = .ok () ∧
      determine_operation_kind cfg doc = .ok k ∧
      extract cfg I doc = .ok ex ∧
      encodePathsLoop (build_symbol_to_index (get_all_strings ex.interner) ex.interner).2
        en [] [] [] = .ok pe ∧
      encodeColsLoop (build_symbol_to_index (get_all_strings ex.interner) ex.interner).2
        ex.column_usage en [] = .ok cols ∧
      encodeOpsDefs cfg (build_symbol_to_index (get_all_strings ex.interner) ex.interner).2
        "Field not found in mapping"
        (build_symbol_to_index (get_all_strings ex.interner) ex.interner).1 []
        doc.definitions = .ok om ∧
      out = (⟨k, extract_operation_name doc.definitions, ex.field_paths, ex.column_usage⟩,
        ⟨generate_query_id q, get_all_strings ex.interner, pe.1, pe.2.1, pe.2.2,
          cols, om.2⟩, om.1) := by
  unfold parse_graphql at h
  obtain ⟨u, hcheck, h1⟩ := except_bind_ok h
  obtain ⟨k, hdet, h2⟩ := except_bind_ok h1
  obtain ⟨ex, hex, h3⟩ := except_bind_ok h2
  obtain ⟨pe, hpe, h4⟩ := except_bind_ok h3
  obtain ⟨cols, hcols, h5⟩ := except_bind_ok h4
  obtain ⟨om, hops, h6⟩ := except_bind_ok h5
  cases h6
  cases u
  exact ⟨k, ex, pe, cols, om, hcheck, hdet, hex, hpe, hcols, hops, rfl⟩


theorem parse_graphqlC_ok_of (cfg : Config) (I : List String) (doc : Document) (q : String)
    (hclean : docClean doc = true) (hop : hasOperation doc = true)
    (hbad : docHasBadArg cfg doc = false) :
    ∃ out, parse_graphqlC cfg I doc q = .ok out := by
  obtain ⟨ex, hex⟩ := (extract_ok_iff cfg I doc).2 ⟨hop, hbad⟩
  obtain ⟨hpre, hwf⟩ := extract_ok_grow cfg I doc ex hex
  have hcheck : checkDefinitions doc.definitions = .ok () :=
    (checkDefinitions_ok_iff doc.definitions).2 hclean
  obtain ⟨k, hdet⟩ := (detOpKind_ok_iff cfg doc).2 hop
  have hens : ∀ p ∈ ex.field_paths, ∀ s ∈ p, SymOk ex.interner s := hwf.1
  have hcu : ∀ tc ∈ ex.column_usage, ∀ s ∈ tc.2, SymOk ex.interner s :=
    fun tc htc => (hwf.2.2 tc htc).2
  have hpe := encodePathsLoop_eq ex.field_paths ([] : List Nat) ([] : List Nat)
    ([] : List Nat) hens
  have hcols := encodeColsLoop_eq hcu ex.field_paths ([] : List (Nat × List Nat)) hens
  obtain ⟨om, hops, homtbl⟩ := ops_defs_ok cfg "Field not found in mapping"
    doc.definitions ([] : List (Nat × Nat)) (fun n hn => extract_names cfg I doc ex hex n hn)
  have hcanon := canonicalPathEnum_eq hex
  have hbm1 := bm_fst ex.interner
  refine ⟨(⟨k, extract_operation_name doc.definitions, ex.field_paths, ex.column_usage⟩,
    ⟨generate_query_id q, get_all_strings ex.interner, pathBlocksFlat ex.field_paths,
      pathDirsFrom 0 ex.field_paths,
      ex.field_paths.map (fun p => if p.length = 1 then 0 else 1),
      ex.field_paths.filterMap (colsEntryFor
        (build_symbol_to_index (get_all_strings ex.interner) ex.interner).2 ex.column_usage),
      om.2⟩, om.1), ?_⟩
  unfold parse_graphqlC parse_graphql
  simp only [hcanon, hcheck, hdet, hex, hbm1, hpe, hcols, hops, except_ok_bind]
  rfl


/-! ## Claim C4 -/

/-- C4 (amended): `parse_query(q)` (modelled by `parse_graphqlC` on the
already-parsed document) succeeds iff the document parses cleanly with no
fragment definitions, fragment spreads, inline fragments, or directives
(`docClean`), contains at least one operation definition (`hasOperation`),
and additionally contains no malformed mutation argument
(`docHasBadArg` - a list passed to a singular `object` argument, a nested
list under `objects`, or a `_set` value that is neither an object nor a
variable).  The original claim omitted the third condition. -/
theorem parse_query_succeeds_iff (cfg : Config) (I : List String) (doc : Document)
    (q : String) :
    (∃ out, parse_graphqlC cfg I doc q = .ok out) ↔
      (docClean doc = true ∧ hasOperation doc = true ∧
        docHasBadArg cfg doc = false) := by
  constructor
  · intro ⟨out, hout⟩
    obtain ⟨k, ex, pe, cols, om, hcheck, hdet, hex, _, _, _, _⟩ :=
      parse_graphql_ok_elim hout
    obtain ⟨hop, hbad⟩ := (extract_ok_iff cfg I doc).1 ⟨ex, hex⟩
    exact ⟨(checkDefinitions_ok_iff doc.definitions).1 hcheck, hop, hbad⟩
  · intro ⟨h1, h2, h3⟩
    exact parse_graphqlC_ok_of cfg I doc q h1 h2 h3

/-- C4 counterexample: `docObjectList` parses cleanly and contains an
operation definition, yet parsing fails, because the singular `object`
argument receives an array.  This refutes the claimed equivalence
"succeeds iff clean and non-empty". -/
theorem parse_query_succeeds_iff_counterexample :
    docClean docObjectList = true ∧ hasOperation docObjectList = true ∧
      parse_graphqlC defaultConfig [] docObjectList "m" =
        .error "Expected a single object but got an array" :=
  ⟨rfl, rfl, by rfl⟩

/-! ## Claim C7 -/

/-- C7 (amended): the extraction of one root field fails exactly when some
argument of the field subtree is malformed (`fieldHasBadArg`): a list in
singular-object position (including a list element of an `objects` list),
or a `_set` value that is neither an object nor a variable.  A variable
value for `object`/`objects`/`_set` records the current path as a table
path, changes no columns, and does not fail.  The original claim's failure
set omitted nested lists under the plural `objects` argument. -/
theorem extraction_invalid_input_characterization (cfg : Config) :
    (∀ st f, (∃ r, process_field_arguments cfg st f = .ok r) ↔
      fieldHasBadArg cfg f = false) ∧
    (∀ (st : FieldPathExtractor) (v : Value) (b : Bool),
      (∃ r, extract_mutation_objects st v b = .ok r) ↔ mutValueBad v b = false) ∧
    (∀ (st : FieldPathExtractor) (v : Value),
      (∃ r, extract_update_set st v = .ok r) ↔ setValueBad v = false) ∧
    (∀ (st : FieldPathExtractor) (x : String) (b : Bool),
      extract_mutation_objects st (.varV x) b = .ok (st.insertPath st.current_path)) ∧
    (∀ (st : FieldPathExtractor) (x : String),
      extract_update_set st (.varV x) = .ok (st.insertPath st.current_path)) ∧
    (∀ (st : FieldPathExtractor) (p : FieldPath),
      (st.insertPath p).column_usage = st.column_usage) :=
  ⟨pfa_ok_iff cfg, emo_ok_iff, eus_ok_iff,
    fun st x b => by rw [extract_mutation_objects],
    fun st x => rfl, insertPath_colUsage⟩

/-- C7 counterexample: `docObjectsNested` passes a list of lists to the
plural `objects` argument.  No argument satisfies the failure condition as
the claim words it (list under singular `object`, or non-object non-variable
`_set`), yet the extraction fails. -/
theorem extraction_invalid_input_counterexample :
    docHasBadArgClaimed defaultConfig docObjectsNested = false ∧
      hasOperation docObjectsNested = true ∧
      extract defaultConfig [] docObjectsNested =
        .error "Expected a single object but got an array" :=
  ⟨by rfl, rfl, by rfl⟩


/-! ## Claim C8 -/

/-- C8: in every resolution request produced by a successful parse, the
`path_types` entry of each encoded path is 0 iff the path has one segment
(stated as: `path_types` is exactly the length-indicator map over the
decoded `paths` array), and every `cols` entry `(t, cs)` has a non-empty
column list and its single-segment path `[t]` is among the encoded paths
(hence, by the first part, with path type 0). -/
theorem resolution_request_invariants {cfg : Config} {I : List String} {doc : Document}
    {q : String} {en : List FieldPath}
    {out : ParsedQueryInfo × ResolutionRequest × List String}
    (h : parse_graphql cfg I doc q en = .ok out) :
    out.2.1.path_types = (decode_paths out.2.1.paths).map
      (fun p => if p.length = 1 then 0 else 1) ∧
    ∀ tc ∈ out.2.1.cols, tc.2 ≠ [] ∧ [tc.1] ∈ decode_paths out.2.1.paths := by
  obtain ⟨k, ex, pe, cols, om, hcheck, hdet, hex, hpe, hcols, hops, hout⟩ :=
    parse_graphql_ok_elim h
  subst hout
  show pe.2.2 = (decode_paths pe.1).map (fun p => if p.length = 1 then 0 else 1) ∧
    ∀ tc ∈ cols, tc.2 ≠ [] ∧ [tc.1] ∈ decode_paths pe.1
  have hsyms := encodePathsLoop_sound en [] [] [] pe hpe
  have hpe2 := encodePathsLoop_eq en [] [] [] hsyms
  rw [hpe] at hpe2
  injection hpe2 with hpe3
  rw [hpe3]
  simp only [List.nil_append]
  rw [decode_pathBlocksFlat]
  refine ⟨rfl, ?_⟩
  intro tc htc
  cases encodeColsLoop_sound en [] cols hcols tc htc with
  | inl hmem => exact absurd hmem (List.not_mem_nil tc)
  | inr hx =>
    obtain ⟨p, hp, hl1, hlk, hne⟩ := hx
    refine ⟨hne, ?_⟩
    have ht1 : tc.1 = p.getD 0 0 := (lookup_bm_sound hlk).1
    rw [ht1, ← length_one_eq_getD hl1]
    exact hp

/-- C8 witness: the invariants hold on the concrete request produced for
the scenario document `docS1`. -/
theorem resolution_request_invariants_witness :
    ∃ out, parse_graphqlC defaultConfig [] docS1 "q1" = .ok out ∧
      (out.2.1.path_types = (decode_paths out.2.1.paths).map
        (fun p => if p.length = 1 then 0 else 1) ∧
      ∀ tc ∈ out.2.1.cols, tc.2 ≠ [] ∧ [tc.1] ∈ decode_paths out.2.1.paths) := by
  obtain ⟨out, hout⟩ : ∃ out, parse_graphql defaultConfig [] docS1 "q1"
      (canonicalPathEnum defaultConfig [] docS1) = .ok out := ⟨_, rfl⟩
  exact ⟨out, hout, resolution_request_invariants hout⟩


/-! ## Claim C10 -/

theorem crrfc_ok_elim {cfg : Config} {interner : List String} {cached : CachedQueryInfo}
    {qid : String} {rr : ResolutionRequest × List String}
    (h : create_resolution_request_from_cached cfg interner cached qid = .ok rr) :
    ∃ pe cols om,
      encodePathsLoop (build_symbol_to_index (get_all_strings interner) interner).2
        (sortByLe (fun a b =>
          lexLe (pathSortKey (build_symbol_to_index (get_all_strings interner) interner).2 a)
            (pathSortKey (build_symbol_to_index (get_all_strings interner) interner).2 b))
          cached.field_paths)
        [] [] [] = .ok pe ∧
      encodeColsCachedLoop (build_symbol_to_index (get_all_strings interner) interner).2
        cached.column_usage
        (sortByLe (fun a b =>
          lexLe (pathSortKey (build_symbol_to_index (get_all_strings interner) interner).2 a)
            (pathSortKey (build_symbol_to_index (get_all_strings interner) interner).2 b))
          cached.field_paths)
        [] = .ok cols ∧
      encodeOpsDefs cfg (build_symbol_to_index (get_all_strings interner) interner).2
        "Field symbol not found in mapping"
        (build_symbol_to_index (get_all_strings interner) interner).1 []
        cached.document.definitions = .ok om ∧
      rr = (⟨qid, get_all_strings interner, pe.1, pe.2.1, pe.2.2, cols, om.2⟩, om.1) := by
  unfold create_resolution_request_from_cached at h
  obtain ⟨pe, hpe, h1⟩ := except_bind_ok h
  obtain ⟨cols, hcols, h2⟩ := except_bind_ok h1
  obtain ⟨om, hops, h3⟩ := except_bind_ok h2
  cases h3
  exact ⟨pe, cols, om, hpe, hcols, hops, rfl⟩

theorem bm_keys_lt_fst (X : List String) :
    ∀ s i, lookupSym (build_symbol_to_index (get_all_strings X) X).2 s = some i →
      s < ((build_symbol_to_index (get_all_strings X) X).1).length := by
  rw [bm_fst]
  exact bm_keys_lt X

/-- C10: on every successful `parse_query` call, the process interner only
grows (the previous interner is a prefix of the new one), and the `strings`
array of the returned request is the full snapshot, in assignment order, of
the process-wide interner as left by the call - not just the names of the
current query. -/
theorem strings_are_interner_snapshot {cfg : Config} {st : ProcState} {q : String}
    {doc : Document} {en : List FieldPath}
    {p : ProcState × (String × GraphQLOperationKind × String × ResolutionRequest)}
    (h : do_parse_query cfg st q doc en = .ok p) :
    st.interner <+: p.1.interner ∧
      p.2.2.2.2.strings = get_all_strings p.1.interner := by
  unfold do_parse_query at h
  cases hc : get_from_cache st.cache (generate_query_id q) with
  | some cached =>
    simp only [hc] at h
    obtain ⟨rr, hrr, hb⟩ := except_bind_ok h
    cases hb
    obtain ⟨pe, cols, om, hpe, hcols, hops, hrr2⟩ := crrfc_ok_elim hrr
    subst hrr2
    have hom1 : om.1 = (build_symbol_to_index (get_all_strings st.interner) st.interner).1 :=
      ops_defs_stable cfg _ "Field symbol not found in mapping"
        cached.document.definitions _ [] om (bm_keys_lt_fst st.interner) hops
    rw [bm_fst] at hom1
    show st.interner <+: om.1 ∧ get_all_strings st.interner = get_all_strings om.1
    rw [hom1]
    exact ⟨List.prefix_refl _, rfl⟩
  | none =>
    simp only [hc] at h
    obtain ⟨pr, hpr, hb⟩ := except_bind_ok h
    cases hb
    obtain ⟨k, ex, pe, cols, om, hcheck, hdet, hex, hpe, hcols, hops, hpr2⟩ :=
      parse_graphql_ok_elim hpr
    subst hpr2
    have hom1 : om.1 = (build_symbol_to_index (get_all_strings ex.interner) ex.interner).1 :=
      ops_defs_stable cfg _ "Field not found in mapping"
        doc.definitions _ [] om (bm_keys_lt_fst ex.interner) hops
    rw [bm_fst] at hom1
    show st.interner <+: om.1 ∧ get_all_strings ex.interner = get_all_strings om.1
    rw [hom1]
    exact ⟨(extract_ok_grow cfg st.interner doc ex hex).1, rfl⟩

/-- C10 witness: the snapshot property on a concrete first call. -/
theorem strings_are_interner_snapshot_witness :
    ∃ p, do_parse_queryC defaultConfig ⟨[], []⟩ "q1" docS1 = .ok p ∧
      (([] : List String) <+: p.1.interner ∧
        p.2.2.2.2.strings = get_all_strings p.1.interner) := by
  obtain ⟨p, hp⟩ : ∃ p, do_parse_query defaultConfig ⟨[], []⟩ "q1" docS1
      (canonicalPathEnum defaultConfig [] docS1) = .ok p := ⟨_, rfl⟩
  exact ⟨p, hp, strings_are_interner_snapshot hp⟩


/-! ## Claim C2 -/

theorem get_cacheInsert :
    ∀ (c : List (String × CachedQueryInfo)) (qid : String) (e : CachedQueryInfo),
      get_from_cache (cacheInsert c qid e) qid = some e := by
  intro c
  induction c with
  | nil =>
    intro qid e
    rw [cacheInsert, get_from_cache]
    rw [if_pos rfl]
  | cons kv rest ih =>
    intro qid e
    obtain ⟨k, v⟩ := kv
    rw [cacheInsert]
    by_cases hk : k = qid
    · rw [if_pos hk, get_from_cache, if_pos rfl]
    · rw [if_neg hk, get_from_cache, if_neg hk]
      exact ih qid e

/-- C2 (amended): a cache hit does not return a stored request - the miss
path stores the entry through `add_to_cache`, whose conversion leaves
`resolution_request = none` - instead the hit recomputes the request with
`create_resolution_request_from_cached` from the cached record and the
interner as it stands at hit time, under the same `query_id` hex string.
The request returned on a hit can therefore differ from the one the
original miss returned (its `strings` snapshot reflects later interning). -/
theorem hit_recomputes_miss_stores_none (cfg : Config)
    (st st2 : ProcState) (q q2 : String) (doc doc2 : Document)
    (en en2 : List FieldPath) (cached : CachedQueryInfo)
    (rp : ResolutionRequest × List String)
    (pr : ParsedQueryInfo × ResolutionRequest × List String)
    (hhit : get_from_cache st.cache (generate_query_id q) = some cached)
    (hrec : create_resolution_request_from_cached cfg st.interner cached
      (generate_query_id q) = .ok rp)
    (hmiss : get_from_cache st2.cache (generate_query_id q2) = none)
    (hpar : parse_graphql cfg st2.interner doc2 q2 en2 = .ok pr) :
    do_parse_query cfg st q doc en = .ok ({ st with interner := rp.2 },
      (generate_query_id q, cached.operation_kind,
        cached.operation_name.getD "", rp.1)) ∧
    do_parse_query cfg st2 q2 doc2 en2 =
      .ok (⟨pr.2.2, add_to_cache st2.cache (generate_query_id q2) pr.1 doc2⟩,
        (generate_query_id q2, pr.1.operation_kind,
          pr.1.operation_name.getD "", pr.2.1)) ∧
    get_from_cache (add_to_cache st2.cache (generate_query_id q2) pr.1 doc2)
        (generate_query_id q2) =
      some ⟨pr.1.operation_kind, pr.1.operation_name, pr.1.field_paths,
        pr.1.column_usage, none, doc2⟩ := by
  refine ⟨?_, ?_, ?_⟩
  · unfold do_parse_query
    simp only [hhit, hrec, except_ok_bind]
    rfl
  · unfold do_parse_query
    simp only [hmiss, hpar, except_ok_bind]
    rfl
  · unfold add_to_cache
    exact get_cacheInsert st2.cache (generate_query_id q2) _

/-- C2 counterexample: a miss on `docA`, a miss on `docB`, then a hit on
`docA`.  The request returned by the hit (`reqA3`) differs from the one
the original miss returned (`reqA1`): its `strings` snapshot now also
holds the names interned for `docB`.  This refutes "returns the request
computed and stored by the first call, unchanged". -/
theorem hit_differs_from_miss_counterexample :
    do_parse_queryC defaultConfig ⟨[], []⟩ "qa" docA =
      .ok (stateA1, ("d95770f3b09b3eb5", .Query, "", reqA1)) ∧
    do_parse_queryC defaultConfig stateA1 "qb" docB =
      .ok (stateB2, ("5bbc89a97aaf2623", .Query, "", reqB2)) ∧
    do_parse_queryC defaultConfig stateB2 "qa" docA =
      .ok (stateB2, ("d95770f3b09b3eb5", .Query, "", reqA3)) ∧
    reqA3 ≠ reqA1 :=
  ⟨by rfl, by rfl, by rfl, by decide⟩

/-- C2 witness: the amended theorem's hypotheses hold on a concrete run -
a hit at `stateA1` and a miss on the empty state, both for `docA`. -/
theorem hit_recomputes_miss_stores_none_witness :
    do_parse_query defaultConfig stateA1 "qa" docA [] =
      .ok ({ stateA1 with interner := rpHit.2 },
        (generate_query_id "qa", cachedA.operation_kind,
          cachedA.operation_name.getD "", rpHit.1)) ∧
    do_parse_query defaultConfig ⟨[], []⟩ "qa" docA
        (canonicalPathEnum defaultConfig [] docA) =
      .ok (⟨prA.2.2, add_to_cache [] (generate_query_id "qa") prA.1 docA⟩,
        (generate_query_id "qa", prA.1.operation_kind,
          prA.1.operation_name.getD "", prA.2.1)) ∧
    get_from_cache (add_to_cache [] (generate_query_id "qa") prA.1 docA)
        (generate_query_id "qa") =
      some ⟨prA.1.operation_kind, prA.1.operation_name, prA.1.field_paths,
        prA.1.column_usage, none, docA⟩ :=
  hit_recomputes_miss_stores_none defaultConfig stateA1 ⟨[], []⟩ "qa" "qa" docA docA
    [] (canonicalPathEnum defaultConfig [] docA) cachedA rpHit prA
    (by rfl) (by rfl) (by rfl) (by rfl)

/-! ## Claim C5 -/

theorem rule_concl_mono {a b : FieldPathExtractor} (hext : Extends a b)
    {path : FieldPath} {name : String}
    (h : ∃ sym, idxOfStr a.interner name = some sym ∧
      colMem a.column_usage path sym ∧ (path ++ [sym]) ∈ a.field_paths) :
    ∃ sym, idxOfStr b.interner name = some sym ∧
      colMem b.column_usage path sym ∧ (path ++ [sym]) ∈ b.field_paths := by
  obtain ⟨sym, h1, h2, h3⟩ := h
  exact ⟨sym, idxOfStr_prefix h1 hext.1, hext.2.2 _ _ h2, hext.2.1 _ h3⟩

theorem filterObjFields_head_rule (st : FieldPathExtractor) (name : String)
    (inner : List ObjField) (rest : List ObjField) (r : FieldPathExtractor)
    (hname : ¬ strStarts name "_" = true)
    (hop : (inner.any fun ch => strStarts ch.name "_") = true)
    (hlen : st.current_path ≠ [])
    (hr : filterObjFields st (.mk name (.obj inner) :: rest) = .ok r) :
    ∃ sym, idxOfStr r.interner name = some sym ∧
      colMem r.column_usage st.current_path sym ∧
      (st.current_path ++ [sym]) ∈ r.field_paths := by
  have hl2 : 1 < (((st.internName name).1.pushPath (st.internName name).2).insertPath
      ((st.internName name).1.pushPath (st.internName name).2).current_path).current_path.length := by
    rw [insertPath_current]
    show 1 < (st.current_path ++ [(st.internName name).2]).length
    simp only [List.length_append, List.length_singleton]
    have h0 : 0 < st.current_path.length := List.length_pos.2 hlen
    omega
  have heq : filterObjFields st (.mk name (.obj inner) :: rest) =
      (extract_filter_paths_from_value
        ((((st.internName name).1.pushPath (st.internName name).2).insertPath
            ((st.internName name).1.pushPath (st.internName name).2).current_path).addColumn
          (((st.internName name).1.pushPath (st.internName name).2).insertPath
            ((st.internName name).1.pushPath (st.internName name).2).current_path).current_path.dropLast
          (st.internName name).2)
        (Value.obj inner)).bind
      (fun stc => filterObjFields stc.popPath rest) := by
    simp only [filterObjFields]
    simp only [if_neg hname]
    rw [if_pos ⟨hop, hl2⟩]
    rfl
  rw [heq] at hr
  obtain ⟨stc, hstc, hrest⟩ := except_bind_ok hr
  obtain ⟨rr, hrr, hss⟩ := filter_value_okStep
    ((((st.internName name).1.pushPath (st.internName name).2).insertPath
        ((st.internName name).1.pushPath (st.internName name).2).current_path).addColumn
      (((st.internName name).1.pushPath (st.internName name).2).insertPath
        ((st.internName name).1.pushPath (st.internName name).2).current_path).current_path.dropLast
      (st.internName name).2) (Value.obj inner)
  obtain rfl : stc = rr := (Except.ok.inj (hrr.symm.trans hstc)).symm
  obtain ⟨rr2, hrr2, hss2⟩ := filterObjFields_okStep stc.popPath rest
  obtain rfl : r = rr2 := (Except.ok.inj (hrr2.symm.trans hrest)).symm
  have hext : Extends ((((st.internName name).1.pushPath (st.internName name).2).insertPath
      ((st.internName name).1.pushPath (st.internName name).2).current_path).addColumn
    (((st.internName name).1.pushPath (st.internName name).2).insertPath
      ((st.internName name).1.pushPath (st.internName name).2).current_path).current_path.dropLast
    (st.internName name).2) r :=
    extendsTrans (extendsTrans hss.2.1 (popPath_extends stc)) hss2.2.1
  refine rule_concl_mono hext ⟨(st.internName name).2, ?_, ?_, ?_⟩
  · show idxOfStr (((st.internName name).1.pushPath (st.internName name).2).insertPath
        ((st.internName name).1.pushPath (st.internName name).2).current_path).interner name =
      some (st.internName name).2
    rw [insertPath_interner]
    exact intern_str_idxOfStr st.interner name
  · have ht : (((st.internName name).1.pushPath (st.internName name).2).insertPath
        ((st.internName name).1.pushPath (st.internName name).2).current_path).current_path.dropLast =
        st.current_path := by
      rw [insertPath_current]
      show (st.current_path ++ [(st.internName name).2]).dropLast = st.current_path
      exact List.dropLast_concat ..
    rw [ht]
    exact colMem_addColUsage _ _ _
  · show (st.current_path ++ [(st.internName name).2]) ∈
      ((((st.internName name).1.pushPath (st.internName name).2).insertPath
        ((st.internName name).1.pushPath (st.internName name).2).current_path)).field_paths
    exact insertPath_mem _ _

theorem filterObjFields_cons_step (st : FieldPathExtractor) (mname : String)
    (mv : Value) (ms : List ObjField) (r : FieldPathExtractor)
    (hr : filterObjFields st (.mk mname mv :: ms) = .ok r) :
    ∃ st1, StepOk st st1 ∧ filterObjFields st1 ms = .ok r := by
  by_cases hus : strStarts mname "_" = true
  · by_cases hao : mname = "_and" ∨ mname = "_or"
    · cases mv with
      | listV items =>
        have heq : filterObjFields st (.mk mname (.listV items) :: ms) =
            (filterListItems st items).bind (fun s => filterObjFields s ms) := by
          simp only [filterObjFields]
          simp only [if_pos hus, if_pos hao]
          rfl
        rw [heq] at hr
        obtain ⟨a, ha, hb⟩ := except_bind_ok hr
        obtain ⟨rr, hrr, hss⟩ := filter_value_okStep st (.listV items)
        rw [extract_filter_paths_from_value] at hrr
        obtain rfl : a = rr := (Except.ok.inj (hrr.symm.trans ha)).symm
        exact ⟨a, hss, hb⟩
      | obj o =>
        have heq : filterObjFields st (.mk mname (.obj o) :: ms) =
            filterObjFields st ms := by
          simp only [filterObjFields]
          simp only [if_pos hus, if_pos hao]
          rfl
        rw [heq] at hr
        exact ⟨st, StepOk.refl st, hr⟩
      | varV x =>
        have heq : filterObjFields st (.mk mname (.varV x) :: ms) =
            filterObjFields st ms := by
          simp only [filterObjFields]
          simp only [if_pos hus, if_pos hao]
          rfl
        rw [heq] at hr
        exact ⟨st, StepOk.refl st, hr⟩
      | scalar =>
        have heq : filterObjFields st (.mk mname .scalar :: ms) =
            filterObjFields st ms := by
          simp only [filterObjFields]
          simp only [if_pos hus, if_pos hao]
          rfl
        rw [heq] at hr
        exact ⟨st, StepOk.refl st, hr⟩
    · have heq : filterObjFields st (.mk mname mv :: ms) = filterObjFields st ms := by
        cases mv <;> simp only [filterObjFields] <;>
          simp only [if_pos hus, if_neg hao] <;> rfl
      rw [heq] at hr
      exact ⟨st, StepOk.refl st, hr⟩
  · cases mv with
    | obj inner =>
      have heq : filterObjFields st (.mk mname (.obj inner) :: ms) =
          (extract_filter_paths_from_value
            (if (inner.any fun ch => strStarts ch.name "_") = true ∧
                1 < (((st.internName mname).1.pushPath (st.internName mname).2).insertPath
                  ((st.internName mname).1.pushPath
                    (st.internName mname).2).current_path).current_path.length
              then (((st.internName mname).1.pushPath (st.internName mname).2).insertPath
                  ((st.internName mname).1.pushPath
                    (st.internName mname).2).current_path).addColumn
                (List.dropLast (((st.internName mname).1.pushPath
                    (st.internName mname).2).insertPath
                  ((st.internName mname).1.pushPath
                    (st.internName mname).2).current_path).current_path)
                (st.internName mname).2
              else (((st.internName mname).1.pushPath (st.internName mname).2).insertPath
                ((st.internName mname).1.pushPath
                  (st.internName mname).2).current_path))
            (Value.obj inner)).bind
          (fun stc => filterObjFields stc.popPath ms) := by
        simp only [filterObjFields]
        simp only [if_neg hus]
        rfl
      rw [heq] at hr
      obtain ⟨stc, hstc, hrest⟩ := except_bind_ok hr
      have h3 : StepOk ((st.internName mname).1.pushPath (st.internName mname).2)
          (((st.internName mname).1.pushPath (st.internName mname).2).insertPath
            ((st.internName mname).1.pushPath (st.internName mname).2).current_path) :=
        ⟨insertPath_current _ _, insertPath_extends _ _, wf_insert_current _⟩
      have hi3 : ((((st.internName mname).1.pushPath (st.internName mname).2).insertPath
          ((st.internName mname).1.pushPath
            (st.internName mname).2).current_path)).interner =
          ((st.internName mname).1.pushPath (st.internName mname).2).interner :=
        insertPath_interner _ _
      have h4 : StepOk (((st.internName mname).1.pushPath (st.internName mname).2).insertPath
          ((st.internName mname).1.pushPath (st.internName mname).2).current_path)
          (if (inner.any fun ch => strStarts ch.name "_") = true ∧
              1 < (((st.internName mname).1.pushPath (st.internName mname).2).insertPath
                ((st.internName mname).1.pushPath
                  (st.internName mname).2).current_path).current_path.length
            then (((st.internName mname).1.pushPath (st.internName mname).2).insertPath
                ((st.internName mname).1.pushPath
                  (st.internName mname).2).current_path).addColumn
              (List.dropLast (((st.internName mname).1.pushPath
                  (st.internName mname).2).insertPath
                ((st.internName mname).1.pushPath
                  (st.internName mname).2).current_path).current_path)
              (st.internName mname).2
            else (((st.internName mname).1.pushPath (st.internName mname).2).insertPath
              ((st.internName mname).1.pushPath
                (st.internName mname).2).current_path)) := by
        split
        · refine ⟨rfl, addColumn_extends _ _ _, ?_⟩
          intro hw
          refine wf_addColumn _ _ _ ?_ ?_ hw
          · exact fun q hq => hw.2.1 q (List.dropLast_subset _ hq)
          · rw [hi3]
            exact SymOk.internName st mname
        · exact StepOk.refl _
      obtain ⟨rr, hrr, hss⟩ := filter_value_okStep _ (Value.obj inner)
      obtain rfl : stc = rr := (Except.ok.inj (hrr.symm.trans hstc)).symm
      exact ⟨stc.popPath, stepOk_of_push ((h3.trans h4).trans hss), hrest⟩
    | listV items =>
      have heq : filterObjFields st (.mk mname (.listV items) :: ms) =
          filterObjFields (if 1 < ((st.internName mname).1.pushPath
              (st.internName mname).2).current_path.length
            then ((st.internName mname).1.pushPath (st.internName mname).2).addColumn
              (List.dropLast ((st.internName mname).1.pushPath
                (st.internName mname).2).current_path) (st.internName mname).2
            else ((st.internName mname).1.pushPath
              (st.internName mname).2)).popPath ms := by
        simp only [filterObjFields]
        simp only [if_neg hus]
        rfl
      rw [heq] at hr
      refine ⟨_, @stepOk_of_push st mname _ ?_, hr⟩
      split
      · refine ⟨rfl, addColumn_extends _ _ _, ?_⟩
        intro hw
        refine wf_addColumn _ _ _ ?_ ?_ hw
        · exact fun q hq => hw.2.1 q (List.dropLast_subset _ hq)
        · exact SymOk.internName st mname
      · exact StepOk.refl _
    | varV x =>
      have heq : filterObjFields st (.mk mname (.varV x) :: ms) =
          filterObjFields (if 1 < ((st.internName mname).1.pushPath
              (st.internName mname).2).current_path.length
            then ((st.internName mname).1.pushPath (st.internName mname).2).addColumn
              (List.dropLast ((st.internName mname).1.pushPath
                (st.internName mname).2).current_path) (st.internName mname).2
            else ((st.internName mname).1.pushPath
              (st.internName mname).2)).popPath ms := by
        simp only [filterObjFields]
        simp only [if_neg hus]
        rfl
      rw [heq] at hr
      refine ⟨_, @stepOk_of_push st mname _ ?_, hr⟩
      split
      · refine ⟨rfl, addColumn_extends _ _ _, ?_⟩
        intro hw
        refine wf_addColumn _ _ _ ?_ ?_ hw
        · exact fun q hq => hw.2.1 q (List.dropLast_subset _ hq)
        · exact SymOk.internName st mname
      · exact StepOk.refl _
    | scalar =>
      have heq : filterObjFields st (.mk mname .scalar :: ms) =
          filterObjFields (if 1 < ((st.internName mname).1.pushPath
              (st.internName mname).2).current_path.length
            then ((st.internName mname).1.pushPath (st.internName mname).2).addColumn
              (List.dropLast ((st.internName mname).1.pushPath
                (st.internName mname).2).current_path) (st.internName mname).2
            else ((st.internName mname).1.pushPath
              (st.internName mname).2)).popPath ms := by
        simp only [filterObjFields]
        simp only [if_neg hus]
        rfl
      rw [heq] at hr
      refine ⟨_, @stepOk_of_push st mname _ ?_, hr⟩
      split
      · refine ⟨rfl, addColumn_extends _ _ _, ?_⟩
        intro hw
        refine wf_addColumn _ _ _ ?_ ?_ hw
        · exact fun q hq => hw.2.1 q (List.dropLast_subset _ hq)
        · exact SymOk.internName st mname
      · exact StepOk.refl _


/-- C5: during filter traversal of a `where` argument object, for every
member whose name does not start with an underscore and whose value is an
object containing at least one operator member (a name starting with an
underscore), if the current path including the member has more than one
segment, then the member's symbol is recorded as a column of the path with
the last segment stripped (the parent path), and the full member path is
recorded as a relationship path.  (In the S3 scenario this makes `avatar`
a column of `["users","profile"]` while `["users","profile"]` is itself a
recorded path.) -/
theorem where_strip_last_segment_rule (st : FieldPathExtractor)
    (members : List ObjField) (name : String) (inner : List ObjField)
    (r : FieldPathExtractor)
    (hmem : ObjField.mk name (.obj inner) ∈ members)
    (hname : ¬ strStarts name "_" = true)
    (hop : (inner.any fun ch => strStarts ch.name "_") = true)
    (hlen : st.current_path ≠ [])
    (hr : filterObjFields st members = .ok r) :
    ∃ sym, idxOfStr r.interner name = some sym ∧
      colMem r.column_usage st.current_path sym ∧
      (st.current_path ++ [sym]) ∈ r.field_paths := by
  induction members generalizing st with
  | nil => exact absurd hmem (List.not_mem_nil _)
  | cons m ms ih =>
    cases List.mem_cons.1 hmem with
    | inl he =>
      cases he
      exact filterObjFields_head_rule st name inner ms r hname hop hlen hr
    | inr ht =>
      obtain ⟨mn, mvv⟩ := m
      obtain ⟨st1, hstep, hrest⟩ := filterObjFields_cons_step st mn mvv ms r hr
      have hcp : st1.current_path = st.current_path := hstep.1
      have hlen1 : st1.current_path ≠ [] := by
        rw [hcp]
        exact hlen
      have hres := ih st1 ht hlen1 hrest
      rw [hcp] at hres
      exact hres

/-- C5 witness: the rule applied to the S3 `where` subobject
`{ avatar: { _eq: ... } }` at the concrete state whose current path is
`["users","profile"]` (symbols `[0, 1]`). -/
theorem where_strip_last_segment_rule_witness :
    ∃ r, filterObjFields ⟨[], [0, 1], [], ["users", "profile"]⟩
        [.mk "avatar" (.obj [.mk "_eq" .scalar])] = .ok r ∧
      ∃ sym, idxOfStr r.interner "avatar" = some sym ∧
        colMem r.column_usage [0, 1] sym ∧ ([0, 1] ++ [sym]) ∈ r.field_paths := by
  obtain ⟨r, hr⟩ : ∃ r, filterObjFields
      (⟨[], [0, 1], [], ["users", "profile"]⟩ : FieldPathExtractor)
      [.mk "avatar" (.obj [.mk "_eq" .scalar])] = .ok r := ⟨_, rfl⟩
  refine ⟨r, hr, ?_⟩
  exact where_strip_last_segment_rule _ _ "avatar" [.mk "_eq" .scalar] r
    (List.mem_cons_self _ _) (by decide) (by rfl) (by decide) hr


/-! ## Claim C1 -/

theorem insertLe_perm {α : Type} (le : α → α → Bool) (x : α) :
    ∀ (l : List α), (insertLe le x l).Perm (x :: l) := by
  intro l
  induction l with
  | nil => exact List.Perm.refl _
  | cons y ys ih =>
    rw [insertLe]
    split
    · exact List.Perm.refl _
    · exact (ih.cons y).trans (List.Perm.swap x y ys)

theorem sortByLe_perm {α : Type} (le : α → α → Bool) :
    ∀ (l : List α), (sortByLe le l).Perm l := by
  intro l
  induction l with
  | nil => exact List.Perm.refl _
  | cons x xs ih =>
    rw [sortByLe]
    exact (insertLe_perm le x (sortByLe le xs)).trans (ih.cons x)

/-- C1 (amended): a first (miss) call on an empty cache, with any hash-set
enumeration `en` of the extracted path set, followed by a second (hit) call
on the same query text, yields requests that agree on `query_id`, `strings`
and `ops`, and whose decoded path lists and cols arrays are permutations of
each other.  Byte-identical `paths` (and cols order) is NOT guaranteed: the
miss encoder iterates the hash set in `en`'s order, while the hit
re-encoder first sorts the path set by its symbol-index keys. -/
theorem miss_then_hit_agree (cfg : Config) (I : List String) (q : String)
    (doc : Document) (en en2 : List FieldPath) (st1 st2 : ProcState)
    (r1 r2 : String × GraphQLOperationKind × String × ResolutionRequest)
    (hen : en.Perm (canonicalPathEnum cfg I doc))
    (h1 : do_parse_query cfg ⟨I, []⟩ q doc en = .ok (st1, r1))
    (h2 : do_parse_query cfg st1 q doc en2 = .ok (st2, r2)) :
    r2.2.2.2.query_id = r1.2.2.2.query_id ∧
    r2.2.2.2.strings = r1.2.2.2.strings ∧
    r2.2.2.2.ops = r1.2.2.2.ops ∧
    (decode_paths r2.2.2.2.paths).Perm (decode_paths r1.2.2.2.paths) ∧
    r2.2.2.2.cols.Perm r1.2.2.2.cols := by
  unfold do_parse_query at h1
  have hc0 : get_from_cache (ProcState.mk I []).cache (generate_query_id q) = none := rfl
  simp only [hc0] at h1
  obtain ⟨pr, hpr, hb⟩ := except_bind_ok h1
  obtain ⟨k, ex, pe, cols1, om, hcheck, hdet, hex, hpe, hcols, hops, hpreq⟩ :=
    parse_graphql_ok_elim hpr
  subst hpreq
  have hb2 := Except.ok.inj hb
  injection hb2 with hst1 hr1
  have hom1 : om.1 = (build_symbol_to_index (get_all_strings ex.interner) ex.interner).1 :=
    ops_defs_stable cfg _ "Field not found in mapping"
      doc.definitions _ [] om (bm_keys_lt_fst ex.interner) hops
  rw [bm_fst] at hom1
  obtain rfl : st1 = ProcState.mk om.1 (add_to_cache ([] : List (String × CachedQueryInfo))
      (generate_query_id q)
      (⟨k, extract_operation_name doc.definitions, ex.field_paths, ex.column_usage⟩ :
        ParsedQueryInfo) doc) := hst1.symm
  obtain rfl : r1 = (generate_query_id q, k, (extract_operation_name doc.definitions).getD "",
      (⟨generate_query_id q, get_all_strings ex.interner, pe.1, pe.2.1, pe.2.2,
        cols1, om.2⟩ : ResolutionRequest)) := hr1.symm
  unfold do_parse_query at h2
  have hget : get_from_cache (ProcState.mk om.1 (add_to_cache
      ([] : List (String × CachedQueryInfo)) (generate_query_id q)
      (⟨k, extract_operation_name doc.definitions, ex.field_paths, ex.column_usage⟩ :
        ParsedQueryInfo) doc)).cache (generate_query_id q) =
      some ⟨k, extract_operation_name doc.definitions, ex.field_paths, ex.column_usage,
        none, doc⟩ := by
    show get_from_cache (add_to_cache ([] : List (String × CachedQueryInfo))
      (generate_query_id q) _ doc) (generate_query_id q) = _
    unfold add_to_cache
    exact get_cacheInsert _ _ _
  simp only [hget] at h2
  simp only [hom1] at h2
  obtain ⟨rp, hrp, hb3⟩ := except_bind_ok h2
  obtain ⟨pe2, cols2, om2, hpe2, hcols2, hops2, hrpeq⟩ := crrfc_ok_elim hrp
  subst hrpeq
  have hb4 := Except.ok.inj hb3
  injection hb4 with hst2 hr2
  obtain rfl : r2 = (generate_query_id q,
      (⟨k, extract_operation_name doc.definitions, ex.field_paths, ex.column_usage,
        none, doc⟩ : CachedQueryInfo).operation_kind,
      ((⟨k, extract_operation_name doc.definitions, ex.field_paths, ex.column_usage,
        none, doc⟩ : CachedQueryInfo).operation_name).getD "",
      (⟨generate_query_id q, get_all_strings ex.interner, pe2.1, pe2.2.1, pe2.2.2,
        cols2, om2.2⟩ : ResolutionRequest)) := hr2.symm
  -- shared facts
  obtain ⟨hpre, hwf⟩ := extract_ok_grow cfg I doc ex hex
  have hcanon := canonicalPathEnum_eq hex
  rw [hcanon] at hen
  have hsorted : (sortByLe (fun a b =>
      lexLe (pathSortKey (build_symbol_to_index (get_all_strings ex.interner)
        ex.interner).2 a)
        (pathSortKey (build_symbol_to_index (get_all_strings ex.interner)
          ex.interner).2 b)) ex.field_paths).Perm ex.field_paths :=
    sortByLe_perm _ ex.field_paths
  have hsyms1 := encodePathsLoop_sound en [] [] [] pe hpe
  have hsymsS : ∀ p ∈ (sortByLe (fun a b =>
      lexLe (pathSortKey (build_symbol_to_index (get_all_strings ex.interner)
        ex.interner).2 a)
        (pathSortKey (build_symbol_to_index (get_all_strings ex.interner)
          ex.interner).2 b)) ex.field_paths), ∀ s ∈ p, SymOk ex.interner s := by
    intro p hp
    exact hwf.1 p (hsorted.mem_iff.1 hp)
  have hcu : ∀ tc ∈ ex.column_usage, ∀ s ∈ tc.2, SymOk ex.interner s :=
    fun tc htc => (hwf.2.2 tc htc).2
  -- characterize the four encodings
  have hpe1c := encodePathsLoop_eq en ([] : List Nat) ([] : List Nat) ([] : List Nat) hsyms1
  have hpe1v : pe = ([] ++ pathBlocksFlat en, [] ++ pathDirsFrom [].length en,
      [] ++ en.map (fun p => if p.length = 1 then 0 else 1)) :=
    (Except.ok.inj (hpe1c.symm.trans hpe)).symm
  have hpe2c := encodePathsLoop_eq (sortByLe (fun a b =>
      lexLe (pathSortKey (build_symbol_to_index (get_all_strings ex.interner)
        ex.interner).2 a)
        (pathSortKey (build_symbol_to_index (get_all_strings ex.interner)
          ex.interner).2 b)) ex.field_paths)
      ([] : List Nat) ([] : List Nat) ([] : List Nat) hsymsS
  have hpe2v : pe2 = ([] ++ pathBlocksFlat (sortByLe (fun a b =>
      lexLe (pathSortKey (build_symbol_to_index (get_all_strings ex.interner)
        ex.interner).2 a)
        (pathSortKey (build_symbol_to_index (get_all_strings ex.interner)
          ex.interner).2 b)) ex.field_paths),
      [] ++ pathDirsFrom [].length (sortByLe (fun a b =>
      lexLe (pathSortKey (build_symbol_to_index (get_all_strings ex.interner)
        ex.interner).2 a)
        (pathSortKey (build_symbol_to_index (get_all_strings ex.interner)
          ex.interner).2 b)) ex.field_paths),
      [] ++ (sortByLe (fun a b =>
      lexLe (pathSortKey (build_symbol_to_index (get_all_strings ex.interner)
        ex.interner).2 a)
        (pathSortKey (build_symbol_to_index (get_all_strings ex.interner)
          ex.interner).2 b)) ex.field_paths).map (fun p => if p.length = 1 then 0 else 1)) :=
    (Except.ok.inj (hpe2c.symm.trans hpe2)).symm
  have hcols1v : cols1 = [] ++ en.filterMap (colsEntryFor
      (build_symbol_to_index (get_all_strings ex.interner) ex.interner).2
      ex.column_usage) :=
    (Except.ok.inj ((encodeColsLoop_eq hcu en ([] : List (Nat × List Nat))
      hsyms1).symm.trans hcols)).symm
  have hcols2v : cols2 = [] ++ (sortByLe (fun a b =>
      lexLe (pathSortKey (build_symbol_to_index (get_all_strings ex.interner)
        ex.interner).2 a)
        (pathSortKey (build_symbol_to_index (get_all_strings ex.interner)
          ex.interner).2 b)) ex.field_paths).filterMap (colsEntryFor
      (build_symbol_to_index (get_all_strings ex.interner) ex.interner).2
      ex.column_usage) :=
    (Except.ok.inj ((encodeColsCachedLoop_eq hcu _ ([] : List (Nat × List Nat))
      hsymsS).symm.trans hcols2)).symm
  have homeq : om2 = om :=
    (Except.ok.inj ((ops_defs_err_irrel cfg _ "Field not found in mapping"
      "Field symbol not found in mapping" doc.definitions _ [] om hops).symm.trans hops2)).symm
  refine ⟨rfl, rfl, ?_, ?_, ?_⟩
  · show om2.2 = om.2
    rw [homeq]
  · show (decode_paths pe2.1).Perm (decode_paths pe.1)
    rw [hpe1v, hpe2v]
    simp only [List.nil_append]
    rw [decode_pathBlocksFlat, decode_pathBlocksFlat]
    exact hsorted.trans hen.symm
  · show cols2.Perm cols1
    rw [hcols1v, hcols2v]
    simp only [List.nil_append]
    exact (hsorted.trans hen.symm).filterMap _


set_option maxHeartbeats 1600000 in
/-- C1 counterexample: on `docBA`, a miss call whose hash-set enumeration is
`[[2], [0]]` (a legitimate enumeration of the extracted path set
`[[0], [2]]`) followed by a hit call on the same query text produces
`paths` arrays `[1, 2, 1, 0]` and `[1, 0, 1, 2]` - NOT byte-identical -
even though `strings` and `ops` agree and `cols` agree after sorting.
This refutes "two calls produce byte-identical paths arrays". -/
theorem miss_then_hit_counterexample :
    do_parse_query defaultConfig ⟨[], []⟩ "qba" docBA [[2], [0]] =
      .ok (stateBA1, ("240e6a2525e6c5de", .Query, "", reqBA1)) ∧
    do_parse_query defaultConfig stateBA1 "qba" docBA [[2], [0]] =
      .ok (stateBA1, ("240e6a2525e6c5de", .Query, "", reqBA2)) ∧
    ([[2], [0]] : List FieldPath).Perm (canonicalPathEnum defaultConfig [] docBA) ∧
    reqBA2.paths ≠ reqBA1.paths ∧
    reqBA2.strings = reqBA1.strings ∧
    reqBA2.ops = reqBA1.ops ∧
    sortCols reqBA2.cols = sortCols reqBA1.cols := by
  refine ⟨by rfl, by rfl, ?_, by decide, rfl, rfl, by decide⟩
  have hc : canonicalPathEnum defaultConfig [] docBA = [[0], [2]] := by rfl
  rw [hc]
  exact List.Perm.swap _ _ _

set_option maxHeartbeats 1600000 in
/-- C1 witness: the amended theorem applied to the concrete `docBA` run. -/
theorem miss_then_hit_agree_witness :
    ("240e6a2525e6c5de", GraphQLOperationKind.Query, "",
        reqBA2).2.2.2.query_id =
      ("240e6a2525e6c5de", GraphQLOperationKind.Query, "", reqBA1).2.2.2.query_id ∧
    ("240e6a2525e6c5de", GraphQLOperationKind.Query, "",
        reqBA2).2.2.2.strings =
      ("240e6a2525e6c5de", GraphQLOperationKind.Query, "", reqBA1).2.2.2.strings ∧
    ("240e6a2525e6c5de", GraphQLOperationKind.Query, "",
        reqBA2).2.2.2.ops =
      ("240e6a2525e6c5de", GraphQLOperationKind.Query, "", reqBA1).2.2.2.ops ∧
    (decode_paths ("240e6a2525e6c5de", GraphQLOperationKind.Query, "",
        reqBA2).2.2.2.paths).Perm
      (decode_paths ("240e6a2525e6c5de", GraphQLOperationKind.Query, "",
        reqBA1).2.2.2.paths) ∧
    ("240e6a2525e6c5de", GraphQLOperationKind.Query, "",
        reqBA2).2.2.2.cols.Perm
      ("240e6a2525e6c5de", GraphQLOperationKind.Query, "", reqBA1).2.2.2.cols := by
  refine miss_then_hit_agree defaultConfig [] "qba" docBA [[2], [0]] [[2], [0]]
    stateBA1 stateBA1 ("240e6a2525e6c5de", .Query, "", reqBA1)
    ("240e6a2525e6c5de", .Query, "", reqBA2) ?_ (by rfl) (by rfl)
  have hc : canonicalPathEnum defaultConfig [] docBA = [[0], [2]] := by rfl
  rw [hc]
  exact List.Perm.swap _ _ _



